import Mathlib

/-!
# CodexFS — verification of spec claims against a shallow embedding

This file embeds, in Lean, the parts of the CodexFS sources that the
spec claims C1–C10 are about:

* `src/codexfs-core/src/utils.rs` — `round_up` / `round_down`;
* `src/codexfs-core/src/lib.rs` — on-disk constants (`CODEXFS_MAGIC`,
  `CODEXFS_BLKSIZ`, dirent size);
* `src/codexfs-core/src/sb.rs` — superblock dump / load (magic check);
* `src/codexfs-core/src/inode.rs` — the compression pipeline's extent
  assignment loop (`mkfs_dump_inode_file_data`), `push_extent`, the
  directory serialiser (`mkfs_dump_inode`, dir branch), the build tree
  walk (`mkfs_load_inode`), and the mount read path
  (`fuse_read_inode_file`);
* `src/codexfs-core/src/buffer.rs` — the two-kind block allocator
  (`balloc` / `bfind` / `balloc_contig`);
* `src/codexfs-core/src/compress.rs` — the reorder step
  (`select_initial_node`, `nearest_neighbor_dual_end`,
  `two_opt_optimize`, `calculate_total_cost`).

Machine integers of the source (u16/u32/u64) are embedded as `Nat`;
wherever wrap-around behaviour matters to a claim (the u32 subtraction
in the read path) the modular arithmetic is made explicit
(`u32_wrapping_sub`).  The MicroLZMA encoder/decoder is external to the
repository (the `xz2` crate); it is treated as an abstract codec: an
encoder invocation is represented by the number of input bytes it
consumed (`total_in`) and a block's decompressed content is represented
directly by the fragment byte list the decoder would produce.
-/

namespace CodexFS

/-! ## utils.rs

The source computes `round_up(v, a) = (v + a - 1) & !(a - 1)` and
`round_down(v, a) = v & !(a - 1)`; every alignment used by the program
is a power of two (1, the inode-slot size 64, or the block size
`2^blksz_bits`), for which the bit formulas agree with the arithmetic
forms below. -/

def round_up (value alignment : Nat) : Nat :=
  ((value + alignment - 1) / alignment) * alignment

def round_down (value alignment : Nat) : Nat :=
  (value / alignment) * alignment

theorem round_up_dvd (v a : Nat) : a ∣ round_up v a :=
  Dvd.intro_left _ rfl

theorem le_round_up (v a : Nat) (ha : 0 < a) : v ≤ round_up v a := by
  unfold round_up
  have hmod : (v + a - 1) % a < a := Nat.mod_lt _ ha
  have hdm : (v + a - 1) / a * a + (v + a - 1) % a = v + a - 1 :=
    Nat.div_add_mod' (v + a - 1) a
  omega

theorem round_up_le (v a m : Nat) (ha : 0 < a) (hv : v ≤ m) (hm : a ∣ m) :
    round_up v a ≤ m := by
  obtain ⟨k, hk⟩ := hm
  subst hk
  unfold round_up
  have hdiv : (v + a - 1) / a ≤ k := by
    have hlt : (v + a - 1) / a < k + 1 := by
      rw [Nat.div_lt_iff_lt_mul ha]
      calc v + a - 1 < a * k + a := by omega
      _ = (k + 1) * a := by ring
    omega
  calc (v + a - 1) / a * a ≤ k * a := Nat.mul_le_mul_right a hdiv
  _ = a * k := Nat.mul_comm _ _

theorem round_up_eq_self (v a : Nat) (h : a ∣ v) : round_up v a = v := by
  rcases Nat.eq_zero_or_pos a with ha | ha
  · obtain ⟨k, hk⟩ := h
    simp [round_up, ha, hk]
  · obtain ⟨k, hk⟩ := h
    subst hk
    unfold round_up
    have h1 : a * k + a - 1 = a * k + (a - 1) := by omega
    rw [h1, Nat.mul_add_div ha]
    have h2 : (a - 1) / a = 0 := Nat.div_eq_of_lt (by omega)
    rw [h2]
    ring

theorem round_up_lt_add (v a : Nat) (ha : 0 < a) : round_up v a < v + a := by
  unfold round_up
  have h1 : (v + a - 1) / a * a ≤ v + a - 1 := Nat.div_mul_le_self _ _
  omega

/-! ## lib.rs constants -/

/-- `pub const CODEXFS_MAGIC: u32 = 0x114514;` -/
def CODEXFS_MAGIC : Nat := 0x114514

def CODEXFS_BLKSIZ_BITS : Nat := 12

/-- `pub const CODEXFS_BLKSIZ: u16 = 1 << CODEXFS_BLKSIZ_BITS;` -/
def CODEXFS_BLKSIZ : Nat := 1 <<< CODEXFS_BLKSIZ_BITS

def CODEXFS_ISLOT_BITS : Nat := 6

/-- `size_of::<CodexFsDirent>()` = 12 (nid u64 + nameoff u16 + file_type u8 + reserved u8, packed). -/
def codexfs_dirent_size : Nat := 12

/-! ## sb.rs — superblock magic (C8)

Only the fields relevant to the magic check are modelled. -/

structure CodexFsSuperBlock where
  magic : Nat
  blkszbits : Nat
  root_nid : Nat
  deriving Repr, DecidableEq

/-- `impl From<&SuperBlock> for CodexFsSuperBlock`: mkfs writes
`magic: CODEXFS_MAGIC`. -/
def mkfs_codexfs_super_block (blkszbits root_nid : Nat) : CodexFsSuperBlock :=
  { magic := CODEXFS_MAGIC, blkszbits := blkszbits, root_nid := root_nid }

/-- `fuse_load_super_block` reads the on-disk superblock and
`assert_eq!(magic, CODEXFS_MAGIC)`: loading succeeds iff the stored
magic equals `CODEXFS_MAGIC`. -/
def fuse_load_super_block_ok (sb : CodexFsSuperBlock) : Bool :=
  sb.magic == CODEXFS_MAGIC

/-! ## inode.rs — data-block write (C2)

In `mkfs_dump_inode_file_data` the output buffer is
`let mut output = [0; CODEXFS_BLKSIZ as usize]` (zero-initialised,
declared before the loop); `stream.process(&input, &mut output, Finish)`
fills `output[0 .. total_out]` with the compressed bytes starting at
index 0; then `img_file.write_all_at(&output, woff)` writes the whole
buffer to the allocated block.  The model below is the block content as
written on the first loop iteration (on later iterations the bytes past
`total_out` are stale bytes of the previous iteration rather than
zeros). -/

def mkfs_dump_data_block (total_out_bytes : List Nat) : List Nat :=
  total_out_bytes ++ List.replicate (CODEXFS_BLKSIZ - total_out_bytes.length) 0

/-- Claim C2's property, as stated by the spec, of the block emitted for
a given compressed payload: the payload occupies the trailing
`total_out` bytes and the leading `B - total_out` bytes are zero. -/
def claim_right_aligned (total_out_bytes : List Nat) : Prop :=
  mkfs_dump_data_block total_out_bytes =
    List.replicate (CODEXFS_BLKSIZ - total_out_bytes.length) 0 ++ total_out_bytes

/-- `fuse_read_inode_file` chooses the compressed length of a block:
`end_data_blk_sz` for the end block, `CODEXFS_BLKSIZ` otherwise
(there is no leading-zero-margin scan anywhere in the code). -/
def fuse_comp_size (end_data_blk_id end_data_blk_sz blk_id : Nat) : Nat :=
  if end_data_blk_id = blk_id then end_data_blk_sz else CODEXFS_BLKSIZ

/-- The MicroLZMA decoder is handed the whole block buffer from its
start and consumes exactly `comp_size` bytes from the front: the
compressed payload the reader sees is the leading `comp_size` bytes. -/
def fuse_block_payload (block : List Nat) (comp_size : Nat) : List Nat :=
  block.take comp_size

/-! ## inode.rs — mount read path (C1, C10)

`fuse_read_inode_file(inode, off: u32, len: u32)`:

```
let len = min(len, common.size - off);            // u32 arithmetic
let mut len_left = len;
let mut buf = Vec::new();
let i = file.extents.partition_point(|&e| e.off <= off);
for (i, e) in file.extents.iter().enumerate().skip(i - 1) {
    // decompress block blk_id + i into `output`
    let len_consumed = min(len_left, stream.total_out() as u32 - e.frag_off);
    buf.extend(&output[e.frag_off as _..(e.frag_off + len_consumed) as _]);
    len_left -= len_consumed;
    if len_left == 0 { break; }
}
```

The decompressed fragment of the block holding extent `i` is passed in
as `frags[i]` (`output`, `stream.total_out()` = its length).  The u32
subtraction `common.size - off` is modelled with explicit wrap-around;
`partition_point` on the (sorted, invariant A) extent list equals the
length of the `takeWhile` prefix. -/

def U32_MOD : Nat := 2 ^ 32

def u32_wrapping_sub (a b : Nat) : Nat :=
  (a + U32_MOD - b % U32_MOD) % U32_MOD

structure CodexFsExtent where
  off : Nat
  frag_off : Nat
  deriving Repr, DecidableEq

def fuse_read_loop : List (CodexFsExtent × List Nat) → Nat → List Nat
  | [], _ => []
  | (e, output) :: rest, len_left =>
    let len_consumed := min len_left (output.length - e.frag_off)
    let chunk := (output.drop e.frag_off).take len_consumed
    if len_left - len_consumed = 0 then chunk
    else chunk ++ fuse_read_loop rest (len_left - len_consumed)

def fuse_read_inode_file (extents : List CodexFsExtent) (frags : List (List Nat))
    (size off len : Nat) : List Nat :=
  let len := min len (u32_wrapping_sub size off)
  let i := (extents.takeWhile (fun e => decide (e.off ≤ off))).length
  fuse_read_loop ((extents.zip frags).drop (i - 1)) len

/-- `CodexFs::read` (codexfs-fuse/src/fuse.rs): after `assert!(offset >= 0)`
the kernel-supplied offset and size are passed through to
`fuse_read_inode_file(inode, offset as _, size as _)` with no check
against the file size. -/
def codexfs_fuse_read (extents : List CodexFsExtent) (frags : List (List Nat))
    (size offset reqsize : Nat) : List Nat :=
  fuse_read_inode_file extents frags size offset reqsize

/-! ## inode.rs — build-side extent assignment (C3, and the build half of C1)

`mkfs_dump_inode_file_data` (compressed pipeline, the extent loop):

```
while (cmpr.off as usize) < cmpr.origin_data.len() {
    // fresh MicroLZMA encoder; consumes total_in bytes of the
    // remaining stream into one block-sized output buffer
    let mut frag_off = 0;
    while frag_off < stream.total_in() {
        let len = min(stream.total_in() - frag_off,
                      *off + inode.size as u64 - cmpr.off);
        if inode.push_extent((cmpr.off - *off) as _, len as _, frag_off as _)
               .is_none() {
            let Some((_off, _inode)) = it.next() else {
                cmpr.off += len; break;
            };
            off = _off; inode = _inode;
        };
        cmpr.off += len;
        frag_off += len;
    }
}
```

The encoder is abstract: a run is parameterised by the list of
`total_in` values of the successive encoder invocations (`frags`); the
encoder consumes at least one byte and at most the remaining stream, so
theorems hypothesise `1 ≤ c` and `frags.sum = origin_data.len()`.
`files` is the reordered file vector paired with cumulative start
offsets (`*off` of the iterator); each pushed extent is recorded as an
`ExtentEvent` tagged with the file's position in that vector. -/

structure ExtentEvent where
  fidx : Nat
  off : Nat
  frag_off : Nat
  len : Nat
  deriving Repr, DecidableEq

inductive PushResult where
  | continueFile
  | fileDone
  | panic
  deriving Repr, DecidableEq

/-- `Inode::push_extent`: records extent `{off, frag_off}` and matches
on `(off + len).cmp(&common.size)`: `Less => Some(())`,
`Equal => None`, `Greater => panic!()`. -/
def push_extent (size off len : Nat) : PushResult :=
  if off + len < size then .continueFile
  else if off + len = size then .fileDone
  else .panic

theorem push_extent_continue {size off len : Nat}
    (h : push_extent size off len = .continueFile) : off + len < size := by
  unfold push_extent at h
  split at h
  · assumption
  · split at h <;> simp_all

theorem push_extent_done {size off len : Nat}
    (h : push_extent size off len = .fileDone) : off + len = size := by
  unfold push_extent at h
  split at h
  · simp_all
  · split at h <;> simp_all

theorem push_extent_not_panic {size off len : Nat}
    (h : off + len ≤ size) : push_extent size off len ≠ .panic := by
  unfold push_extent
  split
  · simp
  · split <;> simp_all <;> omega

/-- The inner `while frag_off < stream.total_in()` loop over one
fragment.  `files` is the iterator's remaining `(f_start, inode)` list
(current file first, each inode represented by its size), `fidx` its
position in the full vector, `g` = `cmpr.off`, `c` = `total_in`,
`fo` = `frag_off`.  Returns the pushed events, the new `cmpr.off`, the
remaining files, the new file position, and `false` if `push_extent`
panicked. -/
def frag_loop : List (Nat × Nat) → Nat → Nat → Nat → Nat →
    List ExtentEvent × Nat × List (Nat × Nat) × Nat × Bool
  | [], fidx, g, _, _ => ([], g, [], fidx, true)
  | (fs, sz) :: rest, fidx, g, c, fo =>
    if hfo : fo < c then
      let len := min (c - fo) (fs + sz - g)
      let e : ExtentEvent := ⟨fidx, g - fs, fo, len⟩
      if hp : push_extent sz (g - fs) len = .continueFile then
        let r := frag_loop ((fs, sz) :: rest) fidx (g + len) c (fo + len)
        (e :: r.1, r.2)
      else if hp2 : push_extent sz (g - fs) len = .fileDone then
        match rest with
        | [] => ([e], g + len, [], fidx + 1, true)
        | f2 :: rest2 =>
          let r := frag_loop (f2 :: rest2) (fidx + 1) (g + len) c (fo + len)
          (e :: r.1, r.2)
      else ([e], g, (fs, sz) :: rest, fidx, false)
    else ([], g, (fs, sz) :: rest, fidx, true)
  termination_by files _ _ c fo => files.length + (c - fo)
  decreasing_by
  · have hc := push_extent_continue hp
    simp only [len] at hc ⊢
    simp only [List.length_cons]
    omega
  · simp only [List.length_cons]
    omega

/-- The outer `while cmpr.off < origin_data.len()` loop, one iteration
per encoder invocation (`frags` holds the successive `total_in`s). -/
def mkfs_dump_loop : List Nat → List (Nat × Nat) → Nat → Nat → Nat →
    List ExtentEvent × Nat × List (Nat × Nat) × Nat × Bool
  | [], files, fidx, g, _ => ([], g, files, fidx, true)
  | c :: cs, files, fidx, g, total =>
    if g < total then
      let r := frag_loop files fidx g c 0
      let r' := mkfs_dump_loop cs r.2.2.1 r.2.2.2.1 r.2.1 total
      (r.1 ++ r'.1, r'.2.1, r'.2.2.1, r'.2.2.2.1, r.2.2.2.2 && r'.2.2.2.2)
    else ([], g, files, fidx, true)

/-- The compress manager's `files` vector paired with cumulative start
offsets: `files[i] = (Σ_{j<i} size_j, size_i)` (spec §4.5: `f_start`
advances by `file.size` when the iterator moves on). -/
def files_from : List Nat → Nat → List (Nat × Nat)
  | [], _ => []
  | sz :: rest, acc => (acc, sz) :: files_from rest (acc + sz)

/-- Whole pipeline: `origin_data.len() = sizes.sum` because
`origin_data` is the concatenation of the (reordered) file contents. -/
def mkfs_dump_inode_file_data (sizes frags : List Nat) :
    List ExtentEvent × Bool :=
  let r := mkfs_dump_loop frags (files_from sizes 0) 0 0 sizes.sum
  (r.1, r.2.2.2.2)

/-- The extent list `push_extent` accumulated on file number `fidx`. -/
def extents_of (fidx : Nat) (events : List ExtentEvent) : List CodexFsExtent :=
  (events.filter (fun e => e.fidx == fidx)).map (fun e => ⟨e.off, e.frag_off⟩)

/-- The events recorded on file number `i`. -/
def FileView (events : List ExtentEvent) (i : Nat) : List ExtentEvent :=
  events.filter (fun e => e.fidx == i)

/-- End offset of the last file of a `(start, size)` list (0 when empty). -/
def lastEnd : List (Nat × Nat) → Nat
  | [] => 0
  | [p] => p.1 + p.2
  | _ :: p :: rest => lastEnd (p :: rest)

/-- Postcondition of one run of the inner fragment loop. -/
structure FragPost (fl : List (Nat × Nat)) (fidx g c fo : Nat)
    (r : List ExtentEvent × Nat × List (Nat × Nat) × Nat × Bool) : Prop where
  ok : r.2.2.2.2 = true
  gout : r.2.1 = g + (c - fo)
  dropped : ∃ d, d ≤ fl.length ∧ r.2.2.1 = fl.drop d ∧ r.2.2.2.1 = fidx + d
  gend : r.2.2.1 = [] → r.2.1 = lastEnd fl
  headInv : r.2.2.1 ≠ [] → (r.2.2.1.headD (0, 0)).1 ≤ r.2.1 ∧
    (r.2.1 = (r.2.2.1.headD (0, 0)).1 ∨
     r.2.1 < (r.2.2.1.headD (0, 0)).1 + (r.2.2.1.headD (0, 0)).2)
  range : ∀ e ∈ r.1, fidx ≤ e.fidx ∧ e.fidx ≤ r.2.2.2.1
  firstev : ∀ e ∈ r.1,
    (e.fidx = fidx → e.off = g - (fl.headD (0, 0)).1 ∧ e.frag_off = fo) ∧
    (e.fidx ≠ fidx → e.off = 0)
  pops : ∀ i, fidx ≤ i → i < r.2.2.2.1 → ∃ e, FileView r.1 i = [e] ∧
    e.off = g - (fl.getD (i - fidx) (0, 0)).1 ∧
    e.off + e.len = (fl.getD (i - fidx) (0, 0)).2
  midway : r.2.2.1 ≠ [] →
    (FileView r.1 r.2.2.2.1 = [] ∧
      r.2.1 - (r.2.2.1.headD (0, 0)).1 =
        (if r.2.2.2.1 = fidx then g - (fl.headD (0, 0)).1 else 0)) ∨
    (∃ e, FileView r.1 r.2.2.2.1 = [e] ∧
      e.off = (if r.2.2.2.1 = fidx then g - (fl.headD (0, 0)).1 else 0) ∧
      e.off + e.len = r.2.1 - (r.2.2.1.headD (0, 0)).1 ∧
      e.off < r.2.1 - (r.2.2.1.headD (0, 0)).1)

/-- Postcondition of the outer extent pipeline loop. -/
structure DumpPost (sizes : List Nat) (fidx g : Nat)
    (r : List ExtentEvent × Nat × List (Nat × Nat) × Nat × Bool) : Prop where
  ok : r.2.2.2.2 = true
  range : ∀ e ∈ r.1, fidx ≤ e.fidx
  binv : ∀ e ∈ r.1, e.off = 0 ∨ e.frag_off = 0
  peri : ∀ i, fidx ≤ i → i < sizes.length →
    List.Chain' (fun a b => a.off < b.off) (FileView r.1 i) ∧
    (∀ e, (FileView r.1 i).head? = some e →
      e.off = g - (sizes.take i).sum) ∧
    ((∃ e, (FileView r.1 i).getLast? = some e ∧
        e.off + e.len = sizes.getD i 0) ∨
     (FileView r.1 i = [] ∧ g - (sizes.take i).sum = sizes.getD i 0))

/-! ## compress.rs — reorder step (C5, C9)

`diff_mat[i][j]` access (Rust panics out of bounds; the model totalises
with default 0, theorems only use in-bounds indices). -/

def diff (mat : List (List Nat)) (i j : Nat) : Nat :=
  ((mat.getD i []).getD j 0)

/-- Rust's `Iterator::min_by_key` over a non-empty traversal
`x :: xs`: returns the first element attaining the minimum key. -/
def min_by_key_first (key : Nat → Nat) (x : Nat) (xs : List Nat) : Nat :=
  xs.foldl (fun best n => if key n < key best then n else best) x

theorem min_by_key_first_mem (key : Nat → Nat) (x : Nat) (xs : List Nat) :
    min_by_key_first key x xs ∈ x :: xs := by
  induction xs generalizing x with
  | nil => simp [min_by_key_first]
  | cons y ys ih =>
    unfold min_by_key_first
    rw [List.foldl_cons]
    by_cases h : key y < key x
    · simp only [h, if_pos]
      have := ih y
      simp only [min_by_key_first] at this
      rcases List.mem_cons.mp this with h1 | h1
      · simp [h1]
      · simp [List.mem_cons, h1]
    · simp only [h, if_neg, not_false_iff]
      have := ih x
      simp only [min_by_key_first] at this
      rcases List.mem_cons.mp this with h1 | h1
      · simp [h1]
      · simp [List.mem_cons, h1]

/-- `select_initial_node`: argmin over rows of the row sum
(`min_by_key` on `(i, row.sum())`, first index on ties; `unwrap`
panics on an empty matrix, modelled as 0). -/
def select_initial_node (diff_mat : List (List Nat)) : Nat :=
  match List.range diff_mat.length with
  | [] => 0
  | x :: xs => min_by_key_first (fun i => (diff_mat.getD i []).sum) x xs

/-- The `while !unvisited.is_empty()` loop of
`nearest_neighbor_dual_end`.  `unvisited` is a `HashSet<usize>` in the
source; a `HashSet` is traversed in an order that depends on its
random per-instance hasher seed, so the model carries the set as a
list whose order stands for that traversal order.  `min_by_key`
returns the first minimum in traversal order; ties between the two
ends go to the front (`<=`); `path` is the `VecDeque` front-first. -/
def nn_dual_end_loop (mat : List (List Nat)) :
    (unvisited : List Nat) → (path : List Nat) → (front back : Nat) → List Nat
  | [], path, _, _ => path
  | x :: xs, path, front, back =>
    let nf := min_by_key_first (fun node => diff mat front node) x xs
    let nb := min_by_key_first (fun node => diff mat back node) x xs
    if diff mat front nf ≤ diff mat back nb then
      nn_dual_end_loop mat ((x :: xs).erase nf) (nf :: path) nf back
    else
      nn_dual_end_loop mat ((x :: xs).erase nb) (path ++ [nb]) front nb
  termination_by unvisited _ _ _ => unvisited.length
  decreasing_by
  · have := min_by_key_first_mem (fun node => diff mat front node) x xs
    have h := List.length_erase_of_mem this
    simp only [List.length_cons] at h ⊢
    omega
  · have := min_by_key_first_mem (fun node => diff mat back node) x xs
    have h := List.length_erase_of_mem this
    simp only [List.length_cons] at h ⊢
    omega

/-- `nearest_neighbor_dual_end`: the initial `unvisited` is
`(0..n).collect::<HashSet<_>>()` with `start` removed; `order` is that
set in its (seed-dependent) traversal order, i.e. some permutation of
`0, …, n-1`. -/
def nearest_neighbor_dual_end (mat : List (List Nat)) (order : List Nat) : List Nat :=
  let start := select_initial_node mat
  nn_dual_end_loop mat (order.erase start) [start] start start

/-- `calculate_total_cost`: sum of `diff_mat[path[k]][path[k+1]]` over
consecutive pairs (`path.windows(2)`). -/
def calculate_total_cost (path : List Nat) (mat : List (List Nat)) : Nat :=
  ((path.zip path.tail).map (fun p => diff mat p.1 p.2)).sum

/-- The reversal step of `two_opt_optimize`:
`path[..=i] ++ reverse(path[i+1..j]) ++ path[j..]`. -/
def two_opt_swap (path : List Nat) (i j : Nat) : List Nat :=
  path.take (i + 1) ++ ((path.drop (i + 1)).take (j - (i + 1))).reverse
    ++ path.drop j

/-- The inner `for j in i+2..n` scan of `two_opt_optimize`: the first
`(i, j)` whose edge exchange looks improving (`new < original`) and
whose resulting path strictly beats `min_cost` is accepted (`break`);
an exchange with `new < original` but `new_cost >= min_cost` is
skipped and the scan continues. -/
def two_opt_scan_j (path : List Nat) (mat : List (List Nat))
    (min_cost i j : Nat) : Option (List Nat) :=
  if h : j < path.length then
    -- a = path[i], b = path[i+1], c = path[j-1], d = path[j % n];
    -- `new = D[a][c] + D[b][d]` vs `original = D[a][b] + D[c][d]`
    if diff mat (path.getD i 0) (path.getD (j - 1) 0)
          + diff mat (path.getD (i + 1) 0) (path.getD (j % path.length) 0)
        < diff mat (path.getD i 0) (path.getD (i + 1) 0)
          + diff mat (path.getD (j - 1) 0) (path.getD (j % path.length) 0) then
      if calculate_total_cost (two_opt_swap path i j) mat < min_cost then
        some (two_opt_swap path i j)
      else two_opt_scan_j path mat min_cost i (j + 1)
    else two_opt_scan_j path mat min_cost i (j + 1)
  else none
  termination_by path.length - j
  decreasing_by all_goals omega

/-- The outer `for i in 0..n-1` scan (restarted from scratch after
every accepted improvement). -/
def two_opt_scan_i (path : List Nat) (mat : List (List Nat))
    (min_cost i : Nat) : Option (List Nat) :=
  if h : i < path.length - 1 then
    match two_opt_scan_j path mat min_cost i (i + 2) with
    | some p => some p
    | none => two_opt_scan_i path mat min_cost (i + 1)
  else none
  termination_by path.length - 1 - i
  decreasing_by omega

theorem two_opt_scan_j_cost (path : List Nat) (mat : List (List Nat))
    (min_cost i : Nat) :
    ∀ j, ∀ p, two_opt_scan_j path mat min_cost i j = some p →
      calculate_total_cost p mat < min_cost := by
  intro j
  induction j using two_opt_scan_j.induct path mat min_cost i with
  | case1 j hj hlt hcost =>
    intro p hp
    rw [two_opt_scan_j, dif_pos hj, if_pos hlt, if_pos hcost] at hp
    cases hp
    exact hcost
  | case2 j hj hlt hcost ih =>
    intro p hp
    rw [two_opt_scan_j, dif_pos hj, if_pos hlt, if_neg hcost] at hp
    exact ih p hp
  | case3 j hj hlt ih =>
    intro p hp
    rw [two_opt_scan_j, dif_pos hj, if_neg hlt] at hp
    exact ih p hp
  | case4 j hj =>
    intro p hp
    rw [two_opt_scan_j, dif_neg hj] at hp
    exact absurd hp (by simp)

theorem two_opt_scan_i_cost {path : List Nat} {mat : List (List Nat)}
    {min_cost i : Nat} {p : List Nat}
    (h : two_opt_scan_i path mat min_cost i = some p) :
    calculate_total_cost p mat < min_cost := by
  induction i using two_opt_scan_i.induct path mat min_cost with
  | case1 i hi q hq =>
    rw [two_opt_scan_i, dif_pos hi, hq] at h
    exact two_opt_scan_j_cost path mat min_cost i (i + 2) p
      (by rw [hq]; exact h)
  | case2 i hi hq ih =>
    rw [two_opt_scan_i, dif_pos hi, hq] at h
    exact ih h
  | case3 i hi =>
    rw [two_opt_scan_i, dif_neg hi] at h
    exact absurd h (by simp)

/-- The `while improved` driver loop: on acceptance `best_path`,
`min_cost` and `path` are all replaced by the accepted path and its
cost; when a full scan finds nothing, `best_path` is returned.
Each acceptance strictly decreases `min_cost : Nat`, which is the
termination measure. -/
def two_opt_loop (path best : List Nat) (mat : List (List Nat))
    (min_cost : Nat) : List Nat :=
  match h : two_opt_scan_i path mat min_cost 0 with
  | some p => two_opt_loop p p mat (calculate_total_cost p mat)
  | none => best
  termination_by min_cost
  decreasing_by exact two_opt_scan_i_cost h

def two_opt_optimize (path : List Nat) (mat : List (List Nat)) : List Nat :=
  two_opt_loop path path mat (calculate_total_cost path mat)

/-- `CompressManager::optimize`: the permutation applied to `files`. -/
def compress_optimize (mat : List (List Nat)) (order : List Nat) : List Nat :=
  two_opt_optimize (nearest_neighbor_dual_end mat order) mat

/-- A 3-file distance matrix with a tie: files 1 and 2 are both at
distance 1 from file 0, and far from each other (C5). -/
def reorder_tie_mat : List (List Nat) := [[0, 1, 1], [1, 0, 5], [1, 5, 0]]

/-! ## inode.rs — directory tail serialiser (C6)

`mkfs_load_inode`, `CodexFsFileType::Dir` arm, computes the recorded
size; `mkfs_dump_inode`, `FileType::Dir` arm, lays out the dirents and
the name region.  A dirent is 12 bytes; file types are modelled by
their on-disk `u8` codes (2 = dir). -/

structure CodexFsDirent where
  nid : Nat
  nameoff : Nat
  file_type : Nat
  deriving Repr, DecidableEq

/-- `mkfs_load_inode` (Dir arm):
`ndir = dentries.len() + 2`; `namesize = 1 + 2 + Σ |file_name|`;
`set_size(ndir * size_of::<CodexFsDirent>() + namesize)`. -/
def mkfs_dir_size (child_names : List String) : Nat :=
  (child_names.length + 2) * codexfs_dirent_size
    + (1 + 2 + (child_names.map String.length).sum)

/-- The `for dentry in dir.dentries` loop of `mkfs_dump_inode`:
each child dirent takes the running `nameoff`, which then advances by
the child's name length. -/
def mkfs_dump_dir_children :
    List (String × Nat × Nat) → Nat → List CodexFsDirent × List String
  | [], _ => ([], [])
  | (name, nid, ft) :: rest, nameoff =>
    let r := mkfs_dump_dir_children rest (nameoff + name.length)
    (⟨nid, nameoff, ft⟩ :: r.1, name :: r.2)

/-- `mkfs_dump_inode` (Dir arm): `nameoff` starts at
`size_of::<CodexFsDirent>() * (dentries.len() + 2)`; the `.` dirent
(self nid) takes it and advances it by 1; the `..` dirent (parent nid)
takes it and advances it by 2; then the children.  Returns the dirent
records and the name region pieces in write order. -/
def mkfs_dump_inode_dir (self_nid parent_nid : Nat)
    (children : List (String × Nat × Nat)) :
    List CodexFsDirent × List String :=
  let nameoff := codexfs_dirent_size * (children.length + 2)
  let r := mkfs_dump_dir_children children (nameoff + 1 + 2)
  (⟨self_nid, nameoff, 2⟩ :: ⟨parent_nid, nameoff + 1, 2⟩ :: r.1,
   "." :: ".." :: r.2)

/-- Byte length of the serialised directory tail: the dirent array
followed by the concatenated names (this is what the
`assert_eq!(((nid + 1) << ISLOT_BITS) + size, name_off)` in
`mkfs_dump_inode` measures). -/
def dir_tail_len (dirents : List CodexFsDirent) (names : List String) : Nat :=
  dirents.length * codexfs_dirent_size + (names.map String.length).sum

/-! ## inode.rs — build tree walk (C7)

`mkfs_load_inode` / `mkfs_load_inode_dir` over an abstract source tree.
Only what the claim is about is modelled: source-filesystem inos, file
types, the ino → inode table (`get_inode` / `insert_inode`), and
`nlink` bookkeeping (`Inode::new` starts a directory at 2, anything
else at 0; `inc_nlink` adds 1). -/

mutual
inductive SrcNode where
  | file (ino : Nat)
  | symlink (ino : Nat)
  | dir (ino : Nat) (children : SrcForest)
inductive SrcForest where
  | nil
  | cons (hd : SrcNode) (tl : SrcForest)
end

inductive SrcKind where
  | file
  | symlink
  | dir
  deriving Repr, DecidableEq

def SrcNode.isDir : SrcNode → Bool
  | .dir _ _ => true
  | _ => false

def SrcNode.ino : SrcNode → Nat
  | .file i => i
  | .symlink i => i
  | .dir i _ => i

/-- Build-time inode: source ino, whether it is a directory, and the
accumulated link count. -/
structure MkfsInode where
  ino : Nat
  isDir : Bool
  nlink : Nat
  deriving Repr, DecidableEq

/-- The walk's state: the created inodes in creation order (an inode
object's identity is its index) and the ino → inode table. -/
structure MkfsState where
  inodes : List MkfsInode
  table : List (Nat × Nat)
  deriving Repr, DecidableEq

/-- `get_inode(ino)` — `HashMap` lookup; entries are inserted only for
absent keys, so an assoc list searched front-first is faithful. -/
def table_get (t : List (Nat × Nat)) (ino : Nat) : Option Nat :=
  (t.find? (fun p => p.1 == ino)).map (fun p => p.2)

/-- `inode.borrow_mut().inc_nlink()` on the inode at index `id`. -/
def inodes_inc_nlink : List MkfsInode → Nat → List MkfsInode
  | [], _ => []
  | x :: xs, 0 => { x with nlink := x.nlink + 1 } :: xs
  | x :: xs, n + 1 => x :: inodes_inc_nlink xs n

/-- One record per `mkfs_load_inode` call: the node's kind and ino, the
inode (index) the path resolved to, and — for directories — the number
of subdirectory children. -/
structure WalkLog where
  kind : SrcKind
  ino : Nat
  id : Nat
  ndirs : Nat
  deriving Repr, DecidableEq

def src_forest_dir_count : SrcForest → Nat
  | .nil => 0
  | .cons c rest =>
    (if c.isDir then 1 else 0) + src_forest_dir_count rest

mutual
/-- `mkfs_load_inode`: dedup by source ino for files and symlinks
(reuse the table's inode, else `Inode::new` with nlink 0), then
`inc_nlink`; directories always create a fresh inode with nlink 2 and
recurse; after the match, the inode is inserted into the table iff its
ino was absent. -/
def mkfs_load_inode : SrcNode → MkfsState → Nat × MkfsState × List WalkLog
  | .file ino, st =>
    match table_get st.table ino with
    | some id =>
      (id, { st with inodes := inodes_inc_nlink st.inodes id },
       [⟨.file, ino, id, 0⟩])
    | none =>
      let id := st.inodes.length
      (id, { inodes := inodes_inc_nlink (st.inodes ++ ([⟨ino, false, 0⟩] : List MkfsInode)) id,
             table := (ino, id) :: st.table },
       [⟨.file, ino, id, 0⟩])
  | .symlink ino, st =>
    match table_get st.table ino with
    | some id =>
      (id, { st with inodes := inodes_inc_nlink st.inodes id },
       [⟨.symlink, ino, id, 0⟩])
    | none =>
      let id := st.inodes.length
      (id, { inodes := inodes_inc_nlink (st.inodes ++ ([⟨ino, false, 0⟩] : List MkfsInode)) id,
             table := (ino, id) :: st.table },
       [⟨.symlink, ino, id, 0⟩])
  | .dir ino children, st =>
    let id := st.inodes.length
    let st1 : MkfsState :=
      { st with inodes := st.inodes ++ [⟨ino, true, 2⟩] }
    let r := mkfs_load_forest children id st1
    let st2 := r.1
    let st3 : MkfsState :=
      if (table_get st2.table ino).isSome then st2
      else { st2 with table := (ino, id) :: st2.table }
    (id, st3, ⟨.dir, ino, id, src_forest_dir_count children⟩ :: r.2)

/-- The `for entry in fs::read_dir(path)` loop of
`mkfs_load_inode_dir`: load each child; a directory child increments
the parent's nlink. -/
def mkfs_load_forest : SrcForest → Nat → MkfsState → MkfsState × List WalkLog
  | .nil, _, st => (st, [])
  | .cons child rest, dirId, st =>
    let r := mkfs_load_inode child st
    let st1 := r.2.1
    let st2 : MkfsState :=
      if child.isDir then
        { st1 with inodes := inodes_inc_nlink st1.inodes dirId }
      else st1
    let r2 := mkfs_load_forest rest dirId st2
    (r2.1, r.2.2 ++ r2.2)
end

mutual
/-- Number of file/symlink positions (i.e. discovered path aliases) in
a tree carrying source ino `k`. -/
def count_ino_node : SrcNode → Nat → Nat
  | .file i, k => if i = k then 1 else 0
  | .symlink i, k => if i = k then 1 else 0
  | .dir _ cs, k => count_ino_forest cs k

def count_ino_forest : SrcForest → Nat → Nat
  | .nil, _ => 0
  | .cons c rest, k => count_ino_node c k + count_ino_forest rest k
end

mutual
/-- The inos of all directory positions in a tree. -/
def dir_inos_node : SrcNode → List Nat
  | .file _ => []
  | .symlink _ => []
  | .dir i cs => i :: dir_inos_forest cs

def dir_inos_forest : SrcForest → List Nat
  | .nil => []
  | .cons c rest => dir_inos_node c ++ dir_inos_forest rest
end

/-- The inode object at index `id` (total, with a dummy default — all
uses are guarded by `id < length`). -/
def inode_at (l : List MkfsInode) (id : Nat) : MkfsInode :=
  l.getD id ⟨0, false, 0⟩

/-- The link count the walk has accumulated on the inode registered for
source ino `k` (0 when no inode is registered). -/
def fileNlink (inodes : List MkfsInode) (table : List (Nat × Nat))
    (k : Nat) : Nat :=
  match table_get table k with
  | some id => (inode_at inodes id).nlink
  | none => 0

/-- The walk's state invariant, relative to the set `D` of inos
belonging to directory positions: every table entry points at an
existing inode carrying that ino, and only directory inos map to
directory inodes. -/
def table_ok (inodes : List MkfsInode) (table : List (Nat × Nat))
    (D : Nat → Prop) : Prop :=
  ∀ k id, table_get table k = some id →
    id < inodes.length ∧ (inode_at inodes id).ino = k ∧
    ((inode_at inodes id).isDir = true → D k)

/-- Postcondition of a walk step from `st` to `st'` producing `log`,
where `cnt k` counts the file/symlink positions with ino `k` in the
processed subtree and `dinc j` is the number of `inc_nlink` calls the
step performs on the pre-existing directory inode `j` (0 for a node;
for a child list, the number of directory children charged to the
parent). -/
structure WalkPost (D : Nat → Prop) (st st' : MkfsState)
    (log : List WalkLog) (cnt : Nat → Nat) (dinc : Nat → Nat) : Prop where
  inv : table_ok st'.inodes st'.table D
  len_mono : st.inodes.length ≤ st'.inodes.length
  pres : ∀ j, j < st.inodes.length →
    (inode_at st'.inodes j).ino = (inode_at st.inodes j).ino ∧
    (inode_at st'.inodes j).isDir = (inode_at st.inodes j).isDir
  dir_nlink : ∀ j, j < st.inodes.length →
    (inode_at st.inodes j).isDir = true →
    (inode_at st'.inodes j).nlink = (inode_at st.inodes j).nlink + dinc j
  table_ext : ∀ k id₀, table_get st.table k = some id₀ →
    table_get st'.table k = some id₀
  nlink_count : ∀ k, ¬ D k →
    fileNlink st'.inodes st'.table k = fileNlink st.inodes st.table k + cnt k
  log_file : ∀ e ∈ log, e.kind ≠ .dir →
    table_get st'.table e.ino = some e.id ∧
    (inode_at st'.inodes e.id).isDir = false ∧ 1 ≤ cnt e.ino
  log_dir : ∀ e ∈ log, e.kind = .dir →
    st.inodes.length ≤ e.id ∧ e.id < st'.inodes.length ∧
    (inode_at st'.inodes e.id).isDir = true ∧
    (inode_at st'.inodes e.id).ino = e.ino ∧
    (inode_at st'.inodes e.id).nlink = 2 + e.ndirs

/-! ## buffer.rs — the block allocator (C4)

State: `free_table` (index = unused room of the blocks it lists) and
the tail block.  Blocks are shared `Rc<RefCell<BufferBlock>>` objects
in the source; since every block id occurs exactly once, object
identity is modelled by `blk_id`, and `tail_blk` stores that id (its
current `blk_off` is read back out of the table).  `B` is
`get_sb().blksz()`. -/

inductive BufferType where
  | Meta
  | Inode
  | ZData
  | Data
  deriving Repr, DecidableEq

/-- `get_align`: Meta → 1, Inode → `size_of::<CodexFsInode>()` = 64,
ZData → block size, Data → 1. -/
def get_align (B : Nat) : BufferType → Nat
  | .Meta => 1
  | .Inode => 64
  | .ZData => B
  | .Data => 1

structure BufferBlock where
  blk_id : Nat
  blk_off : Nat
  deriving Repr, DecidableEq

/-- `blk_id_to_addr` (block id `k` addresses `[k·B, (k+1)·B)`). -/
def blk_id_to_addr (B id : Nat) : Nat := id * B

/-- `BufferBlock::addr`: `blk_id_to_addr(blk_id) + blk_off`. -/
def BufferBlock.addr (B : Nat) (b : BufferBlock) : Nat :=
  blk_id_to_addr B b.blk_id + b.blk_off

structure BufferManager where
  table : List (List BufferBlock)
  tail_blk : Nat
  deriving Repr, DecidableEq

/-- `push_block`: `table[blksz - blk_off].push(blk)`. -/
def push_block (B : Nat) (m : BufferManager) (b : BufferBlock) : BufferManager :=
  let bucket := (m.table.getD (B - b.blk_off) []) ++ [b]
  { m with table := m.table.set (B - b.blk_off) bucket }

/-- `BufferManager::new`: block 0 with offset 0, pushed (bucket `B`);
it is the initial tail. -/
def buffer_manager_new (B : Nat) : BufferManager :=
  push_block B { table := List.replicate (B + 1) [], tail_blk := 0 } ⟨0, 0⟩

/-- The `for i in (aligned_size)..(blksz + 1)` scan of `bfind`:
first non-empty bucket wins, `Vec::pop` takes its last element; the
block's write offset is aligned up, the region taken, and the block
re-filed under its new remaining room. -/
def bfind_loop (B : Nat) (m : BufferManager) (aligned_size align : Nat) :
    Nat → Option (Nat × BufferManager)
  | i =>
    if h : i < B + 1 then
      match (m.table.getD i []).getLast? with
      | none => bfind_loop B m aligned_size align (i + 1)
      | some b =>
        let m1 : BufferManager :=
          { m with table := m.table.set i (m.table.getD i []).dropLast }
        let addr := round_up (b.addr B) align
        let new_off := round_up b.blk_off align + aligned_size
        some (addr, push_block B m1 { b with blk_off := new_off })
    else none
  termination_by i => B + 1 - i
  decreasing_by omega

/-- `bfind`: gives up at once when the (aligned) size exceeds a block. -/
def bfind (B : Nat) (m : BufferManager) (aligned_size align : Nat) :
    Option (Nat × BufferManager) :=
  if aligned_size > B then none
  else bfind_loop B m aligned_size align aligned_size

/-- Look a block up by identity (Rust reads through the `Rc`). -/
def find_block (m : BufferManager) (id : Nat) : Option BufferBlock :=
  m.table.flatten.find? (fun b => b.blk_id == id)

/-- `update_block`: remove the block from its current bucket
(`Vec::remove` at the position found by pointer equality), set the new
offset, re-push. -/
def update_block (B : Nat) (m : BufferManager) (b : BufferBlock)
    (new_off : Nat) : BufferManager :=
  let bucket := (m.table.getD (B - b.blk_off) []).eraseP (fun x => x.blk_id == b.blk_id)
  let m1 : BufferManager := { m with table := m.table.set (B - b.blk_off) bucket }
  push_block B m1 { b with blk_off := new_off }

/-- The `while size_left > 0` loop of `balloc_contig`: each iteration
creates block `tail + 1` with `blk_off = min(blksz, size_left)`, makes
it the tail and pushes it.  (With `B = 0` the source loop would not
terminate; the model stops, and every theorem assumes `0 < B`.) -/
def contig_blocks (B : Nat) (m : BufferManager) : Nat → BufferManager
  | 0 => m
  | n + 1 =>
    let off := min B (n + 1)
    let b : BufferBlock := ⟨m.tail_blk + 1, off⟩
    if h : off = 0 then m
    else
      contig_blocks B (push_block B { m with tail_blk := b.blk_id } b)
        (n + 1 - off)
  termination_by n => n
  decreasing_by omega

/-- `balloc_contig`: the tail's aligned offset decides the shape
(`Less`: the old tail contributes its room — the source asserts the
request does not fit there; `Equal`: start on a fresh block;
`Greater`: `panic!()`, and a missing tail block is likewise
unreachable — both modelled as `none`). -/
def balloc_contig (B : Nat) (m : BufferManager) (aligned_size align : Nat) :
    Option (Nat × BufferManager) :=
  match find_block m m.tail_blk with
  | none => none
  | some t =>
    let aligned_off := round_up t.blk_off align
    if aligned_off < B then
      if aligned_off + aligned_size > B then
        let addr := round_up (t.addr B) align
        let size_left := aligned_size - (B - aligned_off)
        some (addr, contig_blocks B (update_block B m t B) size_left)
      else none
    else if aligned_off = B then
      some (blk_id_to_addr B (m.tail_blk + 1), contig_blocks B m aligned_size)
    else none

/-- `balloc`: `assert!(alignment <= blksz)` (violation modelled as
`none`), round the size up, try `bfind`, fall back to
`balloc_contig`. -/
def balloc (B : Nat) (m : BufferManager) (size : Nat) (btype : BufferType) :
    Option (Nat × BufferManager) :=
  let alignment := get_align B btype
  if alignment ≤ B then
    match bfind B m (round_up size alignment) alignment with
    | some r => some r
    | none => balloc_contig B m (round_up size alignment) alignment
  else none

/-- A sequence of `balloc` calls; each returned region is
`[addr, addr + round_up(size, align))`. -/
def balloc_seq (B : Nat) :
    BufferManager → List (Nat × BufferType) →
    Option (List (Nat × Nat) × BufferManager)
  | m, [] => some ([], m)
  | m, (size, bt) :: rest =>
    match balloc B m size bt with
    | none => none
    | some (addr, m') =>
      match balloc_seq B m' rest with
      | none => none
      | some (rs, m'') =>
        some ((addr, round_up size (get_align B bt)) :: rs, m'')

/-! ### C4 abstractions: the multiset of blocks, the allocator invariant,
the consumed byte set and the per-call postcondition -/

/-! C4 invariant layer -/

/-- All blocks of the manager, in table order. -/
def blocks (m : BufferManager) : List BufferBlock := m.table.flatten

/-- The block ids, used for object identity. -/
def ids (m : BufferManager) : List Nat := (blocks m).map (fun b => b.blk_id)

/-- The allocator's state invariant: the table has `B + 1` buckets, a
bucket holds exactly the blocks whose unused room is its index, block
identities are unique, and ids run up to the tail block's id, which is
present. -/
structure BufInv (B : Nat) (m : BufferManager) : Prop where
  len : m.table.length = B + 1
  bucket : ∀ i, ∀ b ∈ m.table.getD i [], b.blk_off ≤ B ∧ B - b.blk_off = i
  nodup : (ids m).Nodup
  le_tail : ∀ b ∈ blocks m, b.blk_id ≤ m.tail_blk
  tail_mem : ∃ t ∈ blocks m, t.blk_id = m.tail_blk

/-- Byte `a` of the image is consumed: some block's written prefix
covers it. -/
def consumed (B : Nat) (m : BufferManager) (a : Nat) : Prop :=
  ∃ b ∈ blocks m, b.blk_id * B ≤ a ∧ a < b.blk_id * B + b.blk_off

/-- Postcondition of one successful allocation of `asize` bytes at
`addr`. -/
def BallocOk (B asize : Nat) (m : BufferManager) (addr : Nat)
    (m' : BufferManager) : Prop :=
  BufInv B m' ∧ m.tail_blk ≤ m'.tail_blk ∧
  (∀ a, consumed B m a → consumed B m' a) ∧
  (∀ a, addr ≤ a → a < addr + asize →
    ¬ consumed B m a ∧ consumed B m' a) ∧
  addr + asize ≤ (m'.tail_blk + 1) * B

def region_disjoint (r1 r2 : Nat × Nat) : Prop :=
  ∀ a, r1.1 ≤ a → a < r1.1 + r1.2 → ¬ (r2.1 ≤ a ∧ a < r2.1 + r2.2)

/-! ## Claim theorems -/

/-- C8, counterexample: the magic constant is the hexadecimal literal
`0x114514` = 1131796, not the decimal 114514 the spec states; the
superblock mkfs writes does not carry magic 114514. -/
theorem C8_magic_counterexample :
    CODEXFS_MAGIC ≠ 114514 ∧
    (mkfs_codexfs_super_block 12 0).magic ≠ 114514 := by
  constructor <;> decide

/-- C8 (amended): the superblock written by mkfs at image offset 0
carries magic value `0x114514` (1131796 decimal), and mount-time
loading fails (the `assert_eq!` in `fuse_load_super_block`) whenever
the stored magic differs from the magic mkfs writes. -/
theorem C8_superblock_magic :
    (∀ blkszbits root_nid,
      (mkfs_codexfs_super_block blkszbits root_nid).magic = 0x114514) ∧
    (∀ sb : CodexFsSuperBlock,
      sb.magic ≠ (mkfs_codexfs_super_block 12 0).magic →
      fuse_load_super_block_ok sb = false) := by
  constructor
  · intro blkszbits root_nid
    rfl
  · intro sb h
    have : sb.magic ≠ CODEXFS_MAGIC := h
    simp [fuse_load_super_block_ok, this]

/-- Witness for C8: a superblock whose magic is 0 is rejected. -/
theorem C8_superblock_magic_witness :
    (⟨0, 12, 5⟩ : CodexFsSuperBlock).magic ≠
      (mkfs_codexfs_super_block 12 0).magic ∧
    fuse_load_super_block_ok ⟨0, 12, 5⟩ = false :=
  ⟨by decide, C8_superblock_magic.2 ⟨0, 12, 5⟩ (by decide)⟩

/-- C2, counterexample: the block emitted for the 1-byte compressed
payload `[1]` is not right-aligned — its first byte is the payload
byte, not a zero of a `B − total_out` leading margin. -/
theorem C2_counterexample : ¬ claim_right_aligned [1] := by
  intro h
  exact absurd (congrArg List.head? h) (by decide)

/-- C2 (amended): every data block emitted by the compression pipeline
carries its `total_out` compressed bytes in the **leading** `total_out`
bytes of the `B`-byte block (the buffer is written out whole, payload
first); with the zero-initialised output buffer the trailing
`B − total_out` bytes are zero; and the read side recovers exactly the
payload by taking `comp_size` bytes from the front of the block. -/
theorem C2_data_block_left_aligned (comp : List Nat)
    (h : comp.length ≤ CODEXFS_BLKSIZ) :
    (mkfs_dump_data_block comp).length = CODEXFS_BLKSIZ ∧
    (mkfs_dump_data_block comp).take comp.length = comp ∧
    (mkfs_dump_data_block comp).drop comp.length =
      List.replicate (CODEXFS_BLKSIZ - comp.length) 0 ∧
    fuse_block_payload (mkfs_dump_data_block comp) comp.length = comp := by
  refine ⟨?_, ?_, ?_, ?_⟩
  · simp [mkfs_dump_data_block]
    omega
  · simp [mkfs_dump_data_block]
  · simp [mkfs_dump_data_block]
  · simp [fuse_block_payload, mkfs_dump_data_block]

/-- Witness for C2's amended theorem at the payload `[1]`. -/
theorem C2_data_block_left_aligned_witness :
    ([1] : List Nat).length ≤ CODEXFS_BLKSIZ ∧
    ((mkfs_dump_data_block [1]).length = CODEXFS_BLKSIZ ∧
     (mkfs_dump_data_block [1]).take ([1] : List Nat).length = [1] ∧
     (mkfs_dump_data_block [1]).drop ([1] : List Nat).length =
       List.replicate (CODEXFS_BLKSIZ - ([1] : List Nat).length) 0 ∧
     fuse_block_payload (mkfs_dump_data_block [1]) ([1] : List Nat).length = [1]) :=
  ⟨by decide, C2_data_block_left_aligned [1] (by decide)⟩

/-- C10: the read-path clamp `min(len, size - off)` computes `size - off`
in u32 arithmetic, which underflows to `2^32 - (off - size)` whenever
`off > size`; consequently the function does not return an empty buffer
for an out-of-range offset, and the FUSE `read` callback hands the
kernel offset through unchecked: on a 10-byte file, `read(off=11, len=1)`
returns one byte instead of none. -/
theorem C10_read_offset_underflow :
    (∀ size off : Nat, size < off → off < U32_MOD →
      u32_wrapping_sub size off = U32_MOD - (off - size)) ∧
    10 < 11 ∧
    codexfs_fuse_read [⟨0, 0⟩] [[9, 9, 9, 9, 9, 9, 9, 9, 9, 9]] 10 11 1 = [9] := by
  refine ⟨?_, by decide, by decide⟩
  intro size off h1 h2
  unfold u32_wrapping_sub
  rw [Nat.mod_eq_of_lt h2, Nat.mod_eq_of_lt (by omega)]
  omega

/-- Witness for C10 at `size = 10`, `off = 11`. -/
theorem C10_read_offset_underflow_witness :
    10 < 11 ∧ 11 < U32_MOD ∧ u32_wrapping_sub 10 11 = U32_MOD - 1 :=
  ⟨by decide, by norm_num [U32_MOD],
   C10_read_offset_underflow.1 10 11 (by decide) (by norm_num [U32_MOD])⟩

/-- C1 (code_bug): on the image built from a single 10-byte file whose
bytes are `10..19`, packed into a single fragment (extent
`{off = 0, frag_off = 0}`, exactly what the pipeline produces), the
mount-side read `fuse_read_inode_file(f, off = 5, len = 3)` returns the
fragment bytes starting at `frag_off` — `[10, 11, 12]`, the file's
bytes 0..3 — whereas the original bytes at `[5, 8)` are `[15, 16, 17]`:
the copy does not begin at `frag_off + (off - extent.off)`. -/
theorem C1_partial_read_wrong_bytes :
    (mkfs_dump_inode_file_data [10] [10]).2 = true ∧
    extents_of 0 (mkfs_dump_inode_file_data [10] [10]).1 = [⟨0, 0⟩] ∧
    fuse_read_inode_file [⟨0, 0⟩]
      [[10, 11, 12, 13, 14, 15, 16, 17, 18, 19]] 10 5 3 = [10, 11, 12] ∧
    (([10, 11, 12, 13, 14, 15, 16, 17, 18, 19] : List Nat).drop 5).take 3
      = [15, 16, 17] ∧
    ([10, 11, 12] : List Nat) ≠ [15, 16, 17] := by
  refine ⟨?_, ?_, by decide, by decide, by decide⟩
  · simp [mkfs_dump_inode_file_data, mkfs_dump_loop, frag_loop, push_extent,
      files_from]
  · simp [mkfs_dump_inode_file_data, mkfs_dump_loop, frag_loop, push_extent,
      files_from, extents_of]

/-! ### C9 — 2-opt termination and permutation -/

theorem two_opt_swap_perm (path : List Nat) (i j : Nat) (hij : i + 1 ≤ j)
    (hj : j ≤ path.length) : (two_opt_swap path i j).Perm path := by
  have hsplit :
      path = path.take (i + 1) ++ ((path.drop (i + 1)).take (j - (i + 1))
        ++ path.drop j) := by
    conv_lhs => rw [← List.take_append_drop (i + 1) path]
    congr 1
    conv_lhs => rw [← List.take_append_drop (j - (i + 1)) (path.drop (i + 1))]
    congr 1
    rw [List.drop_drop]
    congr 1
    omega
  rw [two_opt_swap]
  conv_rhs => rw [hsplit]
  rw [List.append_assoc]
  exact List.Perm.append_left _
    (List.Perm.append_right _ (List.reverse_perm _))

theorem two_opt_scan_j_perm (path : List Nat) (mat : List (List Nat))
    (min_cost i : Nat) :
    ∀ j, i + 1 ≤ j → ∀ p, two_opt_scan_j path mat min_cost i j = some p →
      p.Perm path := by
  intro j
  induction j using two_opt_scan_j.induct path mat min_cost i with
  | case1 j hj hlt hcost =>
    intro hij p hp
    rw [two_opt_scan_j, dif_pos hj, if_pos hlt, if_pos hcost] at hp
    cases hp
    exact two_opt_swap_perm path i j hij (Nat.le_of_lt hj)
  | case2 j hj hlt hcost ih =>
    intro hij p hp
    rw [two_opt_scan_j, dif_pos hj, if_pos hlt, if_neg hcost] at hp
    exact ih (by omega) p hp
  | case3 j hj hlt ih =>
    intro hij p hp
    rw [two_opt_scan_j, dif_pos hj, if_neg hlt] at hp
    exact ih (by omega) p hp
  | case4 j hj =>
    intro hij p hp
    rw [two_opt_scan_j, dif_neg hj] at hp
    exact absurd hp (by simp)

theorem two_opt_scan_i_perm {path : List Nat} {mat : List (List Nat)}
    {min_cost i : Nat} {p : List Nat}
    (h : two_opt_scan_i path mat min_cost i = some p) : p.Perm path := by
  induction i using two_opt_scan_i.induct path mat min_cost with
  | case1 i hi q hq =>
    rw [two_opt_scan_i, dif_pos hi, hq] at h
    exact two_opt_scan_j_perm path mat min_cost i (i + 2) (by omega) p
      (by rw [hq]; exact h)
  | case2 i hi hq ih =>
    rw [two_opt_scan_i, dif_pos hi, hq] at h
    exact ih h
  | case3 i hi =>
    rw [two_opt_scan_i, dif_neg hi] at h
    exact absurd h (by simp)

theorem two_opt_loop_perm (orig : List Nat) :
    ∀ (path best : List Nat) (mat : List (List Nat)) (min_cost : Nat),
      path.Perm orig → best.Perm orig →
      (two_opt_loop path best mat min_cost).Perm orig := by
  intro path best mat min_cost
  induction path, best, mat, min_cost using two_opt_loop.induct with
  | case1 path best mat min_cost p hscan ih =>
    intro hp hb
    rw [two_opt_loop]
    split
    · rename_i p' hscan'
      rw [hscan] at hscan'
      cases hscan'
      exact ih ((two_opt_scan_i_perm hscan).trans hp)
        ((two_opt_scan_i_perm hscan).trans hp)
    · rename_i hscan'
      rw [hscan] at hscan'
      simp at hscan'
  | case2 path best mat min_cost hscan =>
    intro hp hb
    rw [two_opt_loop]
    split
    · rename_i p' hscan'
      rw [hscan] at hscan'
      simp at hscan'
    · exact hb

/-- C9: the 2-opt refinement loop terminates on every distance matrix
and initial path — `two_opt_optimize` is a total function whose
recursion measure is the strictly decreasing `min_cost : Nat` (each
accepted swap strictly decreases the non-negative integer total path
cost, `two_opt_scan_i_cost`) — and the returned path is a permutation
of the input path. -/
theorem C9_two_opt_terminates_and_permutes (path : List Nat)
    (mat : List (List Nat)) : (two_opt_optimize path mat).Perm path :=
  two_opt_loop_perm path path path mat (calculate_total_cost path mat)
    (List.Perm.refl path) (List.Perm.refl path)

/-! ### C6 — directory tail layout -/

theorem mkfs_dump_dir_children_len (cs : List (String × Nat × Nat)) :
    ∀ off, (mkfs_dump_dir_children cs off).1.length = cs.length := by
  induction cs with
  | nil => intro off; rfl
  | cons c rest ih =>
    intro off
    obtain ⟨name, nid, ft⟩ := c
    simp [mkfs_dump_dir_children, ih]

theorem mkfs_dump_dir_children_names (cs : List (String × Nat × Nat)) :
    ∀ off, (mkfs_dump_dir_children cs off).2 = cs.map (fun c => c.1) := by
  induction cs with
  | nil => intro off; rfl
  | cons c rest ih =>
    intro off
    obtain ⟨name, nid, ft⟩ := c
    simp [mkfs_dump_dir_children, ih]

/-- C6: for a directory with `d` real children, the serialised tail's
first dirent has `nameoff = (d + 2) * sizeof(dirent)`; the first two
dirents are the synthesised `.` (self nid) and `..` (parent nid) with
names `"."` and `".."`; the recorded size (`mkfs_load_inode`) equals
`(d + 2) * sizeof(dirent) + 3 + Σ |child name|`; and the serialised
tail (`mkfs_dump_inode`) is exactly that many bytes long. -/
theorem C6_dir_tail_layout (self_nid parent_nid : Nat)
    (children : List (String × Nat × Nat)) :
    (mkfs_dump_inode_dir self_nid parent_nid children).1.take 2 =
      [⟨self_nid, codexfs_dirent_size * (children.length + 2), 2⟩,
       ⟨parent_nid, codexfs_dirent_size * (children.length + 2) + 1, 2⟩] ∧
    (mkfs_dump_inode_dir self_nid parent_nid children).2.take 2 =
      [".", ".."] ∧
    mkfs_dir_size (children.map (fun c => c.1)) =
      (children.length + 2) * codexfs_dirent_size + 3
        + ((children.map (fun c => c.1)).map String.length).sum ∧
    dir_tail_len (mkfs_dump_inode_dir self_nid parent_nid children).1
        (mkfs_dump_inode_dir self_nid parent_nid children).2 =
      mkfs_dir_size (children.map (fun c => c.1)) := by
  refine ⟨rfl, rfl, ?_, ?_⟩
  · simp [mkfs_dir_size]
    omega
  · have h1 : ("." : String).length = 1 := rfl
    have h2 : (".." : String).length = 2 := rfl
    simp [dir_tail_len, mkfs_dump_inode_dir, mkfs_dir_size,
      mkfs_dump_dir_children_len, mkfs_dump_dir_children_names, h1, h2]
    omega

/-! ### C5 — reorder determinism -/

theorem two_opt_scan_j_oob (path : List Nat) (mat : List (List Nat))
    (min_cost i j : Nat) (h : ¬ j < path.length) :
    two_opt_scan_j path mat min_cost i j = none := by
  rw [two_opt_scan_j, dif_neg h]

theorem two_opt_scan_i_oob (path : List Nat) (mat : List (List Nat))
    (min_cost i : Nat) (h : ¬ i < path.length - 1) :
    two_opt_scan_i path mat min_cost i = none := by
  rw [two_opt_scan_i, dif_neg h]

/-- On a 3-node path the only scanned pair is `(i, j) = (0, 2)`, whose
exchanged edges coincide with the original ones (`b = c`), so 2-opt
never improves a 3-node path. -/
theorem two_opt_optimize_len3_fix (path : List Nat) (mat : List (List Nat))
    (hlen : path.length = 3) : two_opt_optimize path mat = path := by
  have hj3 : ∀ mc i, two_opt_scan_j path mat mc i 3 = none :=
    fun mc i => two_opt_scan_j_oob _ _ _ _ _ (by omega)
  have hj2 : ∀ mc, two_opt_scan_j path mat mc 0 2 = none := by
    intro mc
    rw [two_opt_scan_j, dif_pos (by omega)]
    rw [if_neg (by norm_num [hlen])]
    exact hj3 mc 0
  have hi2 : ∀ mc, two_opt_scan_i path mat mc 2 = none :=
    fun mc => two_opt_scan_i_oob _ _ _ _ (by omega)
  have hi1 : ∀ mc, two_opt_scan_i path mat mc 1 = none := by
    intro mc
    rw [two_opt_scan_i, dif_pos (by omega)]
    rw [hj3 mc 1]
    exact hi2 mc
  have hi0 : ∀ mc, two_opt_scan_i path mat mc 0 = none := by
    intro mc
    rw [two_opt_scan_i, dif_pos (by omega)]
    rw [hj2 mc]
    exact hi1 mc
  unfold two_opt_optimize
  rw [two_opt_loop]
  split
  · rename_i p hp
    rw [hi0] at hp
    simp at hp
  · rfl

theorem reorder_tie_nn_order₁ :
    nearest_neighbor_dual_end reorder_tie_mat [0, 1, 2] = [1, 0, 2] := by
  have h0 : select_initial_node reorder_tie_mat = 0 := rfl
  unfold nearest_neighbor_dual_end
  rw [h0]
  show nn_dual_end_loop reorder_tie_mat (([0, 1, 2] : List Nat).erase 0)
    [0] 0 0 = [1, 0, 2]
  rw [show (([0, 1, 2] : List Nat).erase 0) = [1, 2] from rfl]
  simp [nn_dual_end_loop, min_by_key_first, diff, reorder_tie_mat, List.erase]

theorem reorder_tie_nn_order₂ :
    nearest_neighbor_dual_end reorder_tie_mat [0, 2, 1] = [2, 0, 1] := by
  have h0 : select_initial_node reorder_tie_mat = 0 := rfl
  unfold nearest_neighbor_dual_end
  rw [h0]
  show nn_dual_end_loop reorder_tie_mat (([0, 2, 1] : List Nat).erase 0)
    [0] 0 0 = [2, 0, 1]
  rw [show (([0, 2, 1] : List Nat).erase 0) = [2, 1] from rfl]
  simp [nn_dual_end_loop, min_by_key_first, diff, reorder_tie_mat, List.erase]

/-- C5, counterexample: on `reorder_tie_mat` (files 1 and 2 tied at the
minimum distance from the seed 0), the `HashSet` traversal order
`[0, 1, 2]` yields the permutation `[1, 0, 2]` while the equally
legitimate traversal order `[0, 2, 1]` yields `[2, 0, 1]`: the reorder
step's output depends on the randomly-seeded `HashSet` iteration order,
so two runs need not agree. -/
theorem C5_counterexample :
    compress_optimize reorder_tie_mat [0, 1, 2] ≠
      compress_optimize reorder_tie_mat [0, 2, 1] := by
  have e1 : compress_optimize reorder_tie_mat [0, 1, 2] = [1, 0, 2] := by
    rw [compress_optimize, reorder_tie_nn_order₁]
    exact two_opt_optimize_len3_fix _ _ rfl
  have e2 : compress_optimize reorder_tie_mat [0, 2, 1] = [2, 0, 1] := by
    rw [compress_optimize, reorder_tie_nn_order₂]
    exact two_opt_optimize_len3_fix _ _ rfl
  rw [e1, e2]
  decide

theorem min_by_key_first_le (key : Nat → Nat) (x : Nat) (xs : List Nat) :
    ∀ z ∈ x :: xs, key (min_by_key_first key x xs) ≤ key z := by
  induction xs generalizing x with
  | nil =>
    intro z hz
    simp at hz
    simp [min_by_key_first, hz]
  | cons y ys ih =>
    intro z hz
    have hstep : min_by_key_first key x (y :: ys) =
        min_by_key_first key (if key y < key x then y else x) ys := by
      simp [min_by_key_first]
    rw [hstep]
    rcases List.mem_cons.mp hz with hzx | hz'
    · subst hzx
      have := ih (if key y < key z then y else z)
        (if key y < key z then y else z) (List.mem_cons_self _ _)
      split at this <;> split <;> omega
    · rcases List.mem_cons.mp hz' with hzy | hzys
      · subst hzy
        have := ih (if key z < key x then z else x)
          (if key z < key x then z else x) (List.mem_cons_self _ _)
        split at this <;> split <;> omega
      · exact ih _ z (List.mem_cons_of_mem _ hzys)

/-- `min_by_key` returns the same element for any two traversal orders
of the same set, provided the key has a unique minimiser there. -/
theorem min_by_key_first_det (key : Nat → Nat) (x y : Nat) (xs ys : List Nat)
    (hperm : (x :: xs).Perm (y :: ys))
    (hinj : ∀ v ∈ x :: xs, ∀ w ∈ x :: xs, key v = key w → v = w) :
    min_by_key_first key x xs = min_by_key_first key y ys := by
  have hm1 := min_by_key_first_mem key x xs
  have hm2 := min_by_key_first_mem key y ys
  have hm2' : min_by_key_first key y ys ∈ x :: xs := hperm.mem_iff.mpr hm2
  have hle1 := min_by_key_first_le key x xs _ hm2'
  have hle2 := min_by_key_first_le key y ys _ (hperm.mem_iff.mp hm1)
  exact hinj _ hm1 _ hm2' (Nat.le_antisymm hle1 hle2)

/-- The dual-end nearest-neighbour loop is order-insensitive when every
queried minimum is unique. -/
theorem nn_loop_det (mat : List (List Nat)) (n : Nat)
    (hd : ∀ f < n, ∀ v < n, ∀ w < n, v ≠ w → diff mat f v ≠ diff mat f w) :
    ∀ (k : Nat) (u₁ u₂ path : List Nat) (front back : Nat),
      u₁.length = k → u₁.Perm u₂ → (∀ v ∈ u₁, v < n) →
      front < n → back < n →
      nn_dual_end_loop mat u₁ path front back =
        nn_dual_end_loop mat u₂ path front back := by
  intro k
  induction k with
  | zero =>
    intro u₁ u₂ path front back hlen hperm hmem hf hb
    have h1 : u₁ = [] := List.length_eq_zero.mp hlen
    subst h1
    have h2 : u₂ = [] := List.length_eq_zero.mp (by
      have := hperm.length_eq
      simpa using this.symm)
    subst h2
    rfl
  | succ k ih =>
    intro u₁ u₂ path front back hlen hperm hmem hf hb
    match hu1 : u₁, hu2 : u₂ with
    | [], _ => simp at hlen
    | x :: xs, [] => exact absurd hperm.length_eq (by simp)
    | x :: xs, y :: ys =>
      have hmem' : ∀ v ∈ x :: xs, v < n := hmem
      have hinjf : ∀ v ∈ x :: xs, ∀ w ∈ x :: xs,
          diff mat front v = diff mat front w → v = w := by
        intro v hv w hw hvw
        by_contra hne
        exact hd front hf v (hmem' v hv) w (hmem' w hw) hne hvw
      have hinjb : ∀ v ∈ x :: xs, ∀ w ∈ x :: xs,
          diff mat back v = diff mat back w → v = w := by
        intro v hv w hw hvw
        by_contra hne
        exact hd back hb v (hmem' v hv) w (hmem' w hw) hne hvw
      have hnf := min_by_key_first_det (fun node => diff mat front node)
        x y xs ys hperm hinjf
      have hnb := min_by_key_first_det (fun node => diff mat back node)
        x y xs ys hperm hinjb
      rw [nn_dual_end_loop, nn_dual_end_loop, ← hnf, ← hnb]
      have hnfmem := min_by_key_first_mem (fun node => diff mat front node) x xs
      have hnbmem := min_by_key_first_mem (fun node => diff mat back node) x xs
      split
      · exact ih ((x :: xs).erase _) ((y :: ys).erase _) _ _ _
          (by rw [List.length_erase_of_mem hnfmem]; simpa using hlen)
          (hperm.erase _)
          (fun v hv => hmem' v (List.mem_of_mem_erase hv))
          (hmem' _ hnfmem) hb
      · exact ih ((x :: xs).erase _) ((y :: ys).erase _) _ _ _
          (by rw [List.length_erase_of_mem hnbmem]; simpa using hlen)
          (hperm.erase _)
          (fun v hv => hmem' v (List.mem_of_mem_erase hv))
          hf (hmem' _ hnbmem)

/-- C5 (amended): the reorder step is deterministic — independent of
the `HashSet` traversal orders of the two runs — provided no two
distinct candidates are ever tied at the minimum distance (no `f`-row
of the matrix repeats a value on distinct indices `< n`).  With ties,
`C5_counterexample` shows two runs may produce different
permutations. -/
theorem C5_reorder_deterministic_without_ties (mat : List (List Nat))
    (n : Nat) (order₁ order₂ : List Nat)
    (hn : mat.length = n) (hpos : 0 < n)
    (h1 : order₁.Perm (List.range n)) (h2 : order₂.Perm (List.range n))
    (hd : ∀ f < n, ∀ v < n, ∀ w < n, v ≠ w → diff mat f v ≠ diff mat f w) :
    compress_optimize mat order₁ = compress_optimize mat order₂ := by
  suffices hnn : nearest_neighbor_dual_end mat order₁ =
      nearest_neighbor_dual_end mat order₂ by
    rw [compress_optimize, compress_optimize, hnn]
  have hstart : select_initial_node mat < n := by
    unfold select_initial_node
    rw [hn]
    match hr : List.range n with
    | [] =>
      have : n = 0 := by simpa using congrArg List.length hr
      omega
    | x :: xs =>
      have hmem := min_by_key_first_mem
        (fun i => (mat.getD i []).sum) x xs
      rw [← hr] at hmem
      exact List.mem_range.mp hmem
  unfold nearest_neighbor_dual_end
  exact nn_loop_det mat n hd (order₁.erase (select_initial_node mat)).length
    _ _ _ _ _ rfl
    ((h1.erase _).trans ((h2.erase _).symm))
    (fun v hv => List.mem_range.mp (h1.mem_iff.mp (List.mem_of_mem_erase hv)))
    hstart hstart

/-- Witness for C5's amended theorem: a tie-free 3×3 matrix and two
different traversal orders. -/
theorem C5_reorder_deterministic_without_ties_witness :
    compress_optimize [[0, 1, 2], [1, 0, 3], [2, 3, 0]] [0, 1, 2] =
      compress_optimize [[0, 1, 2], [1, 0, 3], [2, 3, 0]] [2, 1, 0] :=
  C5_reorder_deterministic_without_ties [[0, 1, 2], [1, 0, 3], [2, 3, 0]]
    3 [0, 1, 2] [2, 1, 0] rfl (by decide) (by decide) (by decide) (by decide)

/-! ### C4 — allocator soundness -/

theorem round_up_idem (v a : Nat) : round_up (round_up v a) a = round_up v a :=
  round_up_eq_self _ _ (round_up_dvd v a)

theorem round_up_add_multiple (m v a : Nat) (h : a ∣ m) :
    round_up (m + v) a = m + round_up v a := by
  rcases Nat.eq_zero_or_pos a with ha | ha
  · subst ha
    obtain ⟨k, hk⟩ := h
    simp [round_up, hk]
  · obtain ⟨k, hk⟩ := h
    subst hk
    unfold round_up
    have h1 : a * k + v + a - 1 = a * k + (v + a - 1) := by omega
    rw [h1, Nat.mul_add_div ha]
    ring

theorem getD_set_self {α : Type} (t : List (List α)) (i : Nat)
    (x : List α) (h : i < t.length) : (t.set i x).getD i [] = x := by
  rw [List.getD_eq_getElem?_getD, List.getElem?_set, if_pos rfl, if_pos h]
  rfl

theorem getD_set_ne {α : Type} (t : List (List α)) (i j : Nat)
    (x : List α) (h : i ≠ j) : (t.set i x).getD j [] = t.getD j [] := by
  rw [List.getD_eq_getElem?_getD, List.getElem?_set, if_neg h,
    ← List.getD_eq_getElem?_getD]

theorem flatten_set_perm {α : Type} (t : List (List α)) (i : Nat)
    (x : List α) (h : i < t.length) :
    (t.set i x).flatten.Perm (x ++ (t.set i ([] : List α)).flatten) := by
  rw [List.set_eq_take_append_cons_drop, if_pos h,
    List.set_eq_take_append_cons_drop, if_pos h]
  rw [List.flatten_append, List.flatten_append]
  simp only [List.flatten_cons, List.flatten_nil, List.nil_append]
  rw [← List.append_assoc, ← List.append_assoc]
  exact List.perm_append_comm.append_right _

theorem set_getD_self {α : Type} (t : List (List α)) (i : Nat)
    (h : i < t.length) : t.set i (t.getD i []) = t := by
  apply List.ext_getElem?
  intro j
  rw [List.getElem?_set]
  by_cases hij : i = j
  · subst hij
    rw [if_pos rfl, if_pos h, List.getD_eq_getElem?_getD,
      List.getElem?_eq_getElem h]
    rfl
  · rw [if_neg hij]

theorem flatten_decomp {α : Type} (t : List (List α)) (i : Nat)
    (h : i < t.length) :
    t.flatten.Perm (t.getD i [] ++ (t.set i ([] : List α)).flatten) := by
  conv_lhs => rw [← set_getD_self t i h]
  exact flatten_set_perm t i _ h

/-- Two blocks of a duplicate-free manager sharing an id are the same
block. -/
theorem nodup_id_inj {l : List BufferBlock}
    (hn : (l.map (fun b => b.blk_id)).Nodup) :
    ∀ b ∈ l, ∀ c ∈ l, b.blk_id = c.blk_id → b = c := by
  induction l with
  | nil => intro b hb; simp at hb
  | cons x xs ih =>
    intro b hb c hc hbc
    simp only [List.map_cons, List.nodup_cons] at hn
    rcases List.mem_cons.mp hb with rfl | hb2
    · rcases List.mem_cons.mp hc with rfl | hc2
      · rfl
      · exact absurd (hbc ▸ List.mem_map_of_mem _ hc2) hn.1
    · rcases List.mem_cons.mp hc with rfl | hc2
      · exact absurd (hbc ▸ List.mem_map_of_mem _ hb2) hn.1
      · exact ih hn.2 b hb2 c hc2 hbc

theorem push_block_table_eq (B : Nat) (m : BufferManager) (b : BufferBlock) :
    (push_block B m b).table =
      m.table.set (B - b.blk_off)
        ((m.table.getD (B - b.blk_off) []) ++ [b]) := rfl

theorem push_block_tail (B : Nat) (m : BufferManager) (b : BufferBlock) :
    (push_block B m b).tail_blk = m.tail_blk := rfl

theorem push_block_blocks (B : Nat) (m : BufferManager) (b : BufferBlock)
    (h : B - b.blk_off < m.table.length) :
    (blocks (push_block B m b)).Perm (b :: blocks m) := by
  show ((m.table.set (B - b.blk_off)
    ((m.table.getD (B - b.blk_off) []) ++ [b])).flatten).Perm _
  refine (flatten_set_perm _ _ _ h).trans ?_
  refine List.Perm.trans ?_ ((flatten_decomp m.table _ h).symm.cons b)
  have hsh : b :: (m.table.getD (B - b.blk_off) [] ++
      (m.table.set (B - b.blk_off) ([] : List BufferBlock)).flatten) =
      ([b] ++ m.table.getD (B - b.blk_off) []) ++
      (m.table.set (B - b.blk_off) ([] : List BufferBlock)).flatten := by
    simp
  rw [hsh]
  exact List.perm_append_comm.append_right _

theorem push_block_bucket (B : Nat) (m : BufferManager) (b : BufferBlock)
    (hoff : b.blk_off ≤ B)
    (hbk : ∀ i, ∀ x ∈ m.table.getD i [], x.blk_off ≤ B ∧ B - x.blk_off = i) :
    ∀ i, ∀ x ∈ (push_block B m b).table.getD i [],
      x.blk_off ≤ B ∧ B - x.blk_off = i := by
  intro i x hx
  rw [push_block_table_eq] at hx
  by_cases hi : B - b.blk_off = i
  · subst hi
    by_cases hlt : B - b.blk_off < m.table.length
    · rw [getD_set_self _ _ _ hlt] at hx
      rcases List.mem_append.mp hx with h1 | h2
      · exact hbk _ x h1
      · simp only [List.mem_singleton] at h2
        subst h2
        exact ⟨hoff, rfl⟩
    · rw [List.getD_eq_getElem?_getD, List.getElem?_set, if_pos rfl,
        if_neg hlt] at hx
      simp at hx
  · rw [getD_set_ne _ _ _ _ hi] at hx
    exact hbk _ x hx

theorem consumed_mono {B : Nat} {m m' : BufferManager}
    (hp : ∀ b ∈ blocks m, b ∈ blocks m') :
    ∀ a, consumed B m a → consumed B m' a := by
  rintro a ⟨b, hb, h1, h2⟩
  exact ⟨b, hp b hb, h1, h2⟩

/-- One fresh-block push step preserves the invariant. -/
theorem push_fresh_inv (B : Nat) (m : BufferManager) (off : Nat)
    (hI : BufInv B m) (hoff : off ≤ B) :
    BufInv B (push_block B { m with tail_blk := m.tail_blk + 1 }
      ⟨m.tail_blk + 1, off⟩) := by
  set m0 : BufferManager := { m with tail_blk := m.tail_blk + 1 } with hm0
  have hlen0 : m0.table.length = B + 1 := hI.len
  have hidx : B - off < m0.table.length := by omega
  have hperm := push_block_blocks B m0 ⟨m.tail_blk + 1, off⟩ hidx
  have hblocks0 : blocks m0 = blocks m := rfl
  refine ⟨?_, ?_, ?_, ?_, ?_⟩
  · show (m0.table.set _ _).length = B + 1
    rw [List.length_set]
    exact hlen0
  · exact push_block_bucket B m0 _ hoff hI.bucket
  · have hpm := hperm.map (fun b => b.blk_id)
    unfold ids
    rw [hpm.nodup_iff]
    simp only [List.map_cons]
    rw [List.nodup_cons]
    constructor
    · intro hmem
      rw [hblocks0] at hmem
      obtain ⟨c, hc, hcid⟩ := List.mem_map.mp hmem
      have := hI.le_tail c hc
      have hcid2 : c.blk_id = m.tail_blk + 1 := hcid
      omega
    · rw [hblocks0]
      exact hI.nodup
  · intro b hb
    have hb2 := hperm.mem_iff.mp hb
    rw [push_block_tail]
    rcases List.mem_cons.mp hb2 with rfl | hb3
    · exact le_refl _
    · rw [hblocks0] at hb3
      have := hI.le_tail b hb3
      show b.blk_id ≤ m.tail_blk + 1
      omega
  · refine ⟨⟨m.tail_blk + 1, off⟩, ?_, rfl⟩
    exact hperm.mem_iff.mpr (List.mem_cons_self _ _)

theorem contig_blocks_spec (B : Nat) (hB : 0 < B) : ∀ (s : Nat)
    (m : BufferManager), BufInv B m →
    BufInv B (contig_blocks B m s) ∧
    m.tail_blk ≤ (contig_blocks B m s).tail_blk ∧
    (∀ a, consumed B m a → consumed B (contig_blocks B m s) a) ∧
    (∀ a, (m.tail_blk + 1) * B ≤ a → a < (m.tail_blk + 1) * B + s →
      consumed B (contig_blocks B m s) a) ∧
    (m.tail_blk + 1) * B + s ≤ ((contig_blocks B m s).tail_blk + 1) * B := by
  intro s
  induction s using Nat.strong_induction_on with
  | _ s ih =>
    match s with
    | 0 =>
      intro m hI
      rw [contig_blocks]
      refine ⟨hI, le_refl _, fun a h => h, ?_, by omega⟩
      intro a h1 h2
      omega
    | n + 1 =>
      intro m hI
      have hneq : ¬ (min B (n + 1) = 0) := by omega
      have hval : contig_blocks B m (n + 1) =
          contig_blocks B (push_block B { m with tail_blk := m.tail_blk + 1 }
            ⟨m.tail_blk + 1, min B (n + 1)⟩) (n + 1 - min B (n + 1)) := by
        rw [contig_blocks]
        dsimp only
        rw [dif_neg hneq]
      rw [hval]
      set m1 : BufferManager := push_block B
        { m with tail_blk := m.tail_blk + 1 }
        ⟨m.tail_blk + 1, min B (n + 1)⟩ with hm1
      have hI1 : BufInv B m1 := push_fresh_inv B m _ hI (by omega)
      have htail1 : m1.tail_blk = m.tail_blk + 1 := rfl
      have hidx : B - min B (n + 1) <
          ({ m with tail_blk := m.tail_blk + 1 } : BufferManager).table.length := by
        have := hI.len
        show B - min B (n + 1) < m.table.length
        omega
      have hperm := push_block_blocks B
        { m with tail_blk := m.tail_blk + 1 } ⟨m.tail_blk + 1, min B (n + 1)⟩
        hidx
      obtain ⟨hI2, htl2, hcons2, hcover2, hbound2⟩ :=
        ih (n + 1 - min B (n + 1)) (by omega) m1 hI1
      refine ⟨hI2, by omega, ?_, ?_, ?_⟩
      · intro a ha
        refine hcons2 a ?_
        exact consumed_mono (fun b hb =>
          hperm.mem_iff.mpr (List.mem_cons_of_mem _ hb)) a ha
      · intro a h1 h2
        by_cases hcase : a < (m.tail_blk + 1) * B + min B (n + 1)
        · refine hcons2 a ?_
          refine ⟨⟨m.tail_blk + 1, min B (n + 1)⟩,
            hperm.mem_iff.mpr (List.mem_cons_self _ _), ?_, ?_⟩
          · show (m.tail_blk + 1) * B ≤ a
            omega
          · show a < (m.tail_blk + 1) * B + min B (n + 1)
            omega
        · have hexp : (m.tail_blk + 1 + 1) * B = (m.tail_blk + 1) * B + B := by
            ring
          refine hcover2 a ?_ ?_
          · rw [htail1, hexp]
            omega
          · rw [htail1, hexp]
            omega
      · rw [htail1] at hbound2
        have hexp : (m.tail_blk + 1 + 1) * B = (m.tail_blk + 1) * B + B := by
          ring
        rw [hexp] at hbound2
        omega

theorem bucket_sub_blocks (m : BufferManager) (i : Nat)
    (hi : i < m.table.length) :
    ∀ x ∈ m.table.getD i [], x ∈ blocks m := by
  intro x hx
  exact (flatten_decomp m.table i hi).mem_iff.mpr
    (List.mem_append.mpr (Or.inl hx))

theorem blocks_off_le {B : Nat} {m : BufferManager} (hI : BufInv B m) :
    ∀ c ∈ blocks m, c.blk_off ≤ B := by
  intro c hc
  obtain ⟨l, hl, hcl⟩ := List.mem_flatten.mp hc
  obtain ⟨j, hj, hlj⟩ := List.mem_iff_getElem.mp hl
  have hgd : m.table.getD j [] = l := by
    rw [List.getD_eq_getElem?_getD, List.getElem?_eq_getElem hj]
    exact hlj
  exact (hI.bucket j c (hgd ▸ hcl)).1

/-- The core of `bfind`'s hit: pop the last block of bucket `i`, carve
an aligned region of `asize` bytes out of it, re-file it. -/
theorem bfind_step_ok (B : Nat) (m : BufferManager) (asize align i : Nat)
    (b : BufferBlock)
    (hI : BufInv B m) (hB : 0 < B) (hal0 : 0 < align)
    (halB : align ∣ B) (hala : align ∣ asize)
    (hi1 : asize ≤ i) (hi2 : i < B + 1)
    (hb : (m.table.getD i []).getLast? = some b) :
    round_up (b.addr B) align =
      round_up (round_up (b.addr B) align) align ∧
    BallocOk B asize m (round_up (b.addr B) align)
      (push_block B
        { m with table := m.table.set i (m.table.getD i []).dropLast }
        { b with blk_off := round_up b.blk_off align + asize }) := by
  obtain ⟨ys, hys⟩ := List.getLast?_eq_some_iff.mp hb
  have hilen : i < m.table.length := by
    rw [hI.len]
    omega
  have hbmem : b ∈ blocks m :=
    bucket_sub_blocks m i hilen b (by rw [hys]; simp)
  obtain ⟨hoffle, hoffi⟩ := hI.bucket i b (by rw [hys]; simp)
  have hru_le : round_up b.blk_off align ≤ B - asize :=
    round_up_le _ _ _ hal0 (by omega) (Nat.dvd_sub' halB hala)
  have hnew_le : round_up b.blk_off align + asize ≤ B := by omega
  have hruo := le_round_up b.blk_off align hal0
  set m1 : BufferManager :=
    { m with table := m.table.set i (m.table.getD i []).dropLast } with hm1
  set b' : BufferBlock :=
    { b with blk_off := round_up b.blk_off align + asize } with hb'
  have hdrop : (m.table.getD i []).dropLast = ys := by
    rw [hys]
    exact List.dropLast_concat
  have hm1len : m1.table.length = B + 1 := by
    show (m.table.set _ _).length = B + 1
    rw [List.length_set]
    exact hI.len
  have hpm1 : (blocks m1).Perm (ys ++ (m.table.set i ([] : List BufferBlock)).flatten) := by
    show (m.table.set i (m.table.getD i []).dropLast).flatten.Perm _
    rw [hdrop]
    refine (flatten_set_perm m.table i ys hilen).trans ?_
    exact List.Perm.refl _
  have hpm : (blocks m).Perm (b :: blocks m1) := by
    refine (flatten_decomp m.table i hilen).trans ?_
    rw [hys]
    refine List.Perm.trans ?_ (hpm1.symm.cons b)
    have hsh : b :: (ys ++ (m.table.set i ([] : List BufferBlock)).flatten) =
        ([b] ++ ys) ++ (m.table.set i ([] : List BufferBlock)).flatten := by
      simp
    rw [hsh]
    exact List.perm_append_comm.append_right _
  have hidx' : B - b'.blk_off < m1.table.length := by
    rw [hm1len]
    omega
  have hpm' : (blocks (push_block B m1 b')).Perm (b' :: blocks m1) :=
    push_block_blocks B m1 b' hidx'
  have htail' : (push_block B m1 b').tail_blk = m.tail_blk := rfl
  have hm1sub : ∀ x ∈ blocks m1, x ∈ blocks m := by
    intro x hx
    refine hpm.mem_iff.mpr (List.mem_cons_of_mem _ hx)
  have hm'mem : ∀ x ∈ blocks (push_block B m1 b'),
      x = b' ∨ x ∈ blocks m1 := by
    intro x hx
    exact List.mem_cons.mp (hpm'.mem_iff.mp hx)
  have hidm1 : (ids m).Perm (b.blk_id :: ids m1) := by
    have := hpm.map (fun x => x.blk_id)
    simpa using this
  have hidm' : (ids (push_block B m1 b')).Perm (b.blk_id :: ids m1) := by
    have := hpm'.map (fun x => x.blk_id)
    simpa using this
  have hbtail := hI.le_tail b hbmem
  have haddr : round_up (b.addr B) align =
      b.blk_id * B + round_up b.blk_off align := by
    show round_up (blk_id_to_addr B b.blk_id + b.blk_off) align = _
    rw [show blk_id_to_addr B b.blk_id = b.blk_id * B from rfl]
    exact round_up_add_multiple _ _ _ (halB.mul_left b.blk_id)
  refine ⟨(round_up_idem _ _).symm, ?_, ?_, ?_, ?_, ?_⟩
  · -- BufInv of the result
    refine ⟨?_, ?_, ?_, ?_, ?_⟩
    · show (m1.table.set _ _).length = B + 1
      rw [List.length_set]
      exact hm1len
    · refine push_block_bucket B m1 b' (by show round_up b.blk_off align + asize ≤ B; omega) ?_
      intro j x hx
      by_cases hij : i = j
      · subst hij
        rw [show m1.table = m.table.set i (m.table.getD i []).dropLast from rfl,
          getD_set_self _ _ _ hilen, hdrop] at hx
        exact hI.bucket i x (by rw [hys]; exact List.mem_append.mpr (Or.inl hx))
      · rw [show m1.table = m.table.set i (m.table.getD i []).dropLast from rfl,
          getD_set_ne _ _ _ _ hij] at hx
        exact hI.bucket j x hx
    · rw [show ids (push_block B m1 b') =
        (blocks (push_block B m1 b')).map (fun x => x.blk_id) from rfl]
      rw [(hpm'.map (fun x => x.blk_id)).nodup_iff]
      have hn := hI.nodup
      rw [show ids m = (blocks m).map (fun x => x.blk_id) from rfl] at hn
      rw [(hpm.map (fun x => x.blk_id)).nodup_iff] at hn
      simpa using hn
    · intro x hx
      rw [htail']
      rcases hm'mem x hx with rfl | hx2
      · show b.blk_id ≤ m.tail_blk
        exact hbtail
      · exact hI.le_tail x (hm1sub x hx2)
    · obtain ⟨t, ht, htid⟩ := hI.tail_mem
      rw [htail']
      rcases List.mem_cons.mp (hpm.mem_iff.mp ht) with rfl | ht2
      · exact ⟨b', hpm'.mem_iff.mpr (List.mem_cons_self _ _), htid⟩
      · exact ⟨t, hpm'.mem_iff.mpr (List.mem_cons_of_mem _ ht2), htid⟩
  · rw [htail']
  · -- consumed monotone
    rintro a ⟨c, hc, h1, h2⟩
    rcases List.mem_cons.mp (hpm.mem_iff.mp hc) with rfl | hc2
    · refine ⟨b', hpm'.mem_iff.mpr (List.mem_cons_self _ _), h1, ?_⟩
      show a < c.blk_id * B + (round_up c.blk_off align + asize)
      omega
    · exact ⟨c, hpm'.mem_iff.mpr (List.mem_cons_of_mem _ hc2), h1, h2⟩
  · -- the region is fresh and covered afterwards
    intro a ha1 ha2
    rw [haddr] at ha1 ha2
    constructor
    · rintro ⟨c, hc, h1, h2⟩
      have hcoff := blocks_off_le hI c hc
      have hcid : c.blk_id = b.blk_id := by
        have hd1 : a / B = c.blk_id := by
          refine Nat.div_eq_of_lt_le h1 ?_
          have : a < c.blk_id * B + B := by omega
          calc a < c.blk_id * B + B := this
            _ = (c.blk_id + 1) * B := by ring
        have hd2 : a / B = b.blk_id := by
          refine Nat.div_eq_of_lt_le (by omega) ?_
          have : a < b.blk_id * B + B := by omega
          calc a < b.blk_id * B + B := this
            _ = (b.blk_id + 1) * B := by ring
        omega
      have hcb : c = b := nodup_id_inj hI.nodup c hc b hbmem hcid
      subst hcb
      omega
    · refine ⟨b', hpm'.mem_iff.mpr (List.mem_cons_self _ _), ?_, ?_⟩
      · show b.blk_id * B ≤ a
        omega
      · show a < b.blk_id * B + (round_up b.blk_off align + asize)
        omega
  · rw [haddr, htail']
    have hmul : (b.blk_id + 1) * B ≤ (m.tail_blk + 1) * B :=
      Nat.mul_le_mul_right _ (by omega)
    have hexp : (b.blk_id + 1) * B = b.blk_id * B + B := by ring
    omega

theorem bfind_loop_none_step (B : Nat) (m : BufferManager)
    (asize align i : Nat) (h : i < B + 1)
    (hm : (m.table.getD i []).getLast? = none) :
    bfind_loop B m asize align i = bfind_loop B m asize align (i + 1) := by
  conv_lhs => rw [bfind_loop]
  rw [dif_pos h, hm]

theorem bfind_loop_some_step (B : Nat) (m : BufferManager)
    (asize align i : Nat) (b : BufferBlock) (h : i < B + 1)
    (hm : (m.table.getD i []).getLast? = some b) :
    bfind_loop B m asize align i = some (round_up (b.addr B) align,
      push_block B
        { m with table := m.table.set i (m.table.getD i []).dropLast }
        { b with blk_off := round_up b.blk_off align + asize }) := by
  conv_lhs => rw [bfind_loop]
  rw [dif_pos h, hm]

theorem bfind_loop_oob (B : Nat) (m : BufferManager)
    (asize align i : Nat) (h : ¬ i < B + 1) :
    bfind_loop B m asize align i = none := by
  conv_lhs => rw [bfind_loop]
  rw [dif_neg h]

theorem bfind_loop_spec (B : Nat) (m : BufferManager) (asize align : Nat)
    (hI : BufInv B m) (hB : 0 < B) (hal0 : 0 < align)
    (halB : align ∣ B) (hala : align ∣ asize) :
    ∀ i, asize ≤ i →
      (bfind_loop B m asize align i = none →
        ∀ j, i ≤ j → j < B + 1 → m.table.getD j [] = []) ∧
      (∀ addr m', bfind_loop B m asize align i = some (addr, m') →
        addr = round_up addr align ∧ BallocOk B asize m addr m') := by
  intro i
  induction i using bfind_loop.induct B m asize align with
  | case1 x i hlt hm ih =>
    intro hi
    rw [bfind_loop_none_step B m asize align i hlt hm]
    obtain ⟨hnone, hsome⟩ := ih (by omega)
    refine ⟨?_, hsome⟩
    intro hn j hj1 hj2
    by_cases hji : j = i
    · subst hji
      rw [← List.getLast?_eq_none_iff]
      exact hm
    · exact hnone hn j (by omega) hj2
  | case2 x i hlt b hm =>
    intro hi
    rw [bfind_loop_some_step B m asize align i b hlt hm]
    refine ⟨(fun hn => nomatch hn), ?_⟩
    intro addr m' heq
    have hstep := bfind_step_ok B m asize align i b hI hB hal0 halB hala
      hi (by omega) hm
    rw [Option.some.injEq, Prod.mk.injEq] at heq
    obtain ⟨h1, h2⟩ := heq
    rw [← h1, ← h2]
    exact ⟨hstep.1, hstep.2⟩
  | case3 x i hlt =>
    intro hi
    rw [bfind_loop_oob B m asize align i hlt]
    refine ⟨?_, fun addr m' heq => nomatch heq⟩
    intro hn j hj1 hj2
    omega

theorem blocks_bucket_mem {B : Nat} {m : BufferManager} (hI : BufInv B m) :
    ∀ c ∈ blocks m, c ∈ m.table.getD (B - c.blk_off) [] := by
  intro c hc
  obtain ⟨l, hl, hcl⟩ := List.mem_flatten.mp hc
  obtain ⟨j, hj, hlj⟩ := List.mem_iff_getElem.mp hl
  have hgd : m.table.getD j [] = l := by
    rw [List.getD_eq_getElem?_getD, List.getElem?_eq_getElem hj]
    exact hlj
  have := (hI.bucket j c (hgd ▸ hcl)).2
  rw [this, hgd]
  exact hcl

theorem find_block_spec {B : Nat} {m : BufferManager} (hI : BufInv B m) :
    ∃ t, find_block m m.tail_blk = some t ∧ t ∈ blocks m ∧
      t.blk_id = m.tail_blk := by
  obtain ⟨t0, ht0, hid0⟩ := hI.tail_mem
  cases hfb : find_block m m.tail_blk with
  | none =>
    rw [find_block, List.find?_eq_none] at hfb
    have := hfb t0 ht0
    simp only [beq_iff_eq] at this
    exact absurd hid0 this
  | some t =>
    have h1 := List.find?_some hfb
    have h2 := List.mem_of_find?_eq_some hfb
    simp only [beq_iff_eq] at h1
    exact ⟨t, rfl, h2, h1⟩

/-- `update_block` on the tail block with new offset `B`: the tail's
block becomes fully consumed. -/
theorem update_tail_ok (B : Nat) (m : BufferManager) (t : BufferBlock)
    (hI : BufInv B m) (hB : 0 < B) (ht : t ∈ blocks m) :
    BufInv B (update_block B m t B) ∧
    (update_block B m t B).tail_blk = m.tail_blk ∧
    (∀ a, consumed B m a → consumed B (update_block B m t B) a) ∧
    (∀ a, t.blk_id * B ≤ a → a < (t.blk_id + 1) * B →
      consumed B (update_block B m t B) a) := by
  have htoff := blocks_off_le hI t ht
  have htb := blocks_bucket_mem hI t ht
  obtain ⟨t', l₁, l₂, hl₁, hpt', hbkt, hbkt'⟩ :=
    @List.exists_of_eraseP BufferBlock (fun x => x.blk_id == t.blk_id)
      (m.table.getD (B - t.blk_off) []) t htb (by simp)
  simp only [beq_iff_eq] at hpt'
  have ht'mem : t' ∈ blocks m := by
    refine bucket_sub_blocks m (B - t.blk_off) ?_ t' ?_
    · rw [hI.len]
      omega
    · rw [hbkt]
      simp
  have ht't : t' = t := nodup_id_inj hI.nodup t' ht'mem t ht hpt'
  rw [ht't] at hbkt
  have hilen : B - t.blk_off < m.table.length := by
    rw [hI.len]
    omega
  set m1 : BufferManager := { m with table := m.table.set (B - t.blk_off) ((m.table.getD (B - t.blk_off) []).eraseP (fun x => x.blk_id == t.blk_id)) } with hm1
  set t' : BufferBlock := { t with blk_off := B } with ht'
  have hval : update_block B m t B = push_block B m1 t' := rfl
  have hm1len : m1.table.length = B + 1 := by
    show (m.table.set _ _).length = B + 1
    rw [List.length_set]
    exact hI.len
  have hpm1 : (blocks m1).Perm ((l₁ ++ l₂) ++
      (m.table.set (B - t.blk_off) ([] : List BufferBlock)).flatten) := by
    show (m.table.set _ _).flatten.Perm _
    rw [hbkt']
    exact flatten_set_perm m.table _ _ hilen
  have hpm : (blocks m).Perm (t :: blocks m1) := by
    refine (flatten_decomp m.table (B - t.blk_off) hilen).trans ?_
    rw [hbkt]
    refine List.Perm.trans ?_ (hpm1.symm.cons t)
    have hsh1 : l₁ ++ t :: l₂ = (l₁ ++ [t]) ++ l₂ := by simp
    rw [hsh1]
    have hsh2 : t :: ((l₁ ++ l₂) ++
        (m.table.set (B - t.blk_off) ([] : List BufferBlock)).flatten) =
        (([t] ++ l₁) ++ l₂) ++
        (m.table.set (B - t.blk_off) ([] : List BufferBlock)).flatten := by
      simp
    rw [hsh2]
    refine List.Perm.append_right _ ?_
    exact List.perm_append_comm.append_right _
  have hidx' : B - t'.blk_off < m1.table.length := by
    rw [hm1len]
    show B - B < B + 1
    omega
  have hpm' : (blocks (push_block B m1 t')).Perm (t' :: blocks m1) :=
    push_block_blocks B m1 t' hidx'
  have htail' : (push_block B m1 t').tail_blk = m.tail_blk := rfl
  have hm1sub : ∀ x ∈ blocks m1, x ∈ blocks m := by
    intro x hx
    exact hpm.mem_iff.mpr (List.mem_cons_of_mem _ hx)
  rw [hval]
  refine ⟨⟨?_, ?_, ?_, ?_, ?_⟩, htail', ?_, ?_⟩
  · show (m1.table.set _ _).length = B + 1
    rw [List.length_set]
    exact hm1len
  · refine push_block_bucket B m1 t' (by show B ≤ B; omega) ?_
    intro j x hx
    by_cases hij : B - t.blk_off = j
    · subst hij
      rw [show m1.table = m.table.set (B - t.blk_off)
          ((m.table.getD (B - t.blk_off) []).eraseP
            (fun x => x.blk_id == t.blk_id)) from rfl,
        getD_set_self _ _ _ hilen, hbkt'] at hx
      refine hI.bucket _ x ?_
      rw [hbkt]
      rcases List.mem_append.mp hx with h1 | h2
      · exact List.mem_append.mpr (Or.inl h1)
      · exact List.mem_append.mpr (Or.inr (List.mem_cons_of_mem _ h2))
    · rw [show m1.table = m.table.set (B - t.blk_off)
          ((m.table.getD (B - t.blk_off) []).eraseP
            (fun x => x.blk_id == t.blk_id)) from rfl,
        getD_set_ne _ _ _ _ hij] at hx
      exact hI.bucket j x hx
  · rw [show ids (push_block B m1 t') =
      (blocks (push_block B m1 t')).map (fun x => x.blk_id) from rfl]
    rw [(hpm'.map (fun x => x.blk_id)).nodup_iff]
    have hn := hI.nodup
    rw [show ids m = (blocks m).map (fun x => x.blk_id) from rfl] at hn
    rw [(hpm.map (fun x => x.blk_id)).nodup_iff] at hn
    simpa using hn
  · intro x hx
    rw [htail']
    rcases List.mem_cons.mp (hpm'.mem_iff.mp hx) with rfl | hx2
    · show t.blk_id ≤ m.tail_blk
      exact hI.le_tail t ht
    · exact hI.le_tail x (hm1sub x hx2)
  · obtain ⟨t0, ht0, hid0⟩ := hI.tail_mem
    rw [htail']
    rcases List.mem_cons.mp (hpm.mem_iff.mp ht0) with rfl | ht02
    · exact ⟨t', hpm'.mem_iff.mpr (List.mem_cons_self _ _), hid0⟩
    · exact ⟨t0, hpm'.mem_iff.mpr (List.mem_cons_of_mem _ ht02), hid0⟩
  · rintro a ⟨c, hc, h1, h2⟩
    rcases List.mem_cons.mp (hpm.mem_iff.mp hc) with rfl | hc2
    · refine ⟨t', hpm'.mem_iff.mpr (List.mem_cons_self _ _), h1, ?_⟩
      show a < c.blk_id * B + B
      omega
    · exact ⟨c, hpm'.mem_iff.mpr (List.mem_cons_of_mem _ hc2), h1, h2⟩
  · intro a h1 h2
    refine ⟨t', hpm'.mem_iff.mpr (List.mem_cons_self _ _), h1, ?_⟩
    show a < t.blk_id * B + B
    have : (t.blk_id + 1) * B = t.blk_id * B + B := by ring
    omega

/-- `balloc_contig` under the free-table emptiness produced by a failed
`bfind`: it succeeds and carves a fresh aligned region. -/
theorem balloc_contig_spec (B : Nat) (m : BufferManager)
    (asize align : Nat) (hI : BufInv B m) (hB : 0 < B) (hal0 : 0 < align)
    (halB : align ∣ B) (hala : align ∣ asize)
    (hempty : ∀ j, asize ≤ j → j < B + 1 → m.table.getD j [] = []) :
    ∃ addr m', balloc_contig B m asize align = some (addr, m') ∧
      addr = round_up addr align ∧ BallocOk B asize m addr m' := by
  obtain ⟨t, hfb, htmem, htid⟩ := find_block_spec hI
  have htoff := blocks_off_le hI t htmem
  have hao_le : round_up t.blk_off align ≤ B :=
    round_up_le _ _ _ hal0 htoff halB
  have hao_ge := le_round_up t.blk_off align hal0
  have hval : balloc_contig B m asize align =
      (if round_up t.blk_off align < B then
        (if round_up t.blk_off align + asize > B then
          some (round_up (t.addr B) align,
            contig_blocks B (update_block B m t B)
              (asize - (B - round_up t.blk_off align)))
        else none)
      else if round_up t.blk_off align = B then
        some (blk_id_to_addr B (m.tail_blk + 1), contig_blocks B m asize)
      else none) := by
    rw [balloc_contig, hfb]
  have haddr_t : round_up (t.addr B) align =
      t.blk_id * B + round_up t.blk_off align := by
    show round_up (blk_id_to_addr B t.blk_id + t.blk_off) align = _
    rw [show blk_id_to_addr B t.blk_id = t.blk_id * B from rfl]
    exact round_up_add_multiple _ _ _ (halB.mul_left t.blk_id)
  by_cases hlt : round_up t.blk_off align < B
  · have hassert : round_up t.blk_off align + asize > B := by
      by_contra hle
      have hj : t ∈ m.table.getD (B - t.blk_off) [] := blocks_bucket_mem hI t htmem
      have hje : m.table.getD (B - t.blk_off) [] = [] := by
        refine hempty (B - t.blk_off) (by omega) (by omega)
      rw [hje] at hj
      cases hj
    rw [hval, if_pos hlt, if_pos hassert]
    obtain ⟨hI2, htail2, hcons2, hcover2⟩ := update_tail_ok B m t hI hB htmem
    obtain ⟨hI3, htl3, hcons3, hcover3, hbound3⟩ :=
      contig_blocks_spec B hB (asize - (B - round_up t.blk_off align))
        (update_block B m t B) hI2
    have hexpT : (t.blk_id + 1) * B = t.blk_id * B + B := by ring
    refine ⟨_, _, rfl, ?_, hI3, ?_, ?_, ?_, ?_⟩
    · rw [haddr_t]
      exact (round_up_eq_self _ _ (Nat.dvd_add (halB.mul_left t.blk_id)
        (round_up_dvd _ _))).symm
    · rw [← htail2]
      exact htl3
    · intro a ha
      exact hcons3 a (hcons2 a ha)
    · intro a ha1 ha2
      rw [haddr_t] at ha1 ha2
      constructor
      · rintro ⟨c, hc, h1, h2⟩
        have hcoff := blocks_off_le hI c hc
        have hcle := hI.le_tail c hc
        by_cases hcase : a < (t.blk_id + 1) * B
        · have hd1 : a / B = c.blk_id := by
            refine Nat.div_eq_of_lt_le h1 ?_
            have : a < c.blk_id * B + B := by omega
            calc a < c.blk_id * B + B := this
              _ = (c.blk_id + 1) * B := by ring
          have hd2 : a / B = t.blk_id := by
            refine Nat.div_eq_of_lt_le (by omega) (by omega)
          have hcid : c.blk_id = t.blk_id := by omega
          have hct : c = t := nodup_id_inj hI.nodup c hc t htmem hcid
          subst hct
          omega
        · have hmul : (c.blk_id + 1) * B ≤ (t.blk_id + 1) * B := by
            refine Nat.mul_le_mul_right _ ?_
            omega
          have hcexp : (c.blk_id + 1) * B = c.blk_id * B + B := by ring
          omega
      · by_cases hcase : a < (t.blk_id + 1) * B
        · refine hcons3 a (hcover2 a (by omega) hcase)
        · refine hcover3 a ?_ ?_
          · rw [htail2, ← htid]
            omega
          · rw [htail2, ← htid]
            omega
    · rw [haddr_t, htail2, ← htid] at *
      omega
  · have heq : round_up t.blk_off align = B := by omega
    rw [hval, if_neg hlt, if_pos heq]
    obtain ⟨hI3, htl3, hcons3, hcover3, hbound3⟩ :=
      contig_blocks_spec B hB asize m hI
    have haddr : blk_id_to_addr B (m.tail_blk + 1) = (m.tail_blk + 1) * B :=
      rfl
    refine ⟨_, _, rfl, ?_, hI3, htl3, hcons3, ?_, ?_⟩
    · rw [haddr]
      exact (round_up_eq_self _ _ (halB.mul_left (m.tail_blk + 1))).symm
    · intro a ha1 ha2
      rw [haddr] at ha1 ha2
      constructor
      · rintro ⟨c, hc, h1, h2⟩
        have hcoff := blocks_off_le hI c hc
        have hcle := hI.le_tail c hc
        have hmul : (c.blk_id + 1) * B ≤ (m.tail_blk + 1) * B := by
          refine Nat.mul_le_mul_right _ ?_
          omega
        have hcexp : (c.blk_id + 1) * B = c.blk_id * B + B := by ring
        omega
      · exact hcover3 a ha1 ha2
    · rw [haddr]
      exact hbound3

theorem get_align_pos (B : Nat) (btype : BufferType) (hB : 0 < B) :
    0 < get_align B btype := by
  cases btype <;> simp [get_align] <;> omega

theorem get_align_dvd (B : Nat) (btype : BufferType) (h64 : 64 ∣ B) :
    get_align B btype ∣ B := by
  cases btype <;> simp [get_align]
  exact h64

/-- One `balloc` call: under the invariant it succeeds, the address is
aligned, the carved region was free and is now consumed, and it lies
inside the (possibly grown) image. -/
theorem balloc_spec (B : Nat) (m : BufferManager) (size : Nat)
    (btype : BufferType) (hB : 0 < B) (h64 : 64 ∣ B) (hI : BufInv B m) :
    ∃ addr m', balloc B m size btype = some (addr, m') ∧
      addr = round_up addr (get_align B btype) ∧
      BallocOk B (round_up size (get_align B btype)) m addr m' := by
  have hal0 := get_align_pos B btype hB
  have halB := get_align_dvd B btype h64
  have halle : get_align B btype ≤ B := Nat.le_of_dvd hB halB
  have hala : get_align B btype ∣ round_up size (get_align B btype) :=
    round_up_dvd _ _
  rw [balloc]
  rw [if_pos halle]
  by_cases hgt : round_up size (get_align B btype) > B
  · have hbf : bfind B m (round_up size (get_align B btype))
        (get_align B btype) = none := by
      rw [bfind, if_pos hgt]
    rw [hbf]
    obtain ⟨addr, m', heq, hal, hok⟩ := balloc_contig_spec B m _ _ hI hB
      hal0 halB hala (fun j hj1 hj2 => by omega)
    exact ⟨addr, m', heq, hal, hok⟩
  · have hbf : bfind B m (round_up size (get_align B btype))
        (get_align B btype) = bfind_loop B m
          (round_up size (get_align B btype)) (get_align B btype)
          (round_up size (get_align B btype)) := by
      rw [bfind, if_neg hgt]
    obtain ⟨hnone, hsome⟩ := bfind_loop_spec B m _ _ hI hB hal0 halB hala
      (round_up size (get_align B btype)) (le_refl _)
    cases hloop : bfind_loop B m (round_up size (get_align B btype))
        (get_align B btype) (round_up size (get_align B btype)) with
    | some r =>
      rw [hbf, hloop]
      obtain ⟨hal, hok⟩ := hsome r.1 r.2 (by rw [hloop])
      exact ⟨r.1, r.2, rfl, hal, hok⟩
    | none =>
      rw [hbf, hloop]
      obtain ⟨addr, m', heq, hal, hok⟩ := balloc_contig_spec B m _ _ hI hB
        hal0 halB hala (hnone hloop)
      exact ⟨addr, m', heq, hal, hok⟩

/-- Set-disjointness of two half-open byte regions. -/

theorem balloc_seq_spec (B : Nat) (hB : 0 < B) (h64 : 64 ∣ B) :
    ∀ (reqs : List (Nat × BufferType)) (m : BufferManager), BufInv B m →
    ∃ rs m', balloc_seq B m reqs = some (rs, m') ∧
      BufInv B m' ∧ m.tail_blk ≤ m'.tail_blk ∧
      (∀ a, consumed B m a → consumed B m' a) ∧
      rs.length = reqs.length ∧
      (∀ k, k < reqs.length →
        (rs.getD k (0, 0)).2 =
          round_up (reqs.getD k (0, BufferType.Meta)).1
            (get_align B (reqs.getD k (0, BufferType.Meta)).2) ∧
        (rs.getD k (0, 0)).1 =
          round_up (rs.getD k (0, 0)).1
            (get_align B (reqs.getD k (0, BufferType.Meta)).2)) ∧
      (∀ r ∈ rs, ∀ a, r.1 ≤ a → a < r.1 + r.2 →
        ¬ consumed B m a ∧ consumed B m' a) ∧
      (∀ r ∈ rs, r.1 + r.2 ≤ (m'.tail_blk + 1) * B) ∧
      List.Pairwise region_disjoint rs := by
  intro reqs
  induction reqs with
  | nil =>
    intro m hI
    refine ⟨[], m, rfl, hI, le_refl _, fun a h => h, rfl, ?_, ?_, ?_, ?_⟩
    · intro k hk
      simp at hk
    · intro r hr
      simp at hr
    · intro r hr
      simp at hr
    · exact List.Pairwise.nil
  | cons req rest ih =>
    intro m hI
    obtain ⟨size, bt⟩ := req
    obtain ⟨addr, m1, heq1, hal1, hI1, htl1, hcons1, hreg1, hend1⟩ :=
      balloc_spec B m size bt hB h64 hI
    obtain ⟨rs, m', heq2, hI', htl', hcons', hlen', hk', hreg', hend', hpw'⟩ :=
      ih m1 hI1
    have hval : balloc_seq B m ((size, bt) :: rest) =
        some ((addr, round_up size (get_align B bt)) :: rs, m') := by
      rw [balloc_seq]
      simp only [heq1, heq2]
    refine ⟨_, m', hval, hI', by omega, fun a ha => hcons' a (hcons1 a ha),
      by simp [hlen'], ?_, ?_, ?_, ?_⟩
    · intro k hk
      match k with
      | 0 => exact ⟨rfl, hal1⟩
      | k + 1 =>
        simp only [List.getD_cons_succ]
        exact hk' k (by simpa using hk)
    · intro r hr a ha1 ha2
      rcases List.mem_cons.mp hr with rfl | hr2
      · obtain ⟨hf, hc⟩ := hreg1 a ha1 ha2
        exact ⟨hf, hcons' a hc⟩
      · obtain ⟨hf, hc⟩ := hreg' r hr2 a ha1 ha2
        exact ⟨fun hcm => hf (hcons1 a hcm), hc⟩
    · intro r hr
      rcases List.mem_cons.mp hr with rfl | hr2
      · have hmul : (m1.tail_blk + 1) * B ≤ (m'.tail_blk + 1) * B := by
          refine Nat.mul_le_mul_right _ ?_
          omega
        show addr + round_up size (get_align B bt) ≤ (m'.tail_blk + 1) * B
        omega
      · exact hend' r hr2
    · refine List.Pairwise.cons ?_ hpw'
      intro r hr a ha1 ha2 ⟨hb1, hb2⟩
      have hc : consumed B m1 a := (hreg1 a ha1 ha2).2
      exact (hreg' r hr a hb1 hb2).1 hc

theorem replicate_getD_nil (B i : Nat) :
    (List.replicate (B + 1) ([] : List BufferBlock)).getD i [] = [] := by
  rw [List.getD_eq_getElem?_getD, List.getElem?_replicate]
  split <;> rfl

/-- The fresh manager satisfies the invariant. -/
theorem buffer_manager_new_inv (B : Nat) (hB : 0 < B) :
    BufInv B (buffer_manager_new B) := by
  set m0 : BufferManager :=
    { table := List.replicate (B + 1) [], tail_blk := 0 } with hm0
  have hlen0 : m0.table.length = B + 1 := List.length_replicate _ _
  have hidx : B - (⟨0, 0⟩ : BufferBlock).blk_off < m0.table.length := by
    rw [hlen0]
    show B - 0 < B + 1
    omega
  have hperm := push_block_blocks B m0 ⟨0, 0⟩ hidx
  have hb0 : blocks m0 = [] := by
    show (List.replicate (B + 1) ([] : List BufferBlock)).flatten = []
    rw [List.flatten_eq_nil_iff]
    intro l hl
    exact List.eq_of_mem_replicate hl
  rw [hb0] at hperm
  have hnew : buffer_manager_new B = push_block B m0 ⟨0, 0⟩ := rfl
  refine ⟨?_, ?_, ?_, ?_, ?_⟩
  · show (m0.table.set _ _).length = B + 1
    rw [List.length_set]
    exact hlen0
  · refine push_block_bucket B m0 ⟨0, 0⟩ (by show (0 : Nat) ≤ B; omega) ?_
    intro j x hx
    rw [show m0.table = List.replicate (B + 1) [] from rfl,
      replicate_getD_nil] at hx
    cases hx
  · rw [show ids (buffer_manager_new B) =
      (blocks (buffer_manager_new B)).map (fun x => x.blk_id) from rfl,
      hnew]
    rw [(hperm.map (fun x => x.blk_id)).nodup_iff]
    simp
  · intro x hx
    rw [hnew] at hx
    have := hperm.mem_iff.mp hx
    simp only [List.mem_singleton] at this
    subst this
    show (0 : Nat) ≤ (buffer_manager_new B).tail_blk
    omega
  · rw [hnew]
    exact ⟨⟨0, 0⟩, hperm.mem_iff.mpr (by simp), rfl⟩

/-- **C4.** Allocator soundness: starting from the fresh manager, any
finite sequence of `balloc` requests succeeds, and the returned regions
`[addr, addr + round_up(size, align))` are aligned
(`addr = round_up(addr, align)`), lie within the final image
(`(tail_blk + 1) · B` bytes), and are pairwise disjoint — including
regions carved from partially filled blocks found in the free table. -/
theorem C4_allocator_soundness (B : Nat) (reqs : List (Nat × BufferType))
    (hB : 0 < B) (h64 : 64 ∣ B) :
    ∃ rs m', balloc_seq B (buffer_manager_new B) reqs = some (rs, m') ∧
      rs.length = reqs.length ∧
      (∀ k, k < reqs.length →
        (rs.getD k (0, 0)).2 =
          round_up (reqs.getD k (0, BufferType.Meta)).1
            (get_align B (reqs.getD k (0, BufferType.Meta)).2) ∧
        (rs.getD k (0, 0)).1 =
          round_up (rs.getD k (0, 0)).1
            (get_align B (reqs.getD k (0, BufferType.Meta)).2)) ∧
      (∀ r ∈ rs, r.1 + r.2 ≤ (m'.tail_blk + 1) * B) ∧
      List.Pairwise region_disjoint rs := by
  obtain ⟨rs, m', heq, hI', htl', hcons', hlen', hk', hreg', hend', hpw'⟩ :=
    balloc_seq_spec B hB h64 reqs (buffer_manager_new B)
      (buffer_manager_new_inv B hB)
  exact ⟨rs, m', heq, hlen', hk', hend', hpw'⟩

/-- Witness for C4 at block size 4096 with a Meta, a Data and an Inode
request. -/
theorem C4_allocator_soundness_witness :
    (0 < 4096 ∧ (64 : Nat) ∣ 4096) ∧
    ∃ rs m', balloc_seq 4096 (buffer_manager_new 4096)
        [(128, BufferType.Meta), (4096, BufferType.Data),
         (1, BufferType.Inode)] = some (rs, m') ∧
      rs.length = ([(128, BufferType.Meta), (4096, BufferType.Data),
         (1, BufferType.Inode)] : List (Nat × BufferType)).length ∧
      (∀ k, k < ([(128, BufferType.Meta), (4096, BufferType.Data),
         (1, BufferType.Inode)] : List (Nat × BufferType)).length →
        (rs.getD k (0, 0)).2 =
          round_up (([(128, BufferType.Meta), (4096, BufferType.Data),
            (1, BufferType.Inode)] : List (Nat × BufferType)).getD k
              (0, BufferType.Meta)).1
            (get_align 4096 (([(128, BufferType.Meta),
              (4096, BufferType.Data), (1, BufferType.Inode)] :
              List (Nat × BufferType)).getD k (0, BufferType.Meta)).2) ∧
        (rs.getD k (0, 0)).1 =
          round_up (rs.getD k (0, 0)).1
            (get_align 4096 (([(128, BufferType.Meta),
              (4096, BufferType.Data), (1, BufferType.Inode)] :
              List (Nat × BufferType)).getD k (0, BufferType.Meta)).2)) ∧
      (∀ r ∈ rs, r.1 + r.2 ≤ (m'.tail_blk + 1) * 4096) ∧
      List.Pairwise region_disjoint rs :=
  ⟨⟨by decide, by decide⟩,
    C4_allocator_soundness 4096 _ (by decide) (by decide)⟩

/-! ### C3 — extent invariants -/

/-- Introduction rule for `FragPost` on a flattened result tuple. -/
theorem FragPost_intro {fl : List (Nat × Nat)} {fidx g c fo : Nat}
    {es : List ExtentEvent} {g2 : Nat} {fl2 : List (Nat × Nat)}
    {fidx2 : Nat} {ok2 : Bool}
    (hok : ok2 = true) (hg : g2 = g + (c - fo))
    (hd : ∃ d, d ≤ fl.length ∧ fl2 = fl.drop d ∧ fidx2 = fidx + d)
    (hge : fl2 = [] → g2 = lastEnd fl)
    (hhd : fl2 ≠ [] → (fl2.headD (0, 0)).1 ≤ g2 ∧
      (g2 = (fl2.headD (0, 0)).1 ∨
       g2 < (fl2.headD (0, 0)).1 + (fl2.headD (0, 0)).2))
    (hrange : ∀ e ∈ es, fidx ≤ e.fidx ∧ e.fidx ≤ fidx2)
    (hfirst : ∀ e ∈ es,
      (e.fidx = fidx → e.off = g - (fl.headD (0, 0)).1 ∧ e.frag_off = fo) ∧
      (e.fidx ≠ fidx → e.off = 0))
    (hpops : ∀ i, fidx ≤ i → i < fidx2 → ∃ e, FileView es i = [e] ∧
      e.off = g - (fl.getD (i - fidx) (0, 0)).1 ∧
      e.off + e.len = (fl.getD (i - fidx) (0, 0)).2)
    (hmid : fl2 ≠ [] →
      (FileView es fidx2 = [] ∧
        g2 - (fl2.headD (0, 0)).1 =
          (if fidx2 = fidx then g - (fl.headD (0, 0)).1 else 0)) ∨
      (∃ e, FileView es fidx2 = [e] ∧
        e.off = (if fidx2 = fidx then g - (fl.headD (0, 0)).1 else 0) ∧
        e.off + e.len = g2 - (fl2.headD (0, 0)).1 ∧
        e.off < g2 - (fl2.headD (0, 0)).1)) :
    FragPost fl fidx g c fo (es, g2, fl2, fidx2, ok2) :=
  ⟨hok, hg, hd, hge, hhd, hrange, hfirst, hpops, hmid⟩

/-- Starts are nondecreasing along a consecutive `(start, size)` list. -/
theorem starts_mono {l : List (Nat × Nat)}
    (h : List.Chain' (fun a b => b.1 = a.1 + a.2) l) :
    ∀ j, j < l.length → (l.headD (0, 0)).1 ≤ (l.getD j (0, 0)).1 := by
  induction l with
  | nil => intro j hj; simp at hj
  | cons a t ih =>
    intro j hj
    match j with
    | 0 => simp
    | j + 1 =>
      match t with
      | [] => simp at hj
      | b :: t2 =>
        have hab : b.1 = a.1 + a.2 := (List.chain'_cons.mp h).1
        have := ih (List.chain'_cons.mp h).2 j (by simpa using hj)
        simp only [List.getD_cons_succ, List.headD_cons]
        simp only [List.headD_cons] at this
        omega

theorem lastEnd_cons {a b : Nat × Nat} {t : List (Nat × Nat)} :
    lastEnd (a :: b :: t) = lastEnd (b :: t) := rfl

/-- Any entry's end is at most the last end, on a consecutive list. -/
theorem end_le_lastEnd {l : List (Nat × Nat)}
    (h : List.Chain' (fun a b => b.1 = a.1 + a.2) l) :
    ∀ j, j < l.length →
      (l.getD j (0, 0)).1 + (l.getD j (0, 0)).2 ≤ lastEnd l := by
  induction l with
  | nil => intro j hj; simp at hj
  | cons a t ih =>
    intro j hj
    match t with
    | [] =>
      match j with
      | 0 => simp [lastEnd]
      | j + 1 => simp at hj
    | b :: t2 =>
      have hab : b.1 = a.1 + a.2 := (List.chain'_cons.mp h).1
      have hch2 := (List.chain'_cons.mp h).2
      match j with
      | 0 =>
        have h0 := starts_mono hch2 0 (by simp)
        have hle := ih hch2 0 (by simp)
        rw [lastEnd_cons]
        simp only [List.getD_cons_zero] at *
        omega
      | j + 1 =>
        have := ih hch2 j (by simpa using hj)
        rw [lastEnd_cons]
        simpa using this


theorem FileView_nil {i : Nat} : FileView [] i = [] := rfl

theorem FileView_eq_nil {es : List ExtentEvent} {i : Nat}
    (h : ∀ e ∈ es, e.fidx ≠ i) : FileView es i = [] := by
  rw [FileView, List.filter_eq_nil_iff]
  intro e he
  simpa using h e he

theorem FileView_cons_self {e : ExtentEvent} {es : List ExtentEvent}
    {i : Nat} (h : e.fidx = i) : FileView (e :: es) i = e :: FileView es i := by
  simp [FileView, List.filter_cons, h]

theorem FileView_cons_other {e : ExtentEvent} {es : List ExtentEvent}
    {i : Nat} (h : e.fidx ≠ i) : FileView (e :: es) i = FileView es i := by
  simp [FileView, List.filter_cons, h]

theorem frag_loop_stop {fs sz : Nat} {rest : List (Nat × Nat)}
    {fidx g c fo : Nat} (hfo : ¬ fo < c) :
    frag_loop ((fs, sz) :: rest) fidx g c fo =
      ([], g, (fs, sz) :: rest, fidx, true) := by
  rw [frag_loop]
  rw [dif_neg hfo]

theorem frag_loop_continue {fs sz : Nat} {rest : List (Nat × Nat)}
    {fidx g c fo : Nat} (hfo : fo < c)
    (hp : push_extent sz (g - fs) (min (c - fo) (fs + sz - g)) =
      .continueFile) :
    frag_loop ((fs, sz) :: rest) fidx g c fo =
      (⟨fidx, g - fs, fo, min (c - fo) (fs + sz - g)⟩ ::
        (frag_loop ((fs, sz) :: rest) fidx (g + min (c - fo) (fs + sz - g)) c
          (fo + min (c - fo) (fs + sz - g))).1,
       (frag_loop ((fs, sz) :: rest) fidx (g + min (c - fo) (fs + sz - g)) c
          (fo + min (c - fo) (fs + sz - g))).2) := by
  rw [frag_loop]
  dsimp only
  rw [dif_pos hfo, dif_pos hp]

theorem frag_loop_done_nil {fs sz : Nat} {fidx g c fo : Nat} (hfo : fo < c)
    (hp : push_extent sz (g - fs) (min (c - fo) (fs + sz - g)) = .fileDone) :
    frag_loop [(fs, sz)] fidx g c fo =
      ([⟨fidx, g - fs, fo, min (c - fo) (fs + sz - g)⟩],
       g + min (c - fo) (fs + sz - g), [], fidx + 1, true) := by
  rw [frag_loop]
  dsimp only
  rw [dif_pos hfo, dif_neg (by simp [hp]), dif_pos hp]

theorem frag_loop_done_cons {fs sz f21 f22 : Nat} {rest2 : List (Nat × Nat)}
    {fidx g c fo : Nat} (hfo : fo < c)
    (hp : push_extent sz (g - fs) (min (c - fo) (fs + sz - g)) = .fileDone) :
    frag_loop ((fs, sz) :: (f21, f22) :: rest2) fidx g c fo =
      (⟨fidx, g - fs, fo, min (c - fo) (fs + sz - g)⟩ ::
        (frag_loop ((f21, f22) :: rest2) (fidx + 1)
          (g + min (c - fo) (fs + sz - g)) c
          (fo + min (c - fo) (fs + sz - g))).1,
       (frag_loop ((f21, f22) :: rest2) (fidx + 1)
          (g + min (c - fo) (fs + sz - g)) c
          (fo + min (c - fo) (fs + sz - g))).2) := by
  rw [frag_loop]
  dsimp only
  rw [dif_pos hfo, dif_neg (by simp [hp]), dif_pos hp]

/-- Fragment-loop characterisation. -/
theorem frag_loop_spec : ∀ (fl : List (Nat × Nat)) (fidx g c fo : Nat),
    fl ≠ [] →
    List.Chain' (fun a b => b.1 = a.1 + a.2) fl →
    ((fl.headD (0, 0)).1 ≤ g ∧
      (g = (fl.headD (0, 0)).1 ∨ g < (fl.headD (0, 0)).1 + (fl.headD (0, 0)).2)) →
    fo ≤ c →
    g + (c - fo) ≤ lastEnd fl →
    FragPost fl fidx g c fo (frag_loop fl fidx g c fo) := by
  intro fl fidx g c fo
  induction fl, fidx, g, c, fo using frag_loop.induct with
  | case1 fidx g c fo =>
    intro hne
    exact absurd rfl hne
  | case2 fs sz rest fidx g c fo hfo len hp ih =>
    intro hne hchain hhead hfoc hA5
    simp only [List.headD_cons] at hhead
    have hlen : len = min (c - fo) (fs + sz - g) := rfl
    have hcont := push_extent_continue hp
    have hlenc : len = c - fo := by omega
    have hstop : frag_loop ((fs, sz) :: rest) fidx (g + len) c (fo + len) =
        ([], g + len, (fs, sz) :: rest, fidx, true) :=
      frag_loop_stop (by omega)
    have hval : frag_loop ((fs, sz) :: rest) fidx g c fo =
        ([⟨fidx, g - fs, fo, len⟩], g + len, (fs, sz) :: rest, fidx,
          true) := by
      rw [show frag_loop ((fs, sz) :: rest) fidx g c fo =
        (⟨fidx, g - fs, fo, min (c - fo) (fs + sz - g)⟩ ::
          (frag_loop ((fs, sz) :: rest) fidx
            (g + min (c - fo) (fs + sz - g)) c
            (fo + min (c - fo) (fs + sz - g))).1,
         (frag_loop ((fs, sz) :: rest) fidx
            (g + min (c - fo) (fs + sz - g)) c
            (fo + min (c - fo) (fs + sz - g))).2)
        from frag_loop_continue hfo (hlen ▸ hp)]
      rw [← hlen, hstop]
    rw [hval]
    refine FragPost_intro rfl (by omega) ⟨0, by omega, by simp, by omega⟩
      ?_ ?_ ?_ ?_ ?_ ?_
    · intro h
      simp at h
    · intro h
      simp only [List.headD_cons]
      omega
    · intro e he
      simp only [List.mem_singleton] at he
      subst he
      exact ⟨le_refl _, le_refl _⟩
    · intro e he
      simp only [List.mem_singleton] at he
      subst he
      exact ⟨fun _ => ⟨rfl, rfl⟩, fun h => absurd rfl h⟩
    · intro i h1 h2
      omega
    · intro h
      right
      refine ⟨⟨fidx, g - fs, fo, len⟩, ?_, ?_, ?_, ?_⟩
      · rw [FileView_cons_self rfl, FileView_nil]
      · simp
      · simp only [List.headD_cons]
        omega
      · simp only [List.headD_cons]
        omega
  | case3 fs sz fidx g c fo hfo len hnp hp =>
    intro hne hchain hhead hfoc hA5
    simp only [List.headD_cons] at hhead
    have hlen : len = min (c - fo) (fs + sz - g) := rfl
    have hdone := push_extent_done hp
    have hA5' : g + (c - fo) ≤ fs + sz := by
      simpa [lastEnd] using hA5
    have hlenc : len = c - fo := by omega
    have hval : frag_loop [(fs, sz)] fidx g c fo =
        ([⟨fidx, g - fs, fo, len⟩], g + len, [], fidx + 1, true) := by
      rw [show frag_loop [(fs, sz)] fidx g c fo =
        ([⟨fidx, g - fs, fo, min (c - fo) (fs + sz - g)⟩],
         g + min (c - fo) (fs + sz - g), [], fidx + 1, true)
        from frag_loop_done_nil hfo (hlen ▸ hp)]
    rw [hval]
    refine FragPost_intro rfl (by omega) ⟨1, by simp, by simp, by omega⟩
      ?_ ?_ ?_ ?_ ?_ ?_
    · intro h
      show g + len = lastEnd [(fs, sz)]
      simp only [lastEnd]
      omega
    · intro h
      exact absurd rfl h
    · intro e he
      simp only [List.mem_singleton] at he
      subst he
      exact ⟨le_refl _, by show fidx ≤ fidx + 1; omega⟩
    · intro e he
      simp only [List.mem_singleton] at he
      subst he
      exact ⟨fun _ => ⟨rfl, rfl⟩, fun h => absurd rfl h⟩
    · intro i h1 h2
      have hi : i = fidx := by omega
      rw [hi]
      refine ⟨⟨fidx, g - fs, fo, len⟩, ?_, ?_, ?_⟩
      · rw [FileView_cons_self rfl, FileView_nil]
      · simp
      · simp only [Nat.sub_self, List.getD_cons_zero]
        show g - fs + len = sz
        omega
    · intro h
      exact absurd rfl h
  | case4 fs sz fidx g c fo hfo len hnp hp f2 rest2 ih =>
    intro hne hchain hhead hfoc hA5
    obtain ⟨f21, f22⟩ := f2
    simp only [List.headD_cons] at hhead
    have hlen : len = min (c - fo) (fs + sz - g) := rfl
    clear_value len
    have hdone := push_extent_done hp
    have hf2 : f21 = fs + sz := by
      have := (List.chain'_cons.mp hchain).1
      simpa using this
    have hchain2 : List.Chain' (fun a b => b.1 = a.1 + a.2)
        ((f21, f22) :: rest2) := (List.chain'_cons.mp hchain).2
    have hlenf : len = fs + sz - g := by omega
    have hgl : g + len = fs + sz := by omega
    have hlen1 : len ≤ c - fo := by omega
    have hle : lastEnd ((fs, sz) :: (f21, f22) :: rest2) =
        lastEnd ((f21, f22) :: rest2) := lastEnd_cons
    have R := ih (by simp) hchain2
      (by
        simp only [List.headD_cons]
        omega)
      (by omega)
      (by omega)
    obtain ⟨d, hd1, hd2, hd3⟩ := R.dropped
    have hval : frag_loop ((fs, sz) :: (f21, f22) :: rest2) fidx g c fo =
        (⟨fidx, g - fs, fo, len⟩ ::
          (frag_loop ((f21, f22) :: rest2) (fidx + 1) (g + len) c
            (fo + len)).1,
         (frag_loop ((f21, f22) :: rest2) (fidx + 1) (g + len) c
            (fo + len)).2.1,
         (frag_loop ((f21, f22) :: rest2) (fidx + 1) (g + len) c
            (fo + len)).2.2.1,
         (frag_loop ((f21, f22) :: rest2) (fidx + 1) (g + len) c
            (fo + len)).2.2.2.1,
         (frag_loop ((f21, f22) :: rest2) (fidx + 1) (g + len) c
            (fo + len)).2.2.2.2) := by
      have h0 := @frag_loop_done_cons fs sz f21 f22 rest2 fidx g c fo hfo
        (hlen ▸ hp)
      rw [← hlen] at h0
      rw [h0]
    rw [hval]
    refine FragPost_intro R.ok (by have := R.gout; omega) ?_ ?_ R.headInv
      ?_ ?_ ?_ ?_
    · refine ⟨d + 1, ?_, ?_, by omega⟩
      · simp only [List.length_cons] at hd1 ⊢
        omega
      · rw [List.drop_succ_cons]
        exact hd2
    · intro h
      rw [hle.symm] at *
      exact (hle ▸ R.gend h)
    · intro e he
      rcases List.mem_cons.mp he with rfl | he2
      · exact ⟨le_refl _, by show fidx ≤ _; omega⟩
      · obtain ⟨h1, h2⟩ := R.range e he2
        exact ⟨by omega, h2⟩
    · intro e he
      rcases List.mem_cons.mp he with rfl | he2
      · exact ⟨fun _ => ⟨by simp, rfl⟩, fun hne3 => absurd rfl hne3⟩
      · obtain ⟨h1, h2⟩ := R.range e he2
        refine ⟨fun hfe => absurd hfe (by omega), fun _ => ?_⟩
        by_cases hef : e.fidx = fidx + 1
        · have h3 := ((R.firstev e he2).1 hef).1
          simp only [List.headD_cons] at h3
          omega
        · exact (R.firstev e he2).2 hef
    · intro i h1 h2
      by_cases hi : i = fidx
      · rw [hi]
        refine ⟨⟨fidx, g - fs, fo, len⟩, ?_, ?_, ?_⟩
        · rw [FileView_cons_self rfl]
          have hnil : FileView (frag_loop ((f21, f22) :: rest2) (fidx + 1)
              (g + len) c (fo + len)).1 fidx = [] :=
            FileView_eq_nil (fun e he => by
              obtain ⟨ha, _⟩ := R.range e he
              omega)
          rw [hnil]
        · simp
        · simp only [Nat.sub_self, List.getD_cons_zero]
          show g - fs + len = sz
          omega
      · obtain ⟨e, hv, ho, hol⟩ := R.pops i (by omega) h2
        have hidx : i - fidx = (i - (fidx + 1)) + 1 := by omega
        have hsm := starts_mono hchain2 (i - (fidx + 1)) (by
          simp only [List.length_cons] at hd1 ⊢
          omega)
        simp only [List.headD_cons] at hsm
        refine ⟨e, ?_, ?_, ?_⟩
        · rw [FileView_cons_other (show
            (⟨fidx, g - fs, fo, len⟩ : ExtentEvent).fidx ≠ i by
              show fidx ≠ i
              omega)]
          exact hv
        · rw [hidx, List.getD_cons_succ]
          omega
        · rw [hidx, List.getD_cons_succ]
          exact hol
    · intro hne2
      have hfne : (⟨fidx, g - fs, fo, len⟩ : ExtentEvent).fidx ≠
          (frag_loop ((f21, f22) :: rest2) (fidx + 1) (g + len) c
            (fo + len)).2.2.2.1 := by
        show fidx ≠ _
        omega
      rcases R.midway hne2 with ⟨hv, heq⟩ | ⟨e, hv, ho, hol, holt⟩
      · left
        have h0 : (if (frag_loop ((f21, f22) :: rest2) (fidx + 1) (g + len) c
            (fo + len)).2.2.2.1 = fidx + 1
            then g + len - (((f21, f22) :: rest2).headD (0, 0)).1 else 0)
            = 0 := by
          split
          · simp only [List.headD_cons]
            omega
          · rfl
        rw [h0] at heq
        refine ⟨?_, ?_⟩
        · rw [FileView_cons_other hfne]
          exact hv
        · rw [if_neg (by omega)]
          exact heq
      · right
        have h0 : (if (frag_loop ((f21, f22) :: rest2) (fidx + 1) (g + len) c
            (fo + len)).2.2.2.1 = fidx + 1
            then g + len - (((f21, f22) :: rest2).headD (0, 0)).1 else 0)
            = 0 := by
          split
          · simp only [List.headD_cons]
            omega
          · rfl
        rw [h0] at ho
        refine ⟨e, ?_, ?_, hol, holt⟩
        · rw [FileView_cons_other hfne]
          exact hv
        · rw [if_neg (by omega)]
          exact ho
  | case5 fs sz rest fidx g c fo hfo len hnp hnp2 =>
    intro hne hchain hhead hfoc hA5
    simp only [List.headD_cons] at hhead
    have hlen : len = min (c - fo) (fs + sz - g) := rfl
    have hpan : push_extent sz (g - fs) len = .panic := by
      cases h : push_extent sz (g - fs) len
      · exact absurd h hnp
      · exact absurd h hnp2
      · rfl
    exact absurd hpan (push_extent_not_panic (by omega))
  | case6 fs sz rest fidx g c fo hfo =>
    intro hne hchain hhead hfoc hA5
    rw [frag_loop_stop hfo]
    refine FragPost_intro rfl (by omega) ⟨0, by omega, by simp, by omega⟩
      ?_ ?_ ?_ ?_ ?_ ?_
    · intro h
      simp at h
    · intro h
      exact hhead
    · intro e he
      simp at he
    · intro e he
      simp at he
    · intro i h1 h2
      omega
    · intro h
      left
      exact ⟨rfl, by rw [if_pos rfl]⟩

theorem FileView_append (a b : List ExtentEvent) (i : Nat) :
    FileView (a ++ b) i = FileView a i ++ FileView b i :=
  List.filter_append _ _

theorem files_from_length (sizes : List Nat) (acc : Nat) :
    (files_from sizes acc).length = sizes.length := by
  induction sizes generalizing acc with
  | nil => rfl
  | cons a t ih => simp [files_from, ih]

theorem files_from_getD (sizes : List Nat) :
    ∀ (acc i : Nat), i < sizes.length →
    (files_from sizes acc).getD i (0, 0) =
      (acc + (sizes.take i).sum, sizes.getD i 0) := by
  induction sizes with
  | nil =>
    intro acc i hi
    simp at hi
  | cons a t ih =>
    intro acc i hi
    match i with
    | 0 => simp [files_from]
    | i + 1 =>
      rw [files_from, List.getD_cons_succ, ih (acc + a) i (by simpa using hi)]
      simp [List.take_cons]
      omega

theorem files_from_chain (sizes : List Nat) :
    ∀ (acc : Nat),
    List.Chain' (fun a b => b.1 = a.1 + a.2) (files_from sizes acc) := by
  induction sizes with
  | nil => intro acc; simp [files_from]
  | cons a t ih =>
    intro acc
    rw [files_from, List.chain'_cons']
    refine ⟨?_, ih (acc + a)⟩
    intro y hy
    match t, hy with
    | b :: t2, hy =>
      rw [files_from] at hy
      simp only [List.head?_cons, Option.mem_def, Option.some.injEq] at hy
      subst hy
      simp

theorem files_from_lastEnd (sizes : List Nat) :
    ∀ (acc : Nat), sizes ≠ [] →
    lastEnd (files_from sizes acc) = acc + sizes.sum := by
  induction sizes with
  | nil => intro acc h; exact absurd rfl h
  | cons a t ih =>
    intro acc h
    match t with
    | [] => simp [files_from, lastEnd]
    | b :: t2 =>
      rw [files_from, files_from, lastEnd_cons, ← files_from]
      rw [ih (acc + a) (by simp)]
      simp
      omega

theorem chain'_drop {α : Type} {R : α → α → Prop} :
    ∀ (n : Nat) (l : List α), List.Chain' R l → List.Chain' R (l.drop n)
  | 0, l, h => h
  | n + 1, [], h => by simp
  | n + 1, a :: t, h => chain'_drop n t h.tail

theorem headD_drop {α : Type} (d : α) :
    ∀ (n : Nat) (l : List α), (l.drop n).headD d = l.getD n d
  | 0, [] => rfl
  | 0, a :: t => rfl
  | n + 1, [] => rfl
  | n + 1, a :: t => headD_drop d n t

theorem getD_drop {α : Type} (l : List α) (n m : Nat) (d : α) :
    (l.drop n).getD m d = l.getD (n + m) d := by
  rw [List.getD_eq_getElem?_getD, List.getD_eq_getElem?_getD,
    List.getElem?_drop]

theorem lastEnd_drop : ∀ (n : Nat) (l : List (Nat × Nat)),
    l.drop n ≠ [] → lastEnd (l.drop n) = lastEnd l := by
  intro n
  induction n with
  | zero => intro l h; rfl
  | succ n ih =>
    intro l h
    match l with
    | [] => exact absurd rfl h
    | a :: t =>
      rw [List.drop_succ_cons] at h ⊢
      rw [ih t h]
      match t, h with
      | b :: t2, _ => rfl
      | [], h => exact absurd (by simp) h

theorem take_sum_le (l : List Nat) (i : Nat) : (l.take i).sum ≤ l.sum := by
  have := List.sum_take_add_sum_drop l i
  omega

theorem sum_take_mono (l : List Nat) {a b : Nat} (h : a ≤ b) :
    (l.take a).sum ≤ (l.take b).sum := by
  have h1 : (l.take b).take a = l.take a := by
    rw [List.take_take]
    congr 1
    omega
  have h2 := List.sum_take_add_sum_drop (l.take b) a
  rw [h1] at h2
  omega

theorem sum_take_getD (l : List Nat) (i : Nat) (h : i < l.length) :
    (l.take (i + 1)).sum = (l.take i).sum + l.getD i 0 := by
  rw [List.sum_take_succ l i h]
  congr 1
  rw [List.getD_eq_getElem?_getD, List.getElem?_eq_getElem h]
  rfl

theorem tail_sizes_zero (sizes : List Nat) (fidx : Nat)
    (hlt : fidx < sizes.length)
    (hh : sizes.sum = (sizes.take fidx).sum ∨
      sizes.sum < (sizes.take fidx).sum + sizes.getD fidx 0) :
    ∀ i, fidx ≤ i → i < sizes.length →
      sizes.getD i 0 = 0 ∧ (sizes.take i).sum = sizes.sum := by
  have h1 := take_sum_le sizes (fidx + 1)
  have h2 := sum_take_getD sizes fidx hlt
  have hfx : (sizes.take fidx).sum = sizes.sum := by
    have h3 := take_sum_le sizes fidx
    omega
  intro i hi1 hi2
  have h3 := sum_take_mono sizes hi1
  have h4 := take_sum_le sizes i
  have h5 := sum_take_getD sizes i hi2
  have h6 := take_sum_le sizes (i + 1)
  constructor
  · omega
  · omega

theorem DumpPost_intro {sizes : List Nat} {fidx g : Nat}
    {es : List ExtentEvent} {g2 : Nat} {fl2 : List (Nat × Nat)}
    {fidx2 : Nat} {ok2 : Bool}
    (hok : ok2 = true)
    (hrange : ∀ e ∈ es, fidx ≤ e.fidx)
    (hbinv : ∀ e ∈ es, e.off = 0 ∨ e.frag_off = 0)
    (hperi : ∀ i, fidx ≤ i → i < sizes.length →
      List.Chain' (fun a b => a.off < b.off) (FileView es i) ∧
      (∀ e, (FileView es i).head? = some e →
        e.off = g - (sizes.take i).sum) ∧
      ((∃ e, (FileView es i).getLast? = some e ∧
          e.off + e.len = sizes.getD i 0) ∨
       (FileView es i = [] ∧ g - (sizes.take i).sum = sizes.getD i 0))) :
    DumpPost sizes fidx g (es, g2, fl2, fidx2, ok2) :=
  ⟨hok, hrange, hbinv, hperi⟩

/-- The trailing state: the loop has consumed the whole stream, every
file at or past the cursor has size 0. -/
theorem dump_stop_post (sizes : List Nat) (fidx g : Nat)
    (hg : g = sizes.sum)
    (h4 : (files_from sizes 0).drop fidx ≠ [] →
      ((((files_from sizes 0).drop fidx).headD (0, 0)).1 ≤ g ∧
       (g = (((files_from sizes 0).drop fidx).headD (0, 0)).1 ∨
        g < (((files_from sizes 0).drop fidx).headD (0, 0)).1 +
          (((files_from sizes 0).drop fidx).headD (0, 0)).2))) :
    DumpPost sizes fidx g ([], g, (files_from sizes 0).drop fidx, fidx,
      true) := by
  refine DumpPost_intro rfl ?_ ?_ ?_
  · intro e he
    simp at he
  · intro e he
    simp at he
  · intro i hi1 hi2
    have hlt : fidx < sizes.length := lt_of_le_of_lt hi1 hi2
    have hne : (files_from sizes 0).drop fidx ≠ [] := by
      rw [ne_eq, List.drop_eq_nil_iff, files_from_length]
      omega
    have hhd := h4 hne
    rw [headD_drop, files_from_getD sizes 0 fidx (by omega)] at hhd
    simp only [Nat.zero_add] at hhd
    have htz := tail_sizes_zero sizes fidx hlt (by omega) i hi1 hi2
    refine ⟨by simp [FileView], ?_, ?_⟩
    · intro e he
      simp [FileView] at he
    · right
      exact ⟨rfl, by omega⟩

theorem getLast?_cons_of_getLast? {α : Type} {l : List α} {e a : α}
    (h : l.getLast? = some a) : (e :: l).getLast? = some a := by
  match l, h with
  | b :: t, h =>
    rw [List.getLast?_cons_cons]
    exact h

/-- Outer-loop characterisation of the extent pipeline. -/
theorem mkfs_dump_loop_spec (sizes : List Nat) :
    ∀ (cs : List Nat) (fidx g : Nat),
    (∀ c ∈ cs, 1 ≤ c) →
    g + cs.sum = sizes.sum →
    ((files_from sizes 0).drop fidx = [] → g = sizes.sum) →
    ((files_from sizes 0).drop fidx ≠ [] →
      ((((files_from sizes 0).drop fidx).headD (0, 0)).1 ≤ g ∧
       (g = (((files_from sizes 0).drop fidx).headD (0, 0)).1 ∨
        g < (((files_from sizes 0).drop fidx).headD (0, 0)).1 +
          (((files_from sizes 0).drop fidx).headD (0, 0)).2))) →
    DumpPost sizes fidx g
      (mkfs_dump_loop cs ((files_from sizes 0).drop fidx) fidx g
        sizes.sum) := by
  intro cs
  induction cs with
  | nil =>
    intro fidx g h1 h2 h3 h4
    have hg : g = sizes.sum := by
      simp only [List.sum_nil] at h2
      omega
    rw [mkfs_dump_loop]
    exact dump_stop_post sizes fidx g hg h4
  | cons c cs ih =>
    intro fidx g h1 h2 h3 h4
    by_cases hg : g < sizes.sum
    · have hne : (files_from sizes 0).drop fidx ≠ [] := by
        intro hF
        have := h3 hF
        omega
      have hSlen : fidx < sizes.length := by
        rw [ne_eq, List.drop_eq_nil_iff, files_from_length] at hne
        omega
      have hsz : sizes ≠ [] := by
        intro h
        rw [h] at hSlen
        simp at hSlen
      have hlastF : lastEnd ((files_from sizes 0).drop fidx) = sizes.sum := by
        rw [lastEnd_drop fidx _ hne, files_from_lastEnd sizes 0 hsz]
        omega
      have P := frag_loop_spec ((files_from sizes 0).drop fidx) fidx g c 0
        hne
        (chain'_drop fidx _ (files_from_chain sizes 0))
        (h4 hne)
        (Nat.zero_le c)
        (by
          rw [hlastF]
          simp only [List.sum_cons] at h2
          omega)
      obtain ⟨d, hd1, hd2, hd3⟩ := P.dropped
      have hgout : (frag_loop ((files_from sizes 0).drop fidx) fidx g c
          0).2.1 = g + c := by
        have := P.gout
        omega
      have hdd : ((files_from sizes 0).drop fidx).drop d =
          (files_from sizes 0).drop (fidx + d) := by
        rw [List.drop_drop]
      have hval : mkfs_dump_loop (c :: cs) ((files_from sizes 0).drop fidx)
          fidx g sizes.sum =
          ((frag_loop ((files_from sizes 0).drop fidx) fidx g c 0).1 ++
            (mkfs_dump_loop cs
              (frag_loop ((files_from sizes 0).drop fidx) fidx g c 0).2.2.1
              (frag_loop ((files_from sizes 0).drop fidx) fidx g c
                0).2.2.2.1
              (frag_loop ((files_from sizes 0).drop fidx) fidx g c 0).2.1
              sizes.sum).1,
           (mkfs_dump_loop cs
              (frag_loop ((files_from sizes 0).drop fidx) fidx g c 0).2.2.1
              (frag_loop ((files_from sizes 0).drop fidx) fidx g c
                0).2.2.2.1
              (frag_loop ((files_from sizes 0).drop fidx) fidx g c 0).2.1
              sizes.sum).2.1,
           (mkfs_dump_loop cs
              (frag_loop ((files_from sizes 0).drop fidx) fidx g c 0).2.2.1
              (frag_loop ((files_from sizes 0).drop fidx) fidx g c
                0).2.2.2.1
              (frag_loop ((files_from sizes 0).drop fidx) fidx g c 0).2.1
              sizes.sum).2.2.1,
           (mkfs_dump_loop cs
              (frag_loop ((files_from sizes 0).drop fidx) fidx g c 0).2.2.1
              (frag_loop ((files_from sizes 0).drop fidx) fidx g c
                0).2.2.2.1
              (frag_loop ((files_from sizes 0).drop fidx) fidx g c 0).2.1
              sizes.sum).2.2.2.1,
           (frag_loop ((files_from sizes 0).drop fidx) fidx g c 0).2.2.2.2
             &&
           (mkfs_dump_loop cs
              (frag_loop ((files_from sizes 0).drop fidx) fidx g c 0).2.2.1
              (frag_loop ((files_from sizes 0).drop fidx) fidx g c
                0).2.2.2.1
              (frag_loop ((files_from sizes 0).drop fidx) fidx g c 0).2.1
              sizes.sum).2.2.2.2) := by
        rw [mkfs_dump_loop]
        dsimp only
        rw [if_pos hg]
      have hr2 : mkfs_dump_loop cs
          (frag_loop ((files_from sizes 0).drop fidx) fidx g c 0).2.2.1
          (frag_loop ((files_from sizes 0).drop fidx) fidx g c 0).2.2.2.1
          (frag_loop ((files_from sizes 0).drop fidx) fidx g c 0).2.1
          sizes.sum =
          mkfs_dump_loop cs ((files_from sizes 0).drop (fidx + d))
            (fidx + d) (g + c) sizes.sum := by
        rw [hd2, hd3, hgout, hdd]
      rw [hval, hr2]
      have R2 := ih (fidx + d) (g + c)
        (fun x hx => h1 x (List.mem_cons_of_mem c hx))
        (by
          simp only [List.sum_cons] at h2
          omega)
        (by
          intro hF
          rw [← hdd, ← hd2] at hF
          have := P.gend hF
          rw [hlastF] at this
          omega)
        (by
          intro hF
          rw [← hdd, ← hd2] at hF
          have := P.headInv hF
          rw [hd2, hdd, hgout] at this
          exact this)
      have hhdF : ((files_from sizes 0).drop fidx).headD (0, 0)
          = ((sizes.take fidx).sum, sizes.getD fidx 0) := by
        rw [headD_drop, files_from_getD sizes 0 fidx hSlen]
        simp
      have hhdF1 : (((files_from sizes 0).drop fidx).headD (0, 0)).1
          = (sizes.take fidx).sum := by
        rw [hhdF]
      have hhdF2 : (((files_from sizes 0).drop fidx).headD (0, 0)).2
          = sizes.getD fidx 0 := by
        rw [hhdF]
      have hh4 := h4 hne
      rw [hhdF1, hhdF2] at hh4
      have hg_take : ∀ j, fidx + 1 ≤ j → g ≤ (sizes.take j).sum := by
        intro j hj
        have ha := sum_take_getD sizes fidx hSlen
        have hb := sum_take_mono sizes hj
        omega
      refine DumpPost_intro ?_ ?_ ?_ ?_
      · rw [P.ok, R2.ok]
        rfl
      · intro e he
        rcases List.mem_append.mp he with he1 | he2
        · exact (P.range e he1).1
        · have := R2.range e he2
          omega
      · intro e he
        rcases List.mem_append.mp he with he1 | he2
        · by_cases hef : e.fidx = fidx
          · right
            exact ((P.firstev e he1).1 hef).2
          · left
            exact (P.firstev e he1).2 hef
        · exact R2.binv e he2
      · intro i hi1 hi2
        rw [FileView_append]
        by_cases hilt : i < fidx + d
        · obtain ⟨e, hv, ho, hol⟩ := P.pops i hi1 (by rw [hd3]; omega)
          have hst : ((files_from sizes 0).drop fidx).getD (i - fidx)
              (0, 0) = ((sizes.take i).sum, sizes.getD i 0) := by
            rw [getD_drop]
            rw [show fidx + (i - fidx) = i from by omega]
            rw [files_from_getD sizes 0 i hi2]
            simp
          rw [hst] at ho hol
          have hnil2 : FileView (mkfs_dump_loop cs
              ((files_from sizes 0).drop (fidx + d)) (fidx + d) (g + c)
              sizes.sum).1 i = [] :=
            FileView_eq_nil (fun e2 he2 => by
              have := R2.range e2 he2
              omega)
          rw [hv, hnil2]
          refine ⟨by simp, ?_, ?_⟩
          · intro e' he'
            simp only [List.singleton_append, List.head?_cons,
              Option.some.injEq] at he'
            subst he'
            exact ho
          · left
            exact ⟨e, by simp, hol⟩
        · have hdlen : fidx + d < sizes.length := by omega
          have hfl : (frag_loop ((files_from sizes 0).drop fidx) fidx g c
              0).2.2.1 ≠ [] := by
            rw [hd2, hdd, ne_eq, List.drop_eq_nil_iff, files_from_length]
            omega
          have hhdd : ((files_from sizes 0).drop (fidx + d)).headD (0, 0)
              = ((sizes.take (fidx + d)).sum, sizes.getD (fidx + d) 0) := by
            rw [headD_drop, files_from_getD sizes 0 (fidx + d) hdlen]
            simp
          have hhdd1 : (((files_from sizes 0).drop (fidx + d)).headD
              (0, 0)).1 = (sizes.take (fidx + d)).sum := by
            rw [hhdd]
          have hhdd2 : (((files_from sizes 0).drop (fidx + d)).headD
              (0, 0)).2 = sizes.getD (fidx + d) 0 := by
            rw [hhdd]
          have hPhi := P.headInv hfl
          rw [hd2, hdd, hgout, hhdd1, hhdd2] at hPhi
          have hgc_take : ∀ j, fidx + d + 1 ≤ j →
              g + c ≤ (sizes.take j).sum := by
            intro j hj
            have ha := sum_take_getD sizes (fidx + d) hdlen
            have hb := sum_take_mono sizes hj
            omega
          have hmid := P.midway hfl
          rw [hd2, hdd, hd3, hgout, hhdd1, hhdF1] at hmid
          by_cases hieq : i = fidx + d
          · subst hieq
            obtain ⟨hch2, hhd2, hcomp2⟩ := R2.peri (fidx + d) (by omega) hi2
            rcases hmid with ⟨hv1, heq⟩ | ⟨e, hv1, ho1, hol1, holt1⟩
            · have hoff : g + c - (sizes.take (fidx + d)).sum =
                  g - (sizes.take (fidx + d)).sum := by
                by_cases hd0 : fidx + d = fidx
                · rw [if_pos hd0] at heq
                  rw [hd0] at heq ⊢
                  omega
                · rw [if_neg hd0] at heq
                  have := hg_take (fidx + d) (by omega)
                  omega
              rw [hv1, List.nil_append]
              refine ⟨hch2, ?_, ?_⟩
              · intro e' he'
                have := hhd2 e' he'
                omega
              · rcases hcomp2 with ⟨e2, hl2, he2⟩ | ⟨hn2, hb2⟩
                · left
                  exact ⟨e2, hl2, he2⟩
                · right
                  exact ⟨hn2, by omega⟩
            · have hoffe : e.off = g - (sizes.take (fidx + d)).sum := by
                by_cases hd0 : fidx + d = fidx
                · rw [if_pos hd0] at ho1
                  rw [hd0]
                  exact ho1
                · rw [if_neg hd0] at ho1
                  have := hg_take (fidx + d) (by omega)
                  omega
              rw [hv1, List.singleton_append]
              refine ⟨?_, ?_, ?_⟩
              · rw [List.chain'_cons']
                refine ⟨?_, hch2⟩
                intro y hy
                have := hhd2 y (Option.mem_def.mp hy)
                omega
              · intro e' he'
                simp only [List.head?_cons, Option.some.injEq] at he'
                subst he'
                exact hoffe
              · rcases hcomp2 with ⟨e2, hl2, he2⟩ | ⟨hn2, hb2⟩
                · left
                  exact ⟨e2, getLast?_cons_of_getLast? hl2, he2⟩
                · left
                  refine ⟨e, ?_, by omega⟩
                  rw [hn2]
                  rfl
          · have hnil1 : FileView (frag_loop
                ((files_from sizes 0).drop fidx) fidx g c 0).1 i = [] :=
              FileView_eq_nil (fun e1 he1 => by
                have := (P.range e1 he1).2
                rw [hd3] at this
                omega)
            rw [hnil1, List.nil_append]
            obtain ⟨hch2, hhd2, hcomp2⟩ := R2.peri i (by omega) hi2
            have hgc := hgc_take i (by omega)
            have hgt := hg_take i (by omega)
            refine ⟨hch2, ?_, ?_⟩
            · intro e' he'
              have := hhd2 e' he'
              omega
            · rcases hcomp2 with ⟨e2, hl2, he2⟩ | ⟨hn2, hb2⟩
              · left
                exact ⟨e2, hl2, he2⟩
              · right
                exact ⟨hn2, by omega⟩
    · have hgeq : g = sizes.sum := by
        simp only [List.sum_cons] at h2
        omega
      rw [mkfs_dump_loop]
      dsimp only
      rw [if_neg hg]
      exact dump_stop_post sizes fidx g hgeq h4

/-- **C3.** Extent invariants: with an encoder that consumes at
least one byte per invocation and exactly the stream overall, the
pipeline never hits the `push_extent` panic, and for every file the
recorded extents have strictly increasing `off`, the last one reaches
the file size (a trailing empty file records none), and every event
has `off = 0` or `frag_off = 0`. -/
theorem C3_extent_invariants (sizes frags : List Nat)
    (h1 : ∀ c ∈ frags, 1 ≤ c) (h2 : frags.sum = sizes.sum) :
    (mkfs_dump_inode_file_data sizes frags).2 = true ∧
    ∀ i, i < sizes.length →
      List.Chain' (fun a b => a.off < b.off)
        (FileView (mkfs_dump_inode_file_data sizes frags).1 i) ∧
      (∀ e ∈ FileView (mkfs_dump_inode_file_data sizes frags).1 i,
        e.off = 0 ∨ e.frag_off = 0) ∧
      ((∃ e, (FileView (mkfs_dump_inode_file_data sizes frags).1 i).getLast?
          = some e ∧ e.off + e.len = sizes.getD i 0) ∨
       (FileView (mkfs_dump_inode_file_data sizes frags).1 i = [] ∧
        sizes.getD i 0 = 0)) := by
  have D := mkfs_dump_loop_spec sizes frags 0 0 h1 (by omega)
    (by
      intro hF
      rw [List.drop_zero] at hF
      have hl := files_from_length sizes 0
      rw [hF] at hl
      have : sizes = [] := by
        cases sizes
        · rfl
        · simp at hl
      rw [this]
      rfl)
    (by
      intro hF
      have hlen0 : 0 < sizes.length := by
        rw [ne_eq, List.drop_eq_nil_iff, files_from_length] at hF
        omega
      have h01 : (((files_from sizes 0).drop 0).headD (0, 0)).1 = 0 := by
        rw [headD_drop, files_from_getD sizes 0 0 hlen0]
        simp
      exact ⟨by omega, Or.inl h01.symm⟩)
  rw [List.drop_zero] at D
  refine ⟨D.ok, ?_⟩
  intro i hi
  obtain ⟨hch, hhd, hcomp⟩ := D.peri i (Nat.zero_le i) hi
  refine ⟨hch, fun e he => D.binv e (List.mem_filter.mp he).1, ?_⟩
  rcases hcomp with hA | ⟨hn, hb⟩
  · left
    exact hA
  · right
    exact ⟨hn, by omega⟩

/-- Witness for C3: files of sizes 5, 3 and 0 packed by two encoder
invocations of 4 bytes each. -/
theorem C3_extent_invariants_witness :
    (∀ c ∈ ([4, 4] : List Nat), 1 ≤ c) ∧
    ([4, 4] : List Nat).sum = ([5, 3, 0] : List Nat).sum ∧
    ((mkfs_dump_inode_file_data [5, 3, 0] [4, 4]).2 = true ∧
    ∀ i, i < ([5, 3, 0] : List Nat).length →
      List.Chain' (fun a b => a.off < b.off)
        (FileView (mkfs_dump_inode_file_data [5, 3, 0] [4, 4]).1 i) ∧
      (∀ e ∈ FileView (mkfs_dump_inode_file_data [5, 3, 0] [4, 4]).1 i,
        e.off = 0 ∨ e.frag_off = 0) ∧
      ((∃ e, (FileView (mkfs_dump_inode_file_data [5, 3, 0] [4, 4]).1
          i).getLast? = some e ∧
          e.off + e.len = ([5, 3, 0] : List Nat).getD i 0) ∨
       (FileView (mkfs_dump_inode_file_data [5, 3, 0] [4, 4]).1 i = [] ∧
        ([5, 3, 0] : List Nat).getD i 0 = 0))) :=
  ⟨by decide, by decide,
    C3_extent_invariants [5, 3, 0] [4, 4] (by decide) (by decide)⟩

/-! ### C7 — hard-link dedup and nlink bookkeeping -/

theorem inodes_inc_nlink_length (l : List MkfsInode) (id : Nat) :
    (inodes_inc_nlink l id).length = l.length := by
  induction l generalizing id with
  | nil => rfl
  | cons x xs ih =>
    cases id with
    | zero => rfl
    | succ n => simp [inodes_inc_nlink, ih]

theorem inode_at_inc_self (l : List MkfsInode) (id : Nat)
    (h : id < l.length) :
    inode_at (inodes_inc_nlink l id) id =
      { inode_at l id with nlink := (inode_at l id).nlink + 1 } := by
  induction l generalizing id with
  | nil => simp at h
  | cons x xs ih =>
    cases id with
    | zero => rfl
    | succ n =>
      simp only [inodes_inc_nlink, inode_at, List.getD_cons_succ] at *
      exact ih n (by simpa using h)

theorem inode_at_inc_other (l : List MkfsInode) (id j : Nat)
    (h : j ≠ id) :
    inode_at (inodes_inc_nlink l id) j = inode_at l j := by
  induction l generalizing id j with
  | nil => cases id <;> rfl
  | cons x xs ih =>
    cases id with
    | zero =>
      cases j with
      | zero => exact absurd rfl h
      | succ m => rfl
    | succ n =>
      cases j with
      | zero => rfl
      | succ m =>
        simp only [inodes_inc_nlink, inode_at, List.getD_cons_succ] at *
        exact ih n m (by omega)

theorem inode_at_append_lt (l : List MkfsInode) (x : MkfsInode) (j : Nat)
    (h : j < l.length) : inode_at (l ++ [x]) j = inode_at l j := by
  induction l generalizing j with
  | nil => simp at h
  | cons y ys ih =>
    cases j with
    | zero => rfl
    | succ m =>
      simp only [inode_at, List.cons_append, List.getD_cons_succ] at *
      exact ih m (by simpa using h)

theorem inode_at_append_self (l : List MkfsInode) (x : MkfsInode) :
    inode_at (l ++ [x]) l.length = x := by
  induction l with
  | nil => rfl
  | cons y ys ih =>
    simpa only [inode_at, List.cons_append, List.length_cons,
      List.getD_cons_succ] using ih

theorem table_get_cons_self (t : List (Nat × Nat)) (ino id : Nat) :
    table_get ((ino, id) :: t) ino = some id := by
  simp [table_get]

theorem table_get_cons_other (t : List (Nat × Nat)) (ino id k : Nat)
    (h : k ≠ ino) : table_get ((ino, id) :: t) k = table_get t k := by
  simp only [table_get, List.find?]
  rw [show (ino == k) = false from beq_false_of_ne (Ne.symm h)]

/-- Effect of the `File | Symlink` arm when the source ino is already
in the table: the registered inode's nlink is incremented. -/
theorem walk_alias_some (D : Nat → Prop) (st : MkfsState) (ino id : Nat)
    (kind : SrcKind) (hk : kind ≠ .dir)
    (hinv : table_ok st.inodes st.table D) (htg : table_get st.table ino = some id)
    (hnD : ¬ D ino) :
    WalkPost D st { st with inodes := inodes_inc_nlink st.inodes id }
      [⟨kind, ino, id, 0⟩] (fun k' => if ino = k' then 1 else 0)
      (fun _ => 0) := by
  obtain ⟨hid_lt, hid_ino, hid_dir⟩ := hinv ino id htg
  have hnotdir : (inode_at st.inodes id).isDir = false := by
    cases hd : (inode_at st.inodes id).isDir
    · rfl
    · exact absurd (hid_dir hd) hnD
  have hlen : (inodes_inc_nlink st.inodes id).length = st.inodes.length :=
    inodes_inc_nlink_length _ _
  have hat : ∀ j, (inode_at (inodes_inc_nlink st.inodes id) j).ino =
      (inode_at st.inodes j).ino ∧
      (inode_at (inodes_inc_nlink st.inodes id) j).isDir =
      (inode_at st.inodes j).isDir := by
    intro j
    by_cases hj : j = id
    · subst hj
      rw [inode_at_inc_self _ _ hid_lt]
      exact ⟨rfl, rfl⟩
    · rw [inode_at_inc_other _ _ _ hj]
      exact ⟨rfl, rfl⟩
  -- distinct table keys map to distinct inode ids (ino fields differ)
  have hkey : ∀ k id₀, table_get st.table k = some id₀ → k ≠ ino → id₀ ≠ id := by
    intro k id₀ hk0 hne hEq
    subst hEq
    obtain ⟨_, h2, _⟩ := hinv k id₀ hk0
    exact hne (h2 ▸ hid_ino ▸ rfl)
  refine ⟨?_, ?_, ?_, ?_, ?_, ?_, ?_, ?_⟩
  · intro k id₀ hk0
    obtain ⟨h1, h2, h3⟩ := hinv k id₀ hk0
    refine ⟨show id₀ < (inodes_inc_nlink st.inodes id).length by omega,
      (hat id₀).1.trans h2, fun hd => h3 (((hat id₀).2).symm.trans hd)⟩
  · show st.inodes.length ≤ (inodes_inc_nlink st.inodes id).length
    omega
  · intro j _
    exact hat j
  · intro j hj hdj
    show (inode_at (inodes_inc_nlink st.inodes id) j).nlink = _
    by_cases hEq : j = id
    · subst hEq
      rw [hdj] at hnotdir
      cases hnotdir
    · rw [inode_at_inc_other _ _ _ hEq]
      omega
  · intro k id₀ hk0
    exact hk0
  · intro k hDk
    unfold fileNlink
    by_cases hke : k = ino
    · subst hke
      simp only [htg]
      rw [inode_at_inc_self _ _ hid_lt]
      simp
    · cases hk0 : table_get st.table k with
      | none =>
        simp only [hk0]
        rw [if_neg (Ne.symm hke)]
      | some id₀ =>
        simp only [hk0]
        rw [inode_at_inc_other _ _ _ (hkey k id₀ hk0 hke),
          if_neg (Ne.symm hke)]
        omega
  · intro e he _
    simp only [List.mem_singleton] at he
    subst he
    refine ⟨htg, ?_, by simp⟩
    exact ((hat id).2).trans hnotdir
  · intro e he hed
    simp only [List.mem_singleton] at he
    subst he
    exact absurd hed hk

/-- Effect of the `File | Symlink` arm when the source ino is new: a
fresh inode with nlink 0 is created, incremented to 1, and inserted. -/
theorem walk_alias_none (D : Nat → Prop) (st : MkfsState) (ino : Nat)
    (kind : SrcKind) (hk : kind ≠ .dir)
    (hinv : table_ok st.inodes st.table D) (htg : table_get st.table ino = none)
    (hnD : ¬ D ino) :
    WalkPost D st
      { inodes := inodes_inc_nlink (st.inodes ++ ([⟨ino, false, 0⟩] : List MkfsInode))
          st.inodes.length,
        table := (ino, st.inodes.length) :: st.table }
      [⟨kind, ino, st.inodes.length, 0⟩]
      (fun k' => if ino = k' then 1 else 0) (fun _ => 0) := by
  have hN : (st.inodes ++ ([⟨ino, false, 0⟩] : List MkfsInode)).length = st.inodes.length + 1 := by
    simp
  have hlen : (inodes_inc_nlink (st.inodes ++ ([⟨ino, false, 0⟩] : List MkfsInode))
      st.inodes.length).length = st.inodes.length + 1 := by
    rw [inodes_inc_nlink_length, hN]
  have hatN : inode_at (inodes_inc_nlink (st.inodes ++ ([⟨ino, false, 0⟩] : List MkfsInode))
      st.inodes.length) st.inodes.length = ⟨ino, false, 1⟩ := by
    rw [inode_at_inc_self _ _ (by omega), inode_at_append_self]
  have hatlt : ∀ j, j < st.inodes.length →
      inode_at (inodes_inc_nlink (st.inodes ++ ([⟨ino, false, 0⟩] : List MkfsInode))
        st.inodes.length) j = inode_at st.inodes j := by
    intro j hj
    rw [inode_at_inc_other _ _ _ (by omega), inode_at_append_lt _ _ _ hj]
  refine ⟨?_, ?_, ?_, ?_, ?_, ?_, ?_, ?_⟩ <;>
    (try dsimp only [MkfsState.inodes, MkfsState.table])
  · intro k id₀ hk0
    by_cases hke : k = ino
    · subst hke
      rw [table_get_cons_self] at hk0
      cases hk0
      refine ⟨by omega, ?_, ?_⟩
      · rw [hatN]
      · rw [hatN]
        intro h
        cases h
    · rw [table_get_cons_other _ _ _ _ hke] at hk0
      obtain ⟨h1, h2, h3⟩ := hinv k id₀ hk0
      rw [hatlt id₀ h1]
      exact ⟨by omega, h2, h3⟩
  · simp [hlen]
  · intro j hj
    rw [hatlt j hj]
    exact ⟨rfl, rfl⟩
  · intro j hj hdj
    rw [hatlt j hj]
    omega
  · intro k id₀ hk0
    have hke : k ≠ ino := fun h => by rw [h, htg] at hk0; cases hk0
    rw [table_get_cons_other _ _ _ _ hke]
    exact hk0
  · intro k hDk
    unfold fileNlink
    by_cases hke : k = ino
    · subst hke
      simp only [table_get_cons_self, htg, hatN]
      simp
    · rw [table_get_cons_other _ _ _ _ hke]
      cases hk0 : table_get st.table k with
      | none =>
        simp only [hk0]
        rw [if_neg (Ne.symm hke)]
      | some id₀ =>
        obtain ⟨h1, _, _⟩ := hinv k id₀ hk0
        simp only [hk0, hatlt id₀ h1]
        rw [if_neg (Ne.symm hke)]
        omega
  · intro e he _
    simp only [List.mem_singleton] at he
    subst he
    refine ⟨table_get_cons_self _ _ _, ?_, by simp⟩
    rw [hatN]
  · intro e he hed
    simp only [List.mem_singleton] at he
    subst he
    exact absurd hed hk

/-- Walk postconditions compose, provided the second step performs no
parent-charging on inodes created by the first (`hd2`). -/
theorem walk_post_trans {D : Nat → Prop} {st st' st'' : MkfsState}
    {log1 log2 : List WalkLog} {cnt1 cnt2 cnt3 : Nat → Nat}
    {dinc1 dinc2 dinc3 : Nat → Nat}
    (h1 : WalkPost D st st' log1 cnt1 dinc1)
    (h2 : WalkPost D st' st'' log2 cnt2 dinc2)
    (hcnt : ∀ k, cnt3 k = cnt1 k + cnt2 k)
    (hdinc : ∀ j, j < st.inodes.length → dinc3 j = dinc1 j + dinc2 j)
    (hd2 : ∀ e ∈ log1, e.kind = .dir → dinc2 e.id = 0) :
    WalkPost D st st'' (log1 ++ log2) cnt3 dinc3 := by
  refine ⟨h2.inv, le_trans h1.len_mono h2.len_mono, ?_, ?_, ?_, ?_, ?_, ?_⟩
  · intro j hj
    have p1 := h1.pres j hj
    have p2 := h2.pres j (lt_of_lt_of_le hj h1.len_mono)
    exact ⟨p2.1.trans p1.1, p2.2.trans p1.2⟩
  · intro j hj hdj
    have p1 := h1.pres j hj
    have n2 := h2.dir_nlink j (lt_of_lt_of_le hj h1.len_mono)
      (p1.2.trans hdj)
    have n1 := h1.dir_nlink j hj hdj
    rw [n2, n1, hdinc j hj]
    omega
  · intro k id₀ hk0
    exact h2.table_ext k id₀ (h1.table_ext k id₀ hk0)
  · intro k hDk
    rw [h2.nlink_count k hDk, h1.nlink_count k hDk, hcnt]
    omega
  · intro e he hek
    rcases List.mem_append.mp he with he1 | he2
    · obtain ⟨htab, hdir, hcnt1⟩ := h1.log_file e he1 hek
      have hid_lt' : e.id < st'.inodes.length := (h1.inv e.ino e.id htab).1
      refine ⟨h2.table_ext _ _ htab, ?_, ?_⟩
      · exact (h2.pres e.id hid_lt').2.trans hdir
      · rw [hcnt]
        omega
    · obtain ⟨htab, hdir, hcnt2⟩ := h2.log_file e he2 hek
      refine ⟨htab, hdir, ?_⟩
      rw [hcnt]
      omega
  · intro e he hek
    rcases List.mem_append.mp he with he1 | he2
    · obtain ⟨hlo, hhi, hdir, hino, hnl⟩ := h1.log_dir e he1 hek
      refine ⟨hlo, lt_of_lt_of_le hhi h2.len_mono,
        (h2.pres e.id hhi).2.trans hdir, (h2.pres e.id hhi).1.trans hino, ?_⟩
      rw [h2.dir_nlink e.id hhi hdir, hnl, hd2 e he1 hek]
      omega
    · obtain ⟨hlo, hhi, hdir, hino, hnl⟩ := h2.log_dir e he2 hek
      exact ⟨le_trans h1.len_mono hlo, hhi, hdir, hino, hnl⟩

/-- The identity step. -/
theorem walk_post_refl (D : Nat → Prop) (st : MkfsState)
    (hinv : table_ok st.inodes st.table D) :
    WalkPost D st st [] (fun _ => 0) (fun _ => 0) := by
  refine ⟨hinv, le_refl _, fun j _ => ⟨rfl, rfl⟩, fun j _ _ => rfl,
    fun k id₀ h => h, fun k _ => rfl, ?_, ?_⟩
  · intro e he
    cases he
  · intro e he
    cases he

/-- `Inode::new` for a directory: appending a fresh inode (not yet in
the table) to the store. -/
theorem walk_post_append (D : Nat → Prop) (st : MkfsState) (x : MkfsInode)
    (hinv : table_ok st.inodes st.table D) :
    WalkPost D st { st with inodes := st.inodes ++ [x] } []
      (fun _ => 0) (fun _ => 0) := by
  refine ⟨?_, ?_, ?_, ?_, fun k id₀ h => h, ?_, ?_, ?_⟩
  · intro k id₀ hk0
    obtain ⟨h1, h2, h3⟩ := hinv k id₀ hk0
    rw [show ({ st with inodes := st.inodes ++ [x] } : MkfsState).inodes
      = st.inodes ++ [x] from rfl, inode_at_append_lt _ _ _ h1]
    refine ⟨?_, h2, h3⟩
    simp
    omega
  · simp
  · intro j hj
    rw [show ({ st with inodes := st.inodes ++ [x] } : MkfsState).inodes
      = st.inodes ++ [x] from rfl, inode_at_append_lt _ _ _ hj]
    exact ⟨rfl, rfl⟩
  · intro j hj hdj
    rw [show ({ st with inodes := st.inodes ++ [x] } : MkfsState).inodes
      = st.inodes ++ [x] from rfl, inode_at_append_lt _ _ _ hj]
    omega
  · intro k hDk
    unfold fileNlink
    cases hk0 : table_get st.table k with
    | none => rfl
    | some id₀ =>
      obtain ⟨h1, _, _⟩ := hinv k id₀ hk0
      simp only [inode_at_append_lt _ _ _ h1]
      omega
  · intro e he
    cases he
  · intro e he
    cases he

/-- `dir.inc_nlink()` for a directory child: charging one link to the
parent directory inode. -/
theorem walk_post_inc_dir (D : Nat → Prop) (st : MkfsState) (dirId : Nat)
    (hinv : table_ok st.inodes st.table D)
    (hlt : dirId < st.inodes.length)
    (hdir : (inode_at st.inodes dirId).isDir = true) :
    WalkPost D st { st with inodes := inodes_inc_nlink st.inodes dirId } []
      (fun _ => 0) (fun j => if j = dirId then 1 else 0) := by
  have hat : ∀ j, (inode_at (inodes_inc_nlink st.inodes dirId) j).ino =
      (inode_at st.inodes j).ino ∧
      (inode_at (inodes_inc_nlink st.inodes dirId) j).isDir =
      (inode_at st.inodes j).isDir := by
    intro j
    by_cases hj : j = dirId
    · subst hj
      rw [inode_at_inc_self _ _ hlt]
      exact ⟨rfl, rfl⟩
    · rw [inode_at_inc_other _ _ _ hj]
      exact ⟨rfl, rfl⟩
  refine ⟨?_, ?_, ?_, ?_, fun k id₀ h => h, ?_, ?_, ?_⟩
  · intro k id₀ hk0
    obtain ⟨h1, h2, h3⟩ := hinv k id₀ hk0
    exact ⟨show id₀ < (inodes_inc_nlink st.inodes dirId).length by
        rw [inodes_inc_nlink_length]; omega,
      (hat id₀).1.trans h2, fun hd => h3 (((hat id₀).2).symm.trans hd)⟩
  · show st.inodes.length ≤ (inodes_inc_nlink st.inodes dirId).length
    rw [inodes_inc_nlink_length]
  · intro j hj
    exact hat j
  · intro j hj hdj
    show (inode_at (inodes_inc_nlink st.inodes dirId) j).nlink = _
    by_cases hj' : j = dirId
    · subst hj'
      rw [inode_at_inc_self _ _ hlt, if_pos rfl]
    · rw [inode_at_inc_other _ _ _ hj', if_neg hj']
      omega
  · intro k hDk
    unfold fileNlink
    cases hk0 : table_get st.table k with
    | none => rfl
    | some id₀ =>
      obtain ⟨h1, h2, h3⟩ := hinv k id₀ hk0
      have hne : id₀ ≠ dirId := by
        intro hEq
        subst hEq
        exact hDk (h3 hdir)
      simp only [inode_at_inc_other _ _ _ hne]
      omega
  · intro e he
    cases he
  · intro e he
    cases he

/-- Exchange the count and charge functions for pointwise-equal ones
(the charge function only matters on pre-existing inodes). -/
theorem walk_post_congr {D : Nat → Prop} {st st' : MkfsState}
    {log : List WalkLog} {cnt cnt' dinc dinc' : Nat → Nat}
    (h : WalkPost D st st' log cnt dinc)
    (hc : ∀ k, cnt' k = cnt k)
    (hd : ∀ j, j < st.inodes.length → dinc' j = dinc j) :
    WalkPost D st st' log cnt' dinc' := by
  refine ⟨h.inv, h.len_mono, h.pres, ?_, h.table_ext, ?_, ?_, h.log_dir⟩
  · intro j hj hdj
    rw [hd j hj]
    exact h.dir_nlink j hj hdj
  · intro k hDk
    rw [hc]
    exact h.nlink_count k hDk
  · intro e he hek
    obtain ⟨h1, h2, h3⟩ := h.log_file e he hek
    exact ⟨h1, h2, by rw [hc]; exact h3⟩

/-- `insert_inode(ino, inode)` after the match, for a directory whose
ino was absent. -/
theorem walk_post_insert (D : Nat → Prop) (st : MkfsState) (ino id : Nat)
    (hinv : table_ok st.inodes st.table D)
    (habs : table_get st.table ino = none)
    (hlt : id < st.inodes.length)
    (hino : (inode_at st.inodes id).ino = ino)
    (hDino : D ino) :
    WalkPost D st { st with table := (ino, id) :: st.table } []
      (fun _ => 0) (fun _ => 0) := by
  refine ⟨?_, le_refl _, fun j _ => ⟨rfl, rfl⟩, fun j _ _ => rfl, ?_, ?_, ?_, ?_⟩
  · intro k id₀ hk0
    by_cases hke : k = ino
    · subst hke
      rw [show ({ st with table := (k, id) :: st.table } : MkfsState).table
        = (k, id) :: st.table from rfl, table_get_cons_self] at hk0
      cases hk0
      exact ⟨hlt, hino, fun _ => hDino⟩
    · rw [show ({ st with table := (ino, id) :: st.table } : MkfsState).table
        = (ino, id) :: st.table from rfl, table_get_cons_other _ _ _ _ hke] at hk0
      exact hinv k id₀ hk0
  · intro k id₀ hk0
    have hke : k ≠ ino := fun h => by rw [h, habs] at hk0; cases hk0
    show table_get ((ino, id) :: st.table) k = some id₀
    rw [table_get_cons_other _ _ _ _ hke]
    exact hk0
  · intro k hDk
    have hke : k ≠ ino := fun h => hDk (h ▸ hDino)
    unfold fileNlink
    show (match table_get ((ino, id) :: st.table) k with
      | some id' => (inode_at st.inodes id').nlink
      | none => 0) = _
    rw [table_get_cons_other _ _ _ _ hke]
    omega
  · intro e he
    cases he
  · intro e he
    cases he


mutual
/-- Main specification of `mkfs_load_inode`, by mutual induction with
the child-list loop, relative to the set `D` of directory inos. -/
theorem walk_node_spec (D : Nat → Prop) (t : SrcNode) (st : MkfsState)
    (hinv : table_ok st.inodes st.table D)
    (hDdir : ∀ k, k ∈ dir_inos_node t → D k)
    (hDfile : ∀ k, D k → count_ino_node t k = 0) :
    WalkPost D st (mkfs_load_inode t st).2.1 (mkfs_load_inode t st).2.2
      (count_ino_node t) (fun _ => 0) := by
  match t with
  | .file ino =>
    have hnD : ¬ D ino := fun h => by
      have := hDfile ino h
      simp [count_ino_node] at this
    cases htg : table_get st.table ino with
    | some id =>
      have hred : mkfs_load_inode (.file ino) st =
          (id, { st with inodes := inodes_inc_nlink st.inodes id },
           [⟨.file, ino, id, 0⟩]) := by
        simp [mkfs_load_inode, htg]
      rw [hred]
      exact walk_alias_some D st ino id .file (by simp) hinv htg hnD
    | none =>
      have hred : mkfs_load_inode (.file ino) st =
          (st.inodes.length,
           { inodes := inodes_inc_nlink
               (st.inodes ++ [⟨ino, false, 0⟩]) st.inodes.length,
             table := (ino, st.inodes.length) :: st.table },
           [⟨.file, ino, st.inodes.length, 0⟩]) := by
        simp [mkfs_load_inode, htg]
      rw [hred]
      exact walk_alias_none D st ino .file (by simp) hinv htg hnD
  | .symlink ino =>
    have hnD : ¬ D ino := fun h => by
      have := hDfile ino h
      simp [count_ino_node] at this
    cases htg : table_get st.table ino with
    | some id =>
      have hred : mkfs_load_inode (.symlink ino) st =
          (id, { st with inodes := inodes_inc_nlink st.inodes id },
           [⟨.symlink, ino, id, 0⟩]) := by
        simp [mkfs_load_inode, htg]
      rw [hred]
      exact walk_alias_some D st ino id .symlink (by simp) hinv htg hnD
    | none =>
      have hred : mkfs_load_inode (.symlink ino) st =
          (st.inodes.length,
           { inodes := inodes_inc_nlink
               (st.inodes ++ [⟨ino, false, 0⟩]) st.inodes.length,
             table := (ino, st.inodes.length) :: st.table },
           [⟨.symlink, ino, st.inodes.length, 0⟩]) := by
        simp [mkfs_load_inode, htg]
      rw [hred]
      exact walk_alias_none D st ino .symlink (by simp) hinv htg hnD
  | .dir ino children =>
    have hD_ino : D ino := hDdir ino (by simp [dir_inos_node])
    have hpost0 := walk_post_append D st ⟨ino, true, 2⟩ hinv
    have hdirN : inode_at (st.inodes ++ [(⟨ino, true, 2⟩ : MkfsInode)])
        st.inodes.length = ⟨ino, true, 2⟩ := inode_at_append_self _ _
    have hlt1 : st.inodes.length <
        ({ st with inodes := st.inodes ++ [(⟨ino, true, 2⟩ : MkfsInode)] }
          : MkfsState).inodes.length := by
      simp
    have hdir1 : (inode_at
        ({ st with inodes := st.inodes ++ [(⟨ino, true, 2⟩ : MkfsInode)] }
          : MkfsState).inodes st.inodes.length).isDir = true := by
      show (inode_at (st.inodes ++ [(⟨ino, true, 2⟩ : MkfsInode)])
        st.inodes.length).isDir = true
      rw [hdirN]
    have hfor := walk_forest_spec D children st.inodes.length
      { st with inodes := st.inodes ++ [⟨ino, true, 2⟩] }
      hpost0.inv
      (fun k hk => hDdir k (by
        simp only [dir_inos_node, List.mem_cons]
        exact Or.inr hk))
      (fun k hDk => by
        have := hDfile k hDk
        simpa [count_ino_node] using this)
      hlt1 hdir1
    have hcomb1 : WalkPost D st
        (mkfs_load_forest children st.inodes.length
          { st with inodes := st.inodes ++ [⟨ino, true, 2⟩] }).1
        ([] ++ (mkfs_load_forest children st.inodes.length
          { st with inodes := st.inodes ++ [⟨ino, true, 2⟩] }).2)
        (count_ino_forest children) (fun _ => 0) := by
      refine walk_post_trans hpost0 hfor (fun k => by omega) ?_ ?_
      · intro j hj
        rw [if_neg (by omega)]
      · intro e he
        cases he
    rw [List.nil_append] at hcomb1
    have hNlt : st.inodes.length <
        (mkfs_load_forest children st.inodes.length
          { st with inodes := st.inodes ++ [⟨ino, true, 2⟩] }).1.inodes.length :=
      lt_of_lt_of_le hlt1 hfor.len_mono
    have hpresN := hfor.pres st.inodes.length hlt1
    have hdirN2 : (inode_at (mkfs_load_forest children st.inodes.length
        { st with inodes := st.inodes ++ [⟨ino, true, 2⟩] }).1.inodes
        st.inodes.length).isDir = true := by
      rw [hpresN.2]
      exact hdir1
    have hinoN2 : (inode_at (mkfs_load_forest children st.inodes.length
        { st with inodes := st.inodes ++ [⟨ino, true, 2⟩] }).1.inodes
        st.inodes.length).ino = ino := by
      rw [hpresN.1]
      show (inode_at (st.inodes ++ [(⟨ino, true, 2⟩ : MkfsInode)])
        st.inodes.length).ino = ino
      rw [hdirN]
    have hnlN2 : (inode_at (mkfs_load_forest children st.inodes.length
        { st with inodes := st.inodes ++ [⟨ino, true, 2⟩] }).1.inodes
        st.inodes.length).nlink = 2 + src_forest_dir_count children := by
      have h1 := hfor.dir_nlink st.inodes.length hlt1 hdir1
      rw [h1, if_pos rfl]
      have h2 : (inode_at
          ({ st with inodes := st.inodes ++ [(⟨ino, true, 2⟩ : MkfsInode)] }
            : MkfsState).inodes st.inodes.length).nlink = 2 := by
        show (inode_at (st.inodes ++ [(⟨ino, true, 2⟩ : MkfsInode)])
          st.inodes.length).nlink = 2
        rw [hdirN]
      rw [h2]
    by_cases hsome : (table_get (mkfs_load_forest children st.inodes.length
        { st with inodes := st.inodes ++ [⟨ino, true, 2⟩] }).1.table ino).isSome
    · have hred : mkfs_load_inode (.dir ino children) st =
          (st.inodes.length,
           (mkfs_load_forest children st.inodes.length
             { st with inodes := st.inodes ++ [⟨ino, true, 2⟩] }).1,
           ⟨.dir, ino, st.inodes.length, src_forest_dir_count children⟩ ::
             (mkfs_load_forest children st.inodes.length
               { st with inodes := st.inodes ++ [⟨ino, true, 2⟩] }).2) := by
        simp only [mkfs_load_inode, if_pos hsome]
      rw [hred]
      refine ⟨hcomb1.inv, hcomb1.len_mono, hcomb1.pres, hcomb1.dir_nlink,
        hcomb1.table_ext, hcomb1.nlink_count, ?_, ?_⟩
      · intro e he hek
        rcases List.mem_cons.mp he with he1 | he2
        · subst he1
          exact absurd rfl hek
        · exact hcomb1.log_file e he2 hek
      · intro e he hek
        rcases List.mem_cons.mp he with he1 | he2
        · subst he1
          exact ⟨le_refl _, hNlt, hdirN2, hinoN2, hnlN2⟩
        · exact hcomb1.log_dir e he2 hek
    · have habs : table_get (mkfs_load_forest children st.inodes.length
          { st with inodes := st.inodes ++ [⟨ino, true, 2⟩] }).1.table ino
          = none := Option.not_isSome_iff_eq_none.mp hsome
      have hins := walk_post_insert D _ ino st.inodes.length hcomb1.inv
        habs hNlt hinoN2 hD_ino
      have hcomb2 : WalkPost D st
          { (mkfs_load_forest children st.inodes.length
              { st with inodes := st.inodes ++ [⟨ino, true, 2⟩] }).1 with
            table := (ino, st.inodes.length) ::
              (mkfs_load_forest children st.inodes.length
                { st with inodes := st.inodes ++ [⟨ino, true, 2⟩] }).1.table }
          ((mkfs_load_forest children st.inodes.length
            { st with inodes := st.inodes ++ [⟨ino, true, 2⟩] }).2 ++ [])
          (count_ino_forest children) (fun _ => 0) :=
        walk_post_trans hcomb1 hins (fun k => by omega)
          (fun j hj => by omega) (fun e he hek => rfl)
      rw [List.append_nil] at hcomb2
      have hred : mkfs_load_inode (.dir ino children) st =
          (st.inodes.length,
           { (mkfs_load_forest children st.inodes.length
               { st with inodes := st.inodes ++ [⟨ino, true, 2⟩] }).1 with
             table := (ino, st.inodes.length) ::
               (mkfs_load_forest children st.inodes.length
                 { st with inodes := st.inodes ++ [⟨ino, true, 2⟩] }).1.table },
           ⟨.dir, ino, st.inodes.length, src_forest_dir_count children⟩ ::
             (mkfs_load_forest children st.inodes.length
               { st with inodes := st.inodes ++ [⟨ino, true, 2⟩] }).2) := by
        simp only [mkfs_load_inode, if_neg hsome]
      rw [hred]
      refine ⟨hcomb2.inv, hcomb2.len_mono, hcomb2.pres, hcomb2.dir_nlink,
        hcomb2.table_ext, hcomb2.nlink_count, ?_, ?_⟩
      · intro e he hek
        rcases List.mem_cons.mp he with he1 | he2
        · subst he1
          exact absurd rfl hek
        · exact hcomb2.log_file e he2 hek
      · intro e he hek
        rcases List.mem_cons.mp he with he1 | he2
        · subst he1
          refine ⟨le_refl _, hNlt, hdirN2, hinoN2, hnlN2⟩
        · exact hcomb2.log_dir e he2 hek

/-- Specification of the child-list loop (`mkfs_load_inode_dir` body). -/
theorem walk_forest_spec (D : Nat → Prop) (f : SrcForest) (dirId : Nat)
    (st : MkfsState)
    (hinv : table_ok st.inodes st.table D)
    (hDdir : ∀ k, k ∈ dir_inos_forest f → D k)
    (hDfile : ∀ k, D k → count_ino_forest f k = 0)
    (hlt : dirId < st.inodes.length)
    (hdir : (inode_at st.inodes dirId).isDir = true) :
    WalkPost D st (mkfs_load_forest f dirId st).1
      (mkfs_load_forest f dirId st).2 (count_ino_forest f)
      (fun j => if j = dirId then src_forest_dir_count f else 0) := by
  match f with
  | .nil =>
    refine walk_post_congr (walk_post_refl D st hinv) (fun k => rfl) ?_
    intro j hj
    simp [src_forest_dir_count]
  | .cons child rest =>
    have hchild := walk_node_spec D child st hinv
      (fun k hk => hDdir k (by
        simp only [dir_inos_forest, List.mem_append]
        exact Or.inl hk))
      (fun k hDk => by
        have := hDfile k hDk
        simp only [count_ino_forest] at this
        omega)
    have hltc : dirId < (mkfs_load_inode child st).2.1.inodes.length :=
      lt_of_lt_of_le hlt hchild.len_mono
    have hdirc : (inode_at (mkfs_load_inode child st).2.1.inodes
        dirId).isDir = true := by
      rw [(hchild.pres dirId hlt).2]
      exact hdir
    cases hisdir : child.isDir with
    | true =>
      have hinc := walk_post_inc_dir D (mkfs_load_inode child st).2.1 dirId
        hchild.inv hltc hdirc
      have h12 : WalkPost D st
          { (mkfs_load_inode child st).2.1 with
            inodes := inodes_inc_nlink
              (mkfs_load_inode child st).2.1.inodes dirId }
          ((mkfs_load_inode child st).2.2 ++ [])
          (count_ino_node child)
          (fun j => if j = dirId then 1 else 0) :=
        walk_post_trans hchild hinc (fun k => by omega)
          (fun j hj => (Nat.zero_add _).symm)
          (fun e he hek => by
            obtain ⟨hlo, _, _, _, _⟩ := hchild.log_dir e he hek
            rw [if_neg (by omega)])
      rw [List.append_nil] at h12
      have hrest := walk_forest_spec D rest dirId
        { (mkfs_load_inode child st).2.1 with
          inodes := inodes_inc_nlink
            (mkfs_load_inode child st).2.1.inodes dirId }
        hinc.inv
        (fun k hk => hDdir k (by
          simp only [dir_inos_forest, List.mem_append]
          exact Or.inr hk))
        (fun k hDk => by
          have := hDfile k hDk
          simp only [count_ino_forest] at this
          omega)
        (lt_of_lt_of_le hltc hinc.len_mono)
        (by rw [(hinc.pres dirId hltc).2]; exact hdirc)
      have hfinal : WalkPost D st
          (mkfs_load_forest rest dirId
            { (mkfs_load_inode child st).2.1 with
              inodes := inodes_inc_nlink
                (mkfs_load_inode child st).2.1.inodes dirId }).1
          ((mkfs_load_inode child st).2.2 ++
            (mkfs_load_forest rest dirId
              { (mkfs_load_inode child st).2.1 with
                inodes := inodes_inc_nlink
                  (mkfs_load_inode child st).2.1.inodes dirId }).2)
          (count_ino_forest (.cons child rest))
          (fun j => if j = dirId
            then src_forest_dir_count (.cons child rest) else 0) :=
        walk_post_trans h12 hrest
          (fun k => by simp only [count_ino_forest])
          (fun j hj => by
            by_cases hjd : j = dirId
            · subst hjd
              rw [if_pos rfl, if_pos rfl, if_pos rfl]
              simp only [src_forest_dir_count, hisdir, if_pos]
            · rw [if_neg hjd, if_neg hjd, if_neg hjd])
          (fun e he hek => by
            obtain ⟨hlo, _, _, _, _⟩ := h12.log_dir e he hek
            rw [if_neg (by omega)])
      have hred : mkfs_load_forest (.cons child rest) dirId st =
          ((mkfs_load_forest rest dirId
            { (mkfs_load_inode child st).2.1 with
              inodes := inodes_inc_nlink
                (mkfs_load_inode child st).2.1.inodes dirId }).1,
           (mkfs_load_inode child st).2.2 ++
            (mkfs_load_forest rest dirId
              { (mkfs_load_inode child st).2.1 with
                inodes := inodes_inc_nlink
                  (mkfs_load_inode child st).2.1.inodes dirId }).2) := by
        simp only [mkfs_load_forest, hisdir, if_true]
      rw [hred]
      exact hfinal
    | false =>
      have hrest := walk_forest_spec D rest dirId
        (mkfs_load_inode child st).2.1
        hchild.inv
        (fun k hk => hDdir k (by
          simp only [dir_inos_forest, List.mem_append]
          exact Or.inr hk))
        (fun k hDk => by
          have := hDfile k hDk
          simp only [count_ino_forest] at this
          omega)
        hltc hdirc
      have hfinal : WalkPost D st
          (mkfs_load_forest rest dirId (mkfs_load_inode child st).2.1).1
          ((mkfs_load_inode child st).2.2 ++
            (mkfs_load_forest rest dirId (mkfs_load_inode child st).2.1).2)
          (count_ino_forest (.cons child rest))
          (fun j => if j = dirId
            then src_forest_dir_count (.cons child rest) else 0) :=
        walk_post_trans hchild hrest
          (fun k => by simp only [count_ino_forest])
          (fun j hj => by
            by_cases hjd : j = dirId
            · subst hjd
              rw [if_pos rfl, if_pos rfl]
              simp [src_forest_dir_count, hisdir]
            · rw [if_neg hjd, if_neg hjd])
          (fun e he hek => by
            obtain ⟨hlo, _, _, _, _⟩ := hchild.log_dir e he hek
            rw [if_neg (by omega)])
      have hred : mkfs_load_forest (.cons child rest) dirId st =
          ((mkfs_load_forest rest dirId (mkfs_load_inode child st).2.1).1,
           (mkfs_load_inode child st).2.2 ++
            (mkfs_load_forest rest dirId (mkfs_load_inode child st).2.1).2) := by
        simp [mkfs_load_forest, hisdir]
      rw [hred]
      exact hfinal
end

/-- **C7.** Hard-link dedup and nlink convention: after the build-time
tree walk of a source tree `T` (whose directory inos never alias a
file/symlink ino — true of any real filesystem, where an inode number
identifies one object and directories cannot be hard-linked), (a) any
two non-directory walk entries sharing a source ino resolve to the
same inode index, (b) every directory entry's inode has
`nlink = 2 + `(its number of subdirectory children), and (c) every
non-directory entry's inode has `nlink` equal to the number of
discovered paths carrying that ino in `T`. -/
theorem C7_hardlink_dedup_and_nlink (T : SrcNode)
    (hD : ∀ k ∈ dir_inos_node T, count_ino_node T k = 0) :
    (∀ e1 ∈ (mkfs_load_inode T ⟨[], []⟩).2.2,
      ∀ e2 ∈ (mkfs_load_inode T ⟨[], []⟩).2.2,
      e1.kind ≠ .dir → e2.kind ≠ .dir → e1.ino = e2.ino →
      e1.id = e2.id) ∧
    (∀ e ∈ (mkfs_load_inode T ⟨[], []⟩).2.2, e.kind = .dir →
      (inode_at (mkfs_load_inode T ⟨[], []⟩).2.1.inodes e.id).nlink =
        2 + e.ndirs) ∧
    (∀ e ∈ (mkfs_load_inode T ⟨[], []⟩).2.2, e.kind ≠ .dir →
      (inode_at (mkfs_load_inode T ⟨[], []⟩).2.1.inodes e.id).nlink =
        count_ino_node T e.ino) := by
  have hpost := walk_node_spec (fun k => k ∈ dir_inos_node T) T ⟨[], []⟩
    (fun k id h => by simp [table_get] at h)
    (fun k hk => hk)
    (fun k hk => hD k hk)
  refine ⟨?_, ?_, ?_⟩
  · intro e1 he1 e2 he2 hk1 hk2 hino
    have h1 := (hpost.log_file e1 he1 hk1).1
    have h2 := (hpost.log_file e2 he2 hk2).1
    rw [hino] at h1
    rw [h1] at h2
    exact (Option.some.injEq _ _).mp h2
  · intro e he hk
    exact (hpost.log_dir e he hk).2.2.2.2
  · intro e he hk
    obtain ⟨htab, _, hcnt⟩ := hpost.log_file e he hk
    have hnD : ¬ e.ino ∈ dir_inos_node T := fun hmem => by
      have := hD e.ino hmem
      omega
    have hfn := hpost.nlink_count e.ino hnD
    have h0 : fileNlink ([] : List MkfsInode) ([] : List (Nat × Nat))
        e.ino = 0 := by
      simp [fileNlink, table_get]
    rw [h0] at hfn
    have hfn2 : fileNlink (mkfs_load_inode T ⟨[], []⟩).2.1.inodes
        (mkfs_load_inode T ⟨[], []⟩).2.1.table e.ino =
        (inode_at (mkfs_load_inode T ⟨[], []⟩).2.1.inodes e.id).nlink := by
      rw [fileNlink, htab]
    rw [hfn2] at hfn
    omega

/-- Witness for C7: a directory (ino 1) holding two hard links to the
file with ino 2 and one subdirectory (ino 3). -/
theorem C7_hardlink_dedup_and_nlink_witness :
    (∀ k ∈ dir_inos_node
        (.dir 1 (.cons (.file 2) (.cons (.file 2)
          (.cons (.dir 3 .nil) .nil)))),
      count_ino_node
        (.dir 1 (.cons (.file 2) (.cons (.file 2)
          (.cons (.dir 3 .nil) .nil)))) k = 0) ∧
    ((∀ e1 ∈ (mkfs_load_inode
        (.dir 1 (.cons (.file 2) (.cons (.file 2)
          (.cons (.dir 3 .nil) .nil)))) ⟨[], []⟩).2.2,
      ∀ e2 ∈ (mkfs_load_inode
        (.dir 1 (.cons (.file 2) (.cons (.file 2)
          (.cons (.dir 3 .nil) .nil)))) ⟨[], []⟩).2.2,
      e1.kind ≠ .dir → e2.kind ≠ .dir → e1.ino = e2.ino →
      e1.id = e2.id) ∧
    (∀ e ∈ (mkfs_load_inode
        (.dir 1 (.cons (.file 2) (.cons (.file 2)
          (.cons (.dir 3 .nil) .nil)))) ⟨[], []⟩).2.2, e.kind = .dir →
      (inode_at (mkfs_load_inode
        (.dir 1 (.cons (.file 2) (.cons (.file 2)
          (.cons (.dir 3 .nil) .nil)))) ⟨[], []⟩).2.1.inodes e.id).nlink =
        2 + e.ndirs) ∧
    (∀ e ∈ (mkfs_load_inode
        (.dir 1 (.cons (.file 2) (.cons (.file 2)
          (.cons (.dir 3 .nil) .nil)))) ⟨[], []⟩).2.2, e.kind ≠ .dir →
      (inode_at (mkfs_load_inode
        (.dir 1 (.cons (.file 2) (.cons (.file 2)
          (.cons (.dir 3 .nil) .nil)))) ⟨[], []⟩).2.1.inodes e.id).nlink =
        count_ino_node
          (.dir 1 (.cons (.file 2) (.cons (.file 2)
            (.cons (.dir 3 .nil) .nil)))) e.ino)) :=
  ⟨by decide, C7_hardlink_dedup_and_nlink _ (by decide)⟩

end CodexFS
